import Mathlib

/-!
Genetic-algorithm engine (`ga.c`): shallow embedding and verified properties.

The C functions `GAselect`, `GAnextGen`, `GArun`, `less`, `exch`, `partition`,
`quicksort` and `GAsort` of `src/ga.c` are embedded as Lean functions, one definition per C
function and one per loop. The file has three parts: the embedding, the vocabulary in which
the properties are stated, and the lemmas and properties.

Modelling conventions
* `double` values are exact rationals (`ℚ`): finite values, exact arithmetic, the usual
  total order. Rounding, infinities and NaN are not modelled.
* `int` values are `Int`. Every index that the code computes stays between `-1` and the
  array size. The subtraction `popSz-1` that `GAselect` and `GAsort` apply to the size they
  are given is evaluated by `decr`: at the least value `INT_MIN` of `int` it overflows, which
  is undefined behaviour in C and the error `Err.fault` here.
* `void *` individuals are addresses (`Nat`), `NULL` being `0`.
* A pointer to an array (`Population = void **`, `double *`) is `Option (List _)`: `none`
  is the null pointer, `some l` a block of `l.length` cells. Reading or writing outside the
  block, or through the null pointer, is the error `Err.fault` (undefined behaviour in C).
  Arrays are values: a function that updates an array in place returns the new content.
* `malloc` asks the environment whether the allocation succeeds; a fresh block of `n` cells
  holds `n` default values, which the code never reads before writing them.
* `while` loops and the recursion of `quicksort` carry a step budget; exhausting it is the
  error `Err.fuel`. `for` loops with a fixed trip count recurse on that count.
* The caller-supplied functions (`clone`, `deleteIndividual`, `crossover`, `mutate`, the
  selector, the callback) and the random source act on a state `σ`; the embedding threads it
  through and keeps a log of the calls that were made (`World.log`). The fitness function is a
  pure function of the individual, and the callback does not write to the population array.
* The redirection of `stderr` in `GArun` and the `free` of the fitness buffers are not
  modelled; the `free` of the old population is recorded in the log.
-/

namespace GA

/-! ## Memory model -/

/-- Ways in which the embedded code can fail to produce a value. -/
inductive Err where
  | fault
  | fuel
  deriving DecidableEq, Repr

deriving instance DecidableEq for Except

/-- An individual: an untyped address (`void *`). -/
abbrev Individual := Nat

/-- The null address. -/
def NULL : Individual := 0

/-- Pointer to an array of cells; `none` is the null pointer. -/
abbrev Ptr (β : Type) := Option (List β)

/-- Population of individuals (`typedef void ** Population`). -/
abbrev Population := Ptr Individual

/-- Read `p[i]`. -/
def rd {β : Type} (p : Ptr β) (i : Int) : Except Err β :=
  match p with
  | none => .error .fault
  | some l =>
    if 0 ≤ i then
      match l[i.toNat]? with
      | some v => .ok v
      | none => .error .fault
    else .error .fault

/-- Write `p[i] = v`. -/
def wr {β : Type} (p : Ptr β) (i : Int) (v : β) : Except Err (Ptr β) :=
  match p with
  | none => .error .fault
  | some l =>
    if 0 ≤ i ∧ i.toNat < l.length then .ok (some (l.set i.toNat v))
    else .error .fault

/-- The least value of the C type `int` (32 bits). -/
def INT_MIN : Int := -2147483648

/-- The value of the `int` expression `x - 1`. For `x = INT_MIN` the subtraction overflows:
undefined behaviour in C, the error `Err.fault` here. -/
def decr (x : Int) : Except Err Int :=
  if INT_MIN < x then .ok (x - 1) else .error .fault

/-! ## Quicksort (`less`, `exch`, `partition`, `quicksort`) -/

/-- The comparison `less` of `ga.c`: `return (x > y);`. -/
def less (x y : ℚ) : Bool := decide (x > y)

/-- Exchange `a[i]` with `a[j]` and `population[i]` with `population[j]`. -/
def exch (population : Population) (a : Ptr ℚ) (i j : Int) :
    Except Err (Population × Ptr ℚ) := do
  let swap ← rd a i
  let aj ← rd a j
  let a ← wr a i aj
  let a ← wr a j swap
  let temp ← rd population i
  let pj ← rd population j
  let population ← wr population i pj
  let population ← wr population j temp
  pure (population, a)

/-- The loop `while (less(a[++i], a[right])) ;`, entered with the value of `i` before the
increment; returns the final `i`. -/
def scanUp : Nat → Ptr ℚ → Int → Int → Except Err Int
  | 0, _, _, _ => .error .fuel
  | fuel + 1, a, right, i => do
    let i := i + 1
    let x ← rd a i
    let p ← rd a right
    if less x p then scanUp fuel a right i else pure i

/-- The loop `while (less(a[right], a[--j])) if (j == left) break;`, entered with the value
of `j` before the decrement; returns the final `j`. -/
def scanDown : Nat → Ptr ℚ → Int → Int → Int → Except Err Int
  | 0, _, _, _, _ => .error .fuel
  | fuel + 1, a, left, right, j => do
    let j := j - 1
    let p ← rd a right
    let x ← rd a j
    if less p x then
      if j = left then pure j else scanDown fuel a left right j
    else pure j

/-- The `while (1)` loop of `partition`, entered with the current `i` and `j`; returns the
arrays and the value of `i` at the `break`. -/
def partitionLoop : Nat → Population → Ptr ℚ → Int → Int → Int → Int →
    Except Err (Population × Ptr ℚ × Int)
  | 0, _, _, _, _, _, _ => .error .fuel
  | fuel + 1, population, a, left, right, i, j => do
    let i ← scanUp fuel a right i
    let j ← scanDown fuel a left right j
    if i ≥ j then pure (population, a, i)
    else do
      let (population, a) ← exch population a i j
      partitionLoop fuel population a left right i j

/-- The function `partition` of `ga.c`: partition `a[left..right]` around `a[right]`. -/
def partition (fuel : Nat) (population : Population) (a : Ptr ℚ) (left right : Int) :
    Except Err (Population × Ptr ℚ × Int) := do
  let (population, a, i) ← partitionLoop fuel population a left right (left - 1) right
  let (population, a) ← exch population a i right
  pure (population, a, i)

/-- The function `quicksort` of `ga.c`. -/
def quicksort : Nat → Population → Ptr ℚ → Int → Int → Except Err (Population × Ptr ℚ)
  | 0, population, a, left, right =>
    if right ≤ left then pure (population, a) else .error .fuel
  | fuel + 1, population, a, left, right =>
    if right ≤ left then pure (population, a)
    else do
      let (population, a, i) ← partition fuel population a left right
      let (population, a) ← quicksort fuel population a left (i - 1)
      quicksort fuel population a (i + 1) right

/-! ## Calls to the outside world

The functions supplied by the caller and the library functions used by `ga.c` act on a state
`σ`. Every call made by the engine is recorded in a log. -/

/-- A call made by the engine, with its arguments. -/
inductive Event where
  | fitness (x : Individual)
  | clone (x : Individual)
  | crossover (x1 x2 : Individual)
  | mutate (x : Individual)
  | select (population : Population) (fitnessValues : Ptr ℚ) (sumOfFitness : ℚ) (popSz : Int)
  | deleteIndividual (x : Individual)
  | free (population : Population)
  | callback (i : Int) (population : Population) (popSz : Int)
  | GAnextGen (population : Population) (oldPopSz newPopSz : Int) (keepOldPopulation : Int)
  | GAsort (population : Population) (populationSz : Int)
  deriving DecidableEq, Repr

/-- State of a run: the state of the outside world and the log of calls, oldest first. -/
structure World (σ : Type) where
  user : σ
  log : List Event

/-- A computation of the engine: it may fail, and it always leaves a world behind. -/
def M (σ : Type) (β : Type) : Type := World σ → Except Err β × World σ

/-- Sequential composition; an error stops the computation and keeps the world. -/
def M.bind {σ β γ : Type} (m : M σ β) (f : β → M σ γ) : M σ γ := fun w =>
  match m w with
  | (.ok b, w1) => f b w1
  | (.error e, w1) => (.error e, w1)

instance {σ : Type} : Monad (M σ) where
  pure := fun b w => (.ok b, w)
  bind := M.bind

/-- Embed a computation that does not touch the world. -/
def liftE {σ β : Type} (e : Except Err β) : M σ β := fun w => (e, w)

/-- Append an event to the log. -/
def logEvent {σ : Type} (e : Event) : M σ Unit := fun w =>
  (.ok (), { w with log := w.log ++ [e] })

/-- Run a caller-supplied function on the outside state. -/
def call {σ β : Type} (f : σ → β × σ) : M σ β := fun w =>
  ((.ok (f w.user).1), { w with user := (f w.user).2 })

/-- The type `typedef double(*GAFitnessFnc)(void *)`: a pure function of the individual. -/
abbrev GAFitnessFnc := Individual → ℚ

/-- The type `typedef void* (*GACrossoverFnc)(void *, void *)`; the function may use and
change the outside state. -/
abbrev GACrossoverFnc (σ : Type) := Individual → Individual → σ → Individual × σ

/-- The type `typedef void* (*GAMutateFnc)(void *)`. -/
abbrev GAMutateFnc (σ : Type) := Individual → σ → Individual × σ

/-- The type `typedef int(*GASelectionFnc)(Population, double *, double, int)`; a selector may
fault when it reads outside the arrays it is given. -/
abbrev GASelectionFnc (σ : Type) := Population → Ptr ℚ → ℚ → Int → σ → Except Err Int × σ

/-- The type `typedef int(*GACallbackFnc)(int, Population, int)`. -/
abbrev GACallbackFnc (σ : Type) := Int → Population → Int → σ → Int × σ

/-- The functions that `ga.c` takes from its environment: the random source of `mtrand.h`,
the allocator (its answer says whether the allocation succeeds), and the two functions that
"MUST be defined somewhere" (`clone`, `deleteIndividual`). -/
structure Env (σ : Type) where
  mtrand : σ → ℚ × σ
  initMTrand : σ → σ
  malloc : Int → σ → Bool × σ
  clone : Individual → σ → Individual × σ
  deleteIndividual : Individual → σ → σ

/-- The call `malloc(cells * sizeof(...))`: the null pointer on failure, else a block of `cells`
cells holding `init`. -/
def malloc {σ β : Type} (env : Env σ) (init : β) (cells : Int) : M σ (Ptr β) := do
  let ok ← call (env.malloc cells)
  pure (if ok then some (List.replicate cells.toNat init) else none)

/-- Call `fitness(x)`. -/
def callFitness {σ : Type} (fitness : GAFitnessFnc) (x : Individual) : M σ ℚ := do
  logEvent (.fitness x)
  pure (fitness x)

/-- Call `clone(x)`. -/
def callClone {σ : Type} (env : Env σ) (x : Individual) : M σ Individual := do
  logEvent (.clone x)
  call (env.clone x)

/-- Call `crossover(x1, x2)`. -/
def callCrossover {σ : Type} (crossover : GACrossoverFnc σ) (x1 x2 : Individual) :
    M σ Individual := do
  logEvent (.crossover x1 x2)
  call (crossover x1 x2)

/-- Call `mutate(x)`. -/
def callMutate {σ : Type} (mutate : GAMutateFnc σ) (x : Individual) : M σ Individual := do
  logEvent (.mutate x)
  call (mutate x)

/-- Call `select(population, fitnessValues, sumOfFitness, popSz)`. -/
def callSelect {σ : Type} (select : GASelectionFnc σ) (population : Population)
    (fitnessValues : Ptr ℚ) (sumOfFitness : ℚ) (popSz : Int) : M σ Int := do
  logEvent (.select population fitnessValues sumOfFitness popSz)
  let r ← call (select population fitnessValues sumOfFitness popSz)
  liftE r

/-- Call `deleteIndividual(x)`. -/
def callDelete {σ : Type} (env : Env σ) (x : Individual) : M σ Unit := do
  logEvent (.deleteIndividual x)
  call (fun s => ((), env.deleteIndividual x s))

/-- Call `callback(i, population, popSz)`. -/
def callCallback {σ : Type} (callback : GACallbackFnc σ) (i : Int) (population : Population)
    (popSz : Int) : M σ Int := do
  logEvent (.callback i population popSz)
  call (callback i population popSz)

/-! ## `GAselect` -/

/-- The `for` loop of `GAselect` with its two `return`s; the first argument is the number of
iterations left, `i` the loop counter. -/
def GAselectLoop : Nat → Ptr ℚ → ℚ → ℚ → Int → Except Err Int
  | 0, _, _, _, i => pure i
  | n + 1, fitnessValues, randNum, total, i => do
    let f ← rd fitnessValues i
    if total < randNum ∧ randNum < total + f then pure i
    else GAselectLoop n fitnessValues randNum (total + f) (i + 1)

/-- The function `GAselect` of `ga.c`. -/
def GAselect {σ : Type} (env : Env σ) : GASelectionFnc σ :=
  fun _population fitnessValues sumOfFitness popSz s =>
    let r := env.mtrand s
    let randNum := r.1 * sumOfFitness
    (do
      let last ← decr popSz
      GAselectLoop last.toNat fitnessValues randNum 0 0, r.2)

/-! ## `GAnextGen` -/

/-- The loop `for (i = 0; i < oldPopSz; ++i)` that fills `fitnessArray`, sums it and tracks the
best index; the first argument is the number of iterations left. -/
def fitnessLoop {σ : Type} (fitness : GAFitnessFnc) (currentPopulation : Population) :
    Nat → Int → Ptr ℚ → ℚ → Int → M σ (Ptr ℚ × ℚ × Int)
  | 0, _, fitnessArray, totalFitness, best => pure (fitnessArray, totalFitness, best)
  | n + 1, i, fitnessArray, totalFitness, best => do
    let x ← liftE (rd currentPopulation i)
    let fx ← callFitness fitness x
    let fitnessArray ← liftE (wr fitnessArray i fx)
    let v ← liftE (rd fitnessArray i)
    let fitnessArray ← if v < 0 then liftE (wr fitnessArray i 0) else pure fitnessArray
    let v ← liftE (rd fitnessArray i)
    let totalFitness := totalFitness + v
    let vi ← liftE (rd fitnessArray i)
    let vb ← liftE (rd fitnessArray best)
    let best := if vi > vb then i else best
    fitnessLoop fitness currentPopulation n (i + 1) fitnessArray totalFitness best

/-- One slot of the loop `for (i = 1; i < newPopSz; ++i)`: the individual stored in
`nextPopulation[i]`. -/
def nextSlot {σ : Type} (env : Env σ) (currentPopulation : Population) (oldPopSz : Int)
    (crossover : Option (GACrossoverFnc σ)) (mutate : Option (GAMutateFnc σ))
    (select : GASelectionFnc σ) (fitnessArray : Ptr ℚ) (totalFitness : ℚ) :
    M σ (Individual × Ptr ℚ) := do
  let k ← callSelect select currentPopulation fitnessArray totalFitness oldPopSz
  let x1 ← liftE (rd currentPopulation k)
  let (x1, fitnessArray) ←
    match crossover with
    | some crossover => do
      let temp ← liftE (rd fitnessArray k)
      let fitnessArray ← liftE (wr fitnessArray k 0)
      let k2 ← callSelect select currentPopulation fitnessArray totalFitness oldPopSz
      let fitnessArray ← liftE (wr fitnessArray k temp)
      let x2 ← liftE (rd currentPopulation k2)
      let x1 ← callCrossover crossover x1 x2
      pure (x1, fitnessArray)
    | none => do
      let x1 ← callClone env x1
      pure (x1, fitnessArray)
  let x1 ←
    match mutate with
    | some mutate => callMutate mutate x1
    | none => pure x1
  pure (x1, fitnessArray)

/-- The loop `for (i = 1; i < newPopSz; ++i)`; the first argument is the number of iterations
left. -/
def slotLoop {σ : Type} (env : Env σ) (currentPopulation : Population) (oldPopSz : Int)
    (crossover : Option (GACrossoverFnc σ)) (mutate : Option (GAMutateFnc σ))
    (select : GASelectionFnc σ) (totalFitness : ℚ) :
    Nat → Int → Ptr ℚ → Population → M σ Population
  | 0, _, _, nextPopulation => pure nextPopulation
  | n + 1, i, fitnessArray, nextPopulation => do
    let (x1, fitnessArray) ←
      nextSlot env currentPopulation oldPopSz crossover mutate select fitnessArray totalFitness
    let nextPopulation ← liftE (wr nextPopulation i x1)
    slotLoop env currentPopulation oldPopSz crossover mutate select totalFitness
      n (i + 1) fitnessArray nextPopulation

/-- The loop `for (i = 0; i < oldPopSz; ++i) if (currentPopulation[i] != NULL)
deleteIndividual(currentPopulation[i]);`; the first argument is the number of iterations
left. -/
def deleteLoop {σ : Type} (env : Env σ) (currentPopulation : Population) :
    Nat → Int → M σ Unit
  | 0, _ => pure ()
  | n + 1, i => do
    let x ← liftE (rd currentPopulation i)
    if x ≠ NULL then callDelete env x else pure ()
    deleteLoop env currentPopulation n (i + 1)

/-- The function `GAnextGen` of `ga.c`. -/
def GAnextGen {σ : Type} (env : Env σ) (currentPopulation : Population)
    (oldPopSz newPopSz : Int) (fitness : GAFitnessFnc)
    (crossover : Option (GACrossoverFnc σ)) (mutate : Option (GAMutateFnc σ))
    (select : GASelectionFnc σ) (keepOldPopulation : Int) : M σ Population := do
  logEvent (.GAnextGen currentPopulation oldPopSz newPopSz keepOldPopulation)
  let nextPopulation ← malloc env NULL newPopSz
  if nextPopulation = none then pure none
  else do
    let fitnessArray ← malloc env (0 : ℚ) oldPopSz
    let (fitnessArray, totalFitness, best) ←
      fitnessLoop fitness currentPopulation oldPopSz.toNat 0 fitnessArray 0 0
    let xbest ← liftE (rd currentPopulation best)
    let c ← callClone env xbest
    let nextPopulation ← liftE (wr nextPopulation 0 c)
    let nextPopulation ←
      slotLoop env currentPopulation oldPopSz crossover mutate select totalFitness
        (newPopSz - 1).toNat 1 fitnessArray nextPopulation
    if keepOldPopulation = 0 then do
      deleteLoop env currentPopulation oldPopSz.toNat 0
      logEvent (.free currentPopulation)
    else pure ()
    pure nextPopulation

/-! ## `GAsort` -/

/-- The loop `for (i=0; i < populationSz; ++i) a[i] = fitness(population[i]);`; the first
argument is the number of iterations left. -/
def sortFitnessLoop {σ : Type} (fitness : GAFitnessFnc) (population : Population) :
    Nat → Int → Ptr ℚ → M σ (Ptr ℚ)
  | 0, _, a => pure a
  | n + 1, i, a => do
    let x ← liftE (rd population i)
    let fx ← callFitness fitness x
    let a ← liftE (wr a i fx)
    sortFitnessLoop fitness population n (i + 1) a

/-- The function `GAsort` of `ga.c`; the result is the content of `population` afterwards.
The recursion budget handed to `quicksort` is `populationSz + 2`. -/
def GAsort {σ : Type} (env : Env σ) (population : Population) (fitness : GAFitnessFnc)
    (populationSz : Int) : M σ Population := do
  logEvent (.GAsort population populationSz)
  let a ← malloc env (0 : ℚ) populationSz
  let a ← sortFitnessLoop fitness population populationSz.toNat 0 a
  if a ≠ none then do
    let right ← liftE (decr populationSz)
    let (population, _) ←
      liftE (quicksort (populationSz.toNat + 2) population a 0 right)
    pure population
  else pure population

/-! ## `GArun` -/

/-- The loop `while (stop == 0)` of `GArun`, entered with the current `i` and `population`;
the first argument is the step budget. -/
def GArunLoop {σ : Type} (env : Env σ) (initPopSz popSz numGenerations : Int)
    (fitness : GAFitnessFnc) (crossover : Option (GACrossoverFnc σ))
    (mutate : Option (GAMutateFnc σ)) (callback : Option (GACallbackFnc σ)) :
    Nat → Int → Population → M σ Population
  | 0, _, _ => liftE (.error .fuel)
  | fuel + 1, i, population => do
    let population ←
      if i = 0 then
        GAnextGen env population initPopSz popSz fitness crossover mutate (GAselect env) 0
      else
        GAnextGen env population popSz popSz fitness crossover mutate (GAselect env) 0
    let stop ←
      match callback with
      | some callback => callCallback callback i population popSz
      | none => pure 0
    let i := i + 1
    let stop := if i ≥ numGenerations then 1 else stop
    if stop = 0 then
      GArunLoop env initPopSz popSz numGenerations fitness crossover mutate callback
        fuel i population
    else pure population

/-- The function `GArun` of `ga.c`. The redirection of `stderr` to a log file is not
modelled. The step budget of the loop is `numGenerations + 1`. -/
def GArun {σ : Type} (env : Env σ) (initialPopulation : Population)
    (initPopSz popSz numGenerations : Int) (fitness : GAFitnessFnc)
    (crossover : Option (GACrossoverFnc σ)) (mutate : Option (GAMutateFnc σ))
    (callback : Option (GACallbackFnc σ)) : M σ Population := do
  call (fun s => ((), env.initMTrand s))
  let population ←
    GArunLoop env initPopSz popSz numGenerations fitness crossover mutate callback
      (numGenerations.toNat + 1) 0 initialPopulation
  GAsort env population fitness popSz

/-! ## Vocabulary of the specifications

Definitions used to state what the embedded functions do. They are not part of `ga.c`. -/

/-- Cell `k` of a list of (individual, fitness) pairs; a dummy cell outside the list. -/
def cellAt (z : List (Individual × ℚ)) (k : Int) : Individual × ℚ :=
  if 0 ≤ k then z.getD k.toNat (NULL, 0) else (NULL, 0)

/-- Fitness stored in cell `k`. -/
def keyAt (z : List (Individual × ℚ)) (k : Int) : ℚ := (cellAt z k).2

/-- The list `z` with the cells `i` and `j` exchanged. -/
def swapZ (z : List (Individual × ℚ)) (i j : Int) : List (Individual × ℚ) :=
  (z.set i.toNat (cellAt z j)).set j.toNat (cellAt z i)

/-- The list `z1` arises from `z` by rearranging the cells `left..right` only: same length,
same cells up to order, every cell outside the range untouched, and every cell inside the
range comes from inside the range. -/
def RangePerm (z z1 : List (Individual × ℚ)) (left right : Int) : Prop :=
  z1.length = z.length ∧ z1.Perm z ∧
  (∀ k : Int, (k < left ∨ right < k) → cellAt z1 k = cellAt z k) ∧
  (∀ P : Individual × ℚ → Prop, (∀ k, left ≤ k → k ≤ right → P (cellAt z k)) →
    ∀ k, left ≤ k → k ≤ right → P (cellAt z1 k))

/-- Running total before index `i`: the sum of the first `i` fitness values. -/
def cumul (fv : List ℚ) (i : Nat) : ℚ := (fv.take i).sum

/-- The draw `d` lies strictly inside the cumulative interval of index `i`:
`cumul fv i < d < cumul fv i + fv[i]`. -/
def InOpenInterval (fv : List ℚ) (d : ℚ) (i : Nat) : Prop :=
  cumul fv i < d ∧ d < cumul fv i + fv.getD i 0

/-- The draw `d` lies in the half-open cumulative interval of index `i`:
`cumul fv i ≤ d < cumul fv i + fv[i]`. -/
def InHalfOpenInterval (fv : List ℚ) (d : ℚ) (i : Nat) : Prop :=
  cumul fv i ≤ d ∧ d < cumul fv i + fv.getD i 0

/-- Fitness as the engine uses it: negative values are replaced by `0`. -/
def clamped (fitness : GAFitnessFnc) (x : Individual) : ℚ :=
  if fitness x < 0 then 0 else fitness x

/-- Index `b` is the first index below `n` at which `c` is maximal. -/
def IsFirstMax (c : Nat → ℚ) (n b : Nat) : Prop :=
  b < n ∧ (∀ k, k < n → c k ≤ c b) ∧ (∀ k, k < b → c k < c b)

/-- Every individual of `l0` is matched by an individual of `l` whose clamped fitness is at
least as large. -/
def Dominates (fitness : GAFitnessFnc) (l0 l : List Individual) : Prop :=
  ∀ x ∈ l0, ∃ c ∈ l, clamped fitness x ≤ clamped fitness c

/-- The selector `select` returns a valid index whenever it is given a block of `n` fitness
values. -/
def SelectorOk {σ : Type} (select : GASelectionFnc σ) (n : Nat) : Prop :=
  ∀ (population : Population) (fv : List ℚ) (total : ℚ) (s : σ), fv.length = n →
    ∃ k : Nat, (select population (some fv) total (n : Int) s).1 = .ok (k : Int) ∧ k < n

/-- Every allocation succeeds. -/
def AllocOk {σ : Type} (env : Env σ) : Prop :=
  ∀ (cells : Int) (s : σ), (env.malloc cells s).1 = true

/-- Total correctness: started in world `w`, the computation `m` returns a value and a world
that satisfy `Q`. -/
def Returns {σ β : Type} (m : M σ β) (w : World σ) (Q : β → World σ → Prop) : Prop :=
  ∃ b w1, m w = (.ok b, w1) ∧ Q b w1

/-- Partial correctness: whenever the computation `m`, started in world `w`, returns, the
value and the world satisfy `Q`. -/
def Ensures {σ β : Type} (m : M σ β) (w : World σ) (Q : β → World σ → Prop) : Prop :=
  ∀ b w1, m w = (.ok b, w1) → Q b w1

/-- The event is a call that takes part in making the new population: a call of `fitness`,
`clone`, `crossover`, `mutate` or the selector. -/
def Event.making : Event → Bool
  | .fitness _ => true
  | .clone _ => true
  | .crossover _ _ => true
  | .mutate _ => true
  | .select _ _ _ _ => true
  | _ => false

/-- The event is a call made from inside a generation advance or a ranking: a call of
`fitness`, `clone`, `crossover`, `mutate`, the selector, `deleteIndividual` or `free`. -/
def Event.inner : Event → Bool
  | .fitness _ => true
  | .clone _ => true
  | .crossover _ _ => true
  | .mutate _ => true
  | .select _ _ _ _ => true
  | .deleteIndividual _ => true
  | .free _ => true
  | _ => false

/-- The event is a call of `GAnextGen`. -/
def Event.isNextGen : Event → Bool
  | .GAnextGen _ _ _ _ => true
  | _ => false

/-- Number of `GAnextGen` calls recorded in a log. -/
def nextGenCalls (log : List Event) : Nat := log.countP Event.isNextGen

/-- Every run of the computation `m` only appends to the log, and the events it appends
satisfy `P`. -/
def Emits {σ β : Type} (P : Event → Prop) (m : M σ β) : Prop :=
  ∀ w, ∃ es, (m w).2.log = w.log ++ es ∧ ∀ e ∈ es, P e

/-- The individuals on which `deleteIndividual` was called, in the order of the calls. -/
def deletedOf (log : List Event) : List Individual :=
  log.filterMap (fun e => match e with
    | .deleteIndividual x => some x
    | _ => none)

/-- The population arrays that were passed to `free`, in the order of the calls. -/
def freedOf (log : List Event) : List Population :=
  log.filterMap (fun e => match e with
    | .free p => some p
    | _ => none)

/-! ## Sample inputs

Concrete environments and callbacks on which the theorems below are instantiated. -/

/-- A sample environment whose state is the list of random values still to be drawn:
`mtrand` returns the head of the list (`0` once it is empty), every allocation succeeds,
`clone x` is the address `x + 100`, and `deleteIndividual` leaves the state alone. -/
def sampleEnv : Env (List ℚ) where
  mtrand := fun s => (s.headD 0, s.tail)
  initMTrand := fun s => s
  malloc := fun _ s => (true, s)
  clone := fun x s => (x + 100, s)
  deleteIndividual := fun _ s => s

/-- A sample fitness function: the last two decimal digits of the address, so that
`sampleEnv.clone` preserves fitness. -/
def sampleFitness : GAFitnessFnc := fun x => ((x % 100 : Nat) : ℚ)

/-- A sample fitness function with negative values only: `-5` on addresses ending in `01`,
`-1` elsewhere; `sampleEnv.clone` preserves it. -/
def negativeFitness : GAFitnessFnc := fun x => if x % 100 = 1 then -5 else -1

/-- A sample callback: it asks to stop (returns `1`) at generation `g` and to continue
(returns `0`) at every other generation. -/
def stopAt {σ : Type} (g : Int) : GACallbackFnc σ :=
  fun i _ _ s => (if i = g then 1 else 0, s)

/-- A sample crossover that returns its first parent, which `ga.h` allows ("can be the same as
one of the parents"). -/
def firstParent {σ : Type} : GACrossoverFnc σ := fun x1 _ s => (x1, s)

/-! ## The arithmetic of `GAselect`

A second transcription of `GAselect`, in which the arithmetic on `double` values is taken from
an interface instead of from `ℚ`. It is used to state which operations the function performs. -/

/-- The operations on fitness values that occur in the body of `GAselect`: the constant `0`
(`total = 0`), the sum (`total+fitnessValues[i]`, `total += fitnessValues[i]`), the product
(`mtrand() * sumOfFitness`) and the strict comparison (`total < randNum`). The interface
offers no quotient. -/
structure SelectArith (R : Type) where
  zero : R
  add : R → R → R
  mul : R → R → R
  lt : R → R → Bool

/-- The operations of `SelectArith` on the rationals. -/
def ratArith : SelectArith ℚ where
  zero := 0
  add := fun x y => x + y
  mul := fun x y => x * y
  lt := fun x y => decide (x < y)

/-- The loop of `GAselect` over the operations of `A`; the first argument is the number of
iterations left. -/
def GAselectLoopOver {R : Type} (A : SelectArith R) : Nat → Ptr R → R → R → Int → Except Err Int
  | 0, _, _, _, i => pure i
  | n + 1, fitnessValues, randNum, total, i => do
    let f ← rd fitnessValues i
    if (A.lt total randNum && A.lt randNum (A.add total f)) = true then pure i
    else GAselectLoopOver A n fitnessValues randNum (A.add total f) (i + 1)

/-- The function `GAselect` over the operations of `A` and a generator `mtrand` of values of
`R`. -/
def GAselectOver {σ R : Type} (A : SelectArith R) (mtrand : σ → R × σ)
    (_population : Population) (fitnessValues : Ptr R) (sumOfFitness : R) (popSz : Int)
    (s : σ) : Except Err Int × σ :=
  let r := mtrand s
  let randNum := A.mul r.1 sumOfFitness
  (do
    let last ← decr popSz
    GAselectLoopOver A last.toNat fitnessValues randNum A.zero 0, r.2)

/-! ## Further sample inputs -/

/-- A sample crossover that makes a new individual: the address `x1 + x2 + 200`. -/
def blend {σ : Type} : GACrossoverFnc σ := fun x1 x2 s => (x1 + x2 + 200, s)

/-- A sample environment in which allocation is an explicit input: the state is the list of the
outcomes of the allocations still to come (`true` = success), and an allocation succeeds once
the list is empty. `mtrand` always returns `1/2`, `clone x` is the address `x + 100`, and
`deleteIndividual` leaves the state alone. -/
def scriptedEnv : Env (List Bool) where
  mtrand := fun s => (1 / 2, s)
  initMTrand := fun s => s
  malloc := fun _ s => (s.headD true, s.tail)
  clone := fun x s => (x + 100, s)
  deleteIndividual := fun _ s => s

/-! ## Further vocabulary of the specifications -/

/-- The event is a call of the selector. -/
def Event.isSelect : Event → Bool
  | .select _ _ _ _ => true
  | _ => false

/-- The events `es` are the calls of one slot of the new population, made with the weights `W`
and the total `T`: first a call of the selector with the weights `W` and the total `T` (the
selection of the first parent); after it either no call of the selector, or exactly one (the
selection of the second parent), made with the weights `W` in which one entry `k` is set to `0`
and with the same total `T`. -/
def SlotCalls (population : Population) (W : List ℚ) (T : ℚ) (n : Int) (es : List Event) :
    Prop :=
  ∃ rest : List Event, es = Event.select population (some W) T n :: rest ∧
    ((∀ e ∈ rest, e.isSelect = false) ∨
      ∃ (k : Nat) (rest2 : List Event),
        rest = Event.select population (some (W.set k 0)) T n :: rest2 ∧
        ∀ e ∈ rest2, e.isSelect = false)

/-- The record of one generation of a run: the population handed to `GAnextGen`, the
population that `GAnextGen` returned, and the calls made from inside that `GAnextGen` call. -/
structure Generation where
  input : Population
  output : Population
  calls : List Event

/-- The log entries of generation `j` of a run with a callback: the call of `GAnextGen`, the
calls made from inside it, then the call of the callback with the generation index `j`, the
population returned by `GAnextGen` and the size `popSz`. -/
def Generation.events (initPopSz popSz : Int) (j : Int) (g : Generation) : List Event :=
  Event.GAnextGen g.input (if j = 0 then initPopSz else popSz) popSz 0 ::
    (g.calls ++ [Event.callback j g.output popSz])

/-- The log entries of the consecutive generations `gs`, the first of which has index `j`. -/
def runEvents (initPopSz popSz : Int) : Int → List Generation → List Event
  | _, [] => []
  | j, g :: gs => g.events initPopSz popSz j ++ runEvents initPopSz popSz (j + 1) gs

/-- The arguments of the callback calls recorded in a log, in the order of the calls. -/
def callbacksOf (log : List Event) : List (Int × Population × Int) :=
  log.filterMap (fun e => match e with
    | .callback i p n => some (i, p, n)
    | _ => none)

/-- One callback call per generation of `gs`, in order: the call of the generation with index
`j` has the arguments `j`, the population returned by that generation, and `popSz`. -/
def expectedCallbacks (popSz : Int) : Int → List Generation → List (Int × Population × Int)
  | _, [] => []
  | j, g :: gs => (j, g.output, popSz) :: expectedCallbacks popSz (j + 1) gs

/-- The generations `gs` are the consecutive generation advances of the loop of `GArun` with
the callback `cb`, entered with the index `j`, the population `pop` and the world `w`, and left
with the population `pop1` and the world `w1`. For each generation `g`: `GAnextGen` is run on
the current population `g.input` and returns `g.output`; the log gains the call of `GAnextGen`
and the calls `g.calls` made from inside it; then the callback is run with the index `j`, the
population `g.output` and the size `popSz`; the next generation starts from `g.output`. -/
def Advances {σ : Type} (env : Env σ) (initPopSz popSz : Int) (fitness : GAFitnessFnc)
    (crossover : Option (GACrossoverFnc σ)) (mutate : Option (GAMutateFnc σ))
    (cb : GACallbackFnc σ) :
    Int → Population → World σ → List Generation → Population → World σ → Prop
  | _, pop, w, [], pop1, w1 => pop1 = pop ∧ w1 = w
  | j, pop, w, g :: gs, pop1, w1 =>
    g.input = pop ∧ (∀ e ∈ g.calls, e.inner = true) ∧
    ∃ wg : World σ,
      GAnextGen env pop (if j = 0 then initPopSz else popSz) popSz fitness crossover mutate
        (GAselect env) 0 w = (.ok g.output, wg) ∧
      wg.log = w.log ++
        Event.GAnextGen pop (if j = 0 then initPopSz else popSz) popSz 0 :: g.calls ∧
      Advances env initPopSz popSz fitness crossover mutate cb (j + 1) g.output
        ⟨(cb j g.output popSz wg.user).2, wg.log ++ [Event.callback j g.output popSz]⟩
        gs pop1 w1

/-! ## Quicksort with accesses confined to a window

A second transcription of `exch`, `partition` and `quicksort`, in which every read and every
write checks that its index lies in the range `[left, right]` that the function was called
on; an access outside that range is the error `Err.fault`. It is used to state which cells the
functions touch. -/

/-- Read `p[i]`, checking that `i` lies in the window `[lo, hi]`. -/
def rdIn {β : Type} (lo hi : Int) (p : Ptr β) (i : Int) : Except Err β :=
  if lo ≤ i ∧ i ≤ hi then rd p i else .error .fault

/-- Write `p[i] = v`, checking that `i` lies in the window `[lo, hi]`. -/
def wrIn {β : Type} (lo hi : Int) (p : Ptr β) (i : Int) (v : β) : Except Err (Ptr β) :=
  if lo ≤ i ∧ i ≤ hi then wr p i v else .error .fault

/-- The function `exch` of `ga.c`, every access checked against the window `[lo, hi]`. -/
def exchIn (lo hi : Int) (population : Population) (a : Ptr ℚ) (i j : Int) :
    Except Err (Population × Ptr ℚ) := do
  let swap ← rdIn lo hi a i
  let aj ← rdIn lo hi a j
  let a ← wrIn lo hi a i aj
  let a ← wrIn lo hi a j swap
  let temp ← rdIn lo hi population i
  let pj ← rdIn lo hi population j
  let population ← wrIn lo hi population i pj
  let population ← wrIn lo hi population j temp
  pure (population, a)

/-- The loop `while (less(a[++i], a[right])) ;`, every access checked against the window
`[left, right]`. -/
def scanUpIn : Nat → Ptr ℚ → Int → Int → Int → Except Err Int
  | 0, _, _, _, _ => .error .fuel
  | fuel + 1, a, left, right, i => do
    let i := i + 1
    let x ← rdIn left right a i
    let p ← rdIn left right a right
    if less x p then scanUpIn fuel a left right i else pure i

/-- The loop `while (less(a[right], a[--j])) if (j == left) break;`, every access checked
against the window `[left, right]`. -/
def scanDownIn : Nat → Ptr ℚ → Int → Int → Int → Except Err Int
  | 0, _, _, _, _ => .error .fuel
  | fuel + 1, a, left, right, j => do
    let j := j - 1
    let p ← rdIn left right a right
    let x ← rdIn left right a j
    if less p x then
      if j = left then pure j else scanDownIn fuel a left right j
    else pure j

/-- The `while (1)` loop of `partition`, every access checked against the window
`[left, right]`. -/
def partitionLoopIn : Nat → Population → Ptr ℚ → Int → Int → Int → Int →
    Except Err (Population × Ptr ℚ × Int)
  | 0, _, _, _, _, _, _ => .error .fuel
  | fuel + 1, population, a, left, right, i, j => do
    let i ← scanUpIn fuel a left right i
    let j ← scanDownIn fuel a left right j
    if i ≥ j then pure (population, a, i)
    else do
      let (population, a) ← exchIn left right population a i j
      partitionLoopIn fuel population a left right i j

/-- The function `partition` of `ga.c`, every access checked against the window
`[left, right]`. -/
def partitionIn (fuel : Nat) (population : Population) (a : Ptr ℚ) (left right : Int) :
    Except Err (Population × Ptr ℚ × Int) := do
  let (population, a, i) ← partitionLoopIn fuel population a left right (left - 1) right
  let (population, a) ← exchIn left right population a i right
  pure (population, a, i)

/-- The function `quicksort` of `ga.c`, every access of each call checked against the window
`[left, right]` of that call. -/
def quicksortIn : Nat → Population → Ptr ℚ → Int → Int → Except Err (Population × Ptr ℚ)
  | 0, population, a, left, right =>
    if right ≤ left then pure (population, a) else .error .fuel
  | fuel + 1, population, a, left, right =>
    if right ≤ left then pure (population, a)
    else do
      let (population, a, i) ← partitionIn fuel population a left right
      let (population, a) ← quicksortIn fuel population a left (i - 1)
      quicksortIn fuel population a (i + 1) right

/-! ## The generations of a run with an optional callback -/

/-- The world after the callback step of generation `j` of the loop of `GArun`: when a
callback is given, it has been called with the index `j`, the current population and the size
`popSz`; when it is absent, the world is unchanged. -/
def afterCallback {σ : Type} (callback : Option (GACallbackFnc σ)) (j : Int)
    (population : Population) (popSz : Int) (w : World σ) : World σ :=
  match callback with
  | some cb => ⟨(cb j population popSz w.user).2, w.log ++ [Event.callback j population popSz]⟩
  | none => w

/-- The generations `gs` are the consecutive generation advances of the loop of `GArun`,
entered with the index `j`, the population `pop` and the world `w`, and left with the
population `pop1` and the world `w1`. For each generation `g`: `GAnextGen` is run on the
current population `g.input`, from the old size `initPopSz` in generation `0` and `popSz` in
every later one to the new size `popSz`, with the selector `GAselect` and
`keepOldPopulation = 0`, and it returns `g.output`; the log gains the call of `GAnextGen` and
the calls `g.calls` made from inside it; then comes the callback step; the next generation
starts from `g.output`. -/
def AdvancesWith {σ : Type} (env : Env σ) (initPopSz popSz : Int) (fitness : GAFitnessFnc)
    (crossover : Option (GACrossoverFnc σ)) (mutate : Option (GAMutateFnc σ))
    (callback : Option (GACallbackFnc σ)) :
    Int → Population → World σ → List Generation → Population → World σ → Prop
  | _, pop, w, [], pop1, w1 => pop1 = pop ∧ w1 = w
  | j, pop, w, g :: gs, pop1, w1 =>
    g.input = pop ∧ (∀ e ∈ g.calls, e.inner = true) ∧
    ∃ wg : World σ,
      GAnextGen env pop (if j = 0 then initPopSz else popSz) popSz fitness crossover mutate
        (GAselect env) 0 w = (.ok g.output, wg) ∧
      wg.log = w.log ++
        Event.GAnextGen pop (if j = 0 then initPopSz else popSz) popSz 0 :: g.calls ∧
      AdvancesWith env initPopSz popSz fitness crossover mutate callback (j + 1) g.output
        (afterCallback callback j g.output popSz wg) gs pop1 w1

/-- The arguments (old population, old size, new size, `keepOldPopulation`) of the `GAnextGen`
calls recorded in a log, in the order of the calls. -/
def nextGenArgsOf (log : List Event) : List (Population × Int × Int × Int) :=
  log.filterMap (fun e => match e with
    | .GAnextGen p m n k => some (p, m, n, k)
    | _ => none)

/-- One `GAnextGen` call per generation of `gs`, in order: the call of the generation with
index `j` is made on the input of that generation, from the old size `initPopSz` when `j = 0`
and `popSz` otherwise, to the new size `popSz`, with `keepOldPopulation = 0`. -/
def expectedNextGens (initPopSz popSz : Int) :
    Int → List Generation → List (Population × Int × Int × Int)
  | _, [] => []
  | j, g :: gs =>
    (g.input, if j = 0 then initPopSz else popSz, popSz, 0) ::
      expectedNextGens initPopSz popSz (j + 1) gs

/-! ## Reference definition of a generation advance

The new population written slot by slot, as the specification describes it, together with the
calls that this description makes. It is compared with `GAnextGen` below. -/

/-- The smallest index at which the list `c` is maximal (`0` for the empty list). -/
def firstMaxIndex (c : List ℚ) : Nat :=
  ((List.range c.length).find?
    (fun b => (List.range c.length).all (fun k => decide (c.getD k 0 ≤ c.getD b 0)))).getD 0

/-- The index that a selector call returned (`0` if the call failed). -/
def selectedIndex (r : Except Err Int) : Nat :=
  match r with
  | .ok k => k.toNat
  | .error _ => 0

/-- Reference for one slot `i ≥ 1`, from the state `s` of the outside world: the individual
stored in the slot, the state afterwards, and the calls made. With `k` the selector's result
for the weights `W`, the child is `crossover(old[k], old[k2])` when `crossover` is given, `k2`
being the selector's result for the weights with entry `k` set to `0`, and `clone(old[k])`
otherwise; the slot holds `mutate(child)` when `mutate` is given, and the child otherwise. -/
def slotRef {σ : Type} (env : Env σ) (l : List Individual) (W : List ℚ) (T : ℚ)
    (crossover : Option (GACrossoverFnc σ)) (mutate : Option (GAMutateFnc σ))
    (select : GASelectionFnc σ) (s : σ) : Individual × σ × List Event :=
  let r1 := select (some l) (some W) T l.length s
  let k := selectedIndex r1.1
  let child : Individual × σ × List Event :=
    match crossover with
    | some co =>
      let r2 := select (some l) (some (W.set k 0)) T l.length r1.2
      let k2 := selectedIndex r2.1
      let c := co (l.getD k NULL) (l.getD k2 NULL) r2.2
      (c.1, c.2, [Event.select (some l) (some W) T l.length,
        Event.select (some l) (some (W.set k 0)) T l.length,
        Event.crossover (l.getD k NULL) (l.getD k2 NULL)])
    | none =>
      let c := env.clone (l.getD k NULL) r1.2
      (c.1, c.2, [Event.select (some l) (some W) T l.length, Event.clone (l.getD k NULL)])
  match mutate with
  | some mu =>
    let m := mu child.1 child.2.1
    (m.1, m.2, child.2.2 ++ [Event.mutate child.1])
  | none => child

/-- Reference for `n` consecutive slots, from the state `s`: the individuals stored, the state
afterwards, and the calls made. -/
def slotsRef {σ : Type} (env : Env σ) (l : List Individual) (W : List ℚ) (T : ℚ)
    (crossover : Option (GACrossoverFnc σ)) (mutate : Option (GAMutateFnc σ))
    (select : GASelectionFnc σ) : Nat → σ → List Individual × σ × List Event
  | 0, s => ([], s, [])
  | n + 1, s =>
    let a := slotRef env l W T crossover mutate select s
    let b := slotsRef env l W T crossover mutate select n a.2.1
    (a.1 :: b.1, b.2.1, a.2.2 ++ b.2.2)

/-- Reference for the new population made from the old population `l`, from the state `s`:
slot `0` is `clone(old[b])`, `b` being the smallest index whose clamped fitness
`max(0, fitness(old[i]))` is maximal; the slots `1..newPopSz-1` are those of `slotsRef` for the
clamped fitness values as weights and their sum as total. The result is the new population,
the state afterwards, and the calls made after the fitness evaluations. -/
def GAnextGenRef {σ : Type} (env : Env σ) (l : List Individual) (newPopSz : Int)
    (fitness : GAFitnessFnc) (crossover : Option (GACrossoverFnc σ))
    (mutate : Option (GAMutateFnc σ)) (select : GASelectionFnc σ) (s : σ) :
    List Individual × σ × List Event :=
  let W := l.map (clamped fitness)
  let b := firstMaxIndex W
  let c0 := env.clone (l.getD b NULL) s
  let rest := slotsRef env l W W.sum crossover mutate select (newPopSz - 1).toNat c0.2
  (c0.1 :: rest.1, rest.2.1, Event.clone (l.getD b NULL) :: rest.2.2)

/-! ## Filled slots -/

/-- The individual `x` is the result of a call of `clone`, of the crossover or of the mutation:
what a filled slot of a new population holds. -/
def Produced {σ : Type} (env : Env σ) (crossover : Option (GACrossoverFnc σ))
    (mutate : Option (GAMutateFnc σ)) (x : Individual) : Prop :=
  (∃ y s, x = (env.clone y s).1) ∨
  (∃ co y1 y2 s, crossover = some co ∧ x = (co y1 y2 s).1) ∨
  (∃ mu y s, mutate = some mu ∧ x = (mu y s).1)

/-! ## Memory cells and exchanges -/

theorem decr_ok (x : Int) (h : INT_MIN < x) : decr x = .ok (x - 1) := by
  unfold decr
  rw [if_pos h]

theorem decr_nat (n : Nat) : decr (n : Int) = .ok ((n : Int) - 1) :=
  decr_ok _ (by unfold INT_MIN; omega)

theorem decr_overflow (x : Int) (h : x ≤ INT_MIN) : decr x = .error .fault := by
  unfold decr
  rw [if_neg (by omega)]

theorem rd_some {β : Type} (l : List β) (k : Int) (h0 : 0 ≤ k) (h1 : k < l.length) :
    ∃ v, l[k.toNat]? = some v ∧ rd (some l) k = .ok v := by
  have hk : k.toNat < l.length := by omega
  refine ⟨l[k.toNat], List.getElem?_eq_getElem hk, ?_⟩
  simp [rd, h0, List.getElem?_eq_getElem hk]

theorem rd_keys (z : List (Individual × ℚ)) (k : Int) (h0 : 0 ≤ k) (h1 : k < z.length) :
    rd (some (z.map Prod.snd)) k = .ok (keyAt z k) := by
  have hk : k.toNat < z.length := by omega
  simp [rd, h0, keyAt, cellAt, List.getD_eq_getElem?_getD, List.getElem?_eq_getElem hk]

theorem rd_inds (z : List (Individual × ℚ)) (k : Int) (h0 : 0 ≤ k) (h1 : k < z.length) :
    rd (some (z.map Prod.fst)) k = .ok (cellAt z k).1 := by
  have hk : k.toNat < z.length := by omega
  simp [rd, h0, cellAt, List.getD_eq_getElem?_getD, List.getElem?_eq_getElem hk]

theorem length_swapZ (z : List (Individual × ℚ)) (i j : Int) :
    (swapZ z i j).length = z.length := by
  simp [swapZ]

theorem cellAt_swapZ (z : List (Individual × ℚ)) (i j k : Int)
    (hi0 : 0 ≤ i) (hi : i < z.length) (hj0 : 0 ≤ j) (hj : j < z.length) :
    cellAt (swapZ z i j) k =
      if k = j then cellAt z i else if k = i then cellAt z j else cellAt z k := by
  by_cases hk0 : 0 ≤ k
  · have hin : i.toNat < z.length := by omega
    have hjn : j.toNat < z.length := by omega
    simp only [cellAt, swapZ, hk0, if_true, List.getD_eq_getElem?_getD, List.getElem?_set,
      List.length_set]
    by_cases hkj : k = j
    · subst hkj
      simp [hjn]
    · have hne : ¬ j.toNat = k.toNat := by omega
      simp only [hne, if_false, hkj]
      by_cases hki : k = i
      · subst hki
        simp [hin]
      · have hne2 : ¬ i.toNat = k.toNat := by omega
        simp [hne2, hki]
  · have h1 : k ≠ j := by omega
    have h2 : k ≠ i := by omega
    simp [cellAt, hk0, h1, h2]

theorem cellAt_eq_getElem (z : List (Individual × ℚ)) (k : Nat) (hk : k < z.length) :
    cellAt z (k : Int) = z[k] := by
  simp [cellAt, List.getD_eq_getElem?_getD, List.getElem?_eq_getElem hk]

theorem swapZ_perm (z : List (Individual × ℚ)) (i j : Int)
    (hi0 : 0 ≤ i) (hi : i < z.length) (hj0 : 0 ≤ j) (hj : j < z.length) :
    (swapZ z i j).Perm z := by
  have hin : i.toNat < z.length := by omega
  have hjn : j.toNat < z.length := by omega
  have key : swapZ z i j =
      List.ofFn (z.get ∘ (Equiv.swap (⟨i.toNat, hin⟩ : Fin z.length) ⟨j.toNat, hjn⟩)) := by
    apply List.ext_getElem
    · simp [length_swapZ]
    · intro k h1 h2
      have hk : k < z.length := by simpa [length_swapZ] using h1
      rw [← cellAt_eq_getElem _ k h1, cellAt_swapZ z i j k hi0 hi hj0 hj]
      simp only [List.getElem_ofFn, Function.comp_apply, List.get_eq_getElem]
      by_cases hkj : (k : Int) = j
      · have e : (⟨k, hk⟩ : Fin z.length) = ⟨j.toNat, hjn⟩ := by
          apply Fin.ext; simp; omega
        rw [if_pos hkj, e, Equiv.swap_apply_right]
        have h := cellAt_eq_getElem z i.toNat hin
        rw [Int.toNat_of_nonneg hi0] at h
        rw [h]
      · rw [if_neg hkj]
        have ne1 : (⟨k, hk⟩ : Fin z.length) ≠ ⟨j.toNat, hjn⟩ := by
          intro h; apply hkj; have := congrArg Fin.val h; simp at this; omega
        by_cases hki : (k : Int) = i
        · have e : (⟨k, hk⟩ : Fin z.length) = ⟨i.toNat, hin⟩ := by
            apply Fin.ext; simp; omega
          rw [if_pos hki, e, Equiv.swap_apply_left]
          have h := cellAt_eq_getElem z j.toNat hjn
          rw [Int.toNat_of_nonneg hj0] at h
          rw [h]
        · rw [if_neg hki]
          have ne2 : (⟨k, hk⟩ : Fin z.length) ≠ ⟨i.toNat, hin⟩ := by
            intro h; apply hki; have := congrArg Fin.val h; simp at this; omega
          rw [Equiv.swap_apply_of_ne_of_ne ne2 ne1, cellAt_eq_getElem z k hk]
  rw [key]
  have h := Equiv.Perm.ofFn_comp_perm (Equiv.swap (⟨i.toNat, hin⟩ : Fin z.length) ⟨j.toNat, hjn⟩) z.get
  simpa [List.ofFn_get] using h

theorem wr_some {β : Type} (l : List β) (k : Int) (v : β) (h0 : 0 ≤ k) (h1 : k < l.length) :
    wr (some l) k v = .ok (some (l.set k.toNat v)) := by
  have hk : k.toNat < l.length := by omega
  simp [wr, h0, hk]

theorem exch_spec (z : List (Individual × ℚ)) (i j : Int)
    (hi0 : 0 ≤ i) (hi : i < z.length) (hj0 : 0 ≤ j) (hj : j < z.length) :
    exch (some (z.map Prod.fst)) (some (z.map Prod.snd)) i j =
      .ok (some ((swapZ z i j).map Prod.fst), some ((swapZ z i j).map Prod.snd)) := by
  have e1 := rd_keys z i hi0 hi
  have e2 := rd_keys z j hj0 hj
  have e3 := rd_inds z i hi0 hi
  have e4 := rd_inds z j hj0 hj
  have w1 := wr_some (z.map Prod.snd) i (keyAt z j) hi0 (by simpa using hi)
  have w2 := wr_some ((z.map Prod.snd).set i.toNat (keyAt z j)) j (keyAt z i) hj0
    (by simpa using hj)
  have w3 := wr_some (z.map Prod.fst) i (cellAt z j).1 hi0 (by simpa using hi)
  have w4 := wr_some ((z.map Prod.fst).set i.toNat (cellAt z j).1) j (cellAt z i).1 hj0
    (by simpa using hj)
  simp only [exch, e1, e2, e3, e4, w1, w2, w3, w4, bind, Except.bind, pure, Except.pure]
  simp [swapZ, List.map_set, keyAt]

theorem RangePerm.range_refl (z : List (Individual × ℚ)) (left right : Int) :
    RangePerm z z left right :=
  ⟨rfl, List.Perm.refl _, fun _ _ => rfl, fun _ h => h⟩

theorem RangePerm.range_trans {z z1 z2 : List (Individual × ℚ)} {left right : Int}
    (h1 : RangePerm z z1 left right) (h2 : RangePerm z1 z2 left right) :
    RangePerm z z2 left right := by
  obtain ⟨a1, b1, c1, d1⟩ := h1
  obtain ⟨a2, b2, c2, d2⟩ := h2
  refine ⟨a2.trans a1, b2.trans b1, fun k hk => (c2 k hk).trans (c1 k hk), ?_⟩
  intro P hP
  exact d2 P (d1 P hP)

theorem RangePerm.range_mono {z z1 : List (Individual × ℚ)} {left right l r : Int}
    (h : RangePerm z z1 l r) (hl : left ≤ l) (hr : r ≤ right) :
    RangePerm z z1 left right := by
  obtain ⟨a, b, c, d⟩ := h
  refine ⟨a, b, fun k hk => c k (by omega), ?_⟩
  intro P hP k hk1 hk2
  by_cases hin : l ≤ k ∧ k ≤ r
  · exact d P (fun k' h1 h2 => hP k' (by omega) (by omega)) k hin.1 hin.2
  · rw [c k (by omega)]
    exact hP k hk1 hk2

theorem RangePerm_swapZ (z : List (Individual × ℚ)) (left right i j : Int)
    (hl : 0 ≤ left) (hr : right < z.length)
    (hi1 : left ≤ i) (hi2 : i ≤ right) (hj1 : left ≤ j) (hj2 : j ≤ right) :
    RangePerm z (swapZ z i j) left right := by
  have hi0 : 0 ≤ i := by omega
  have hj0 : 0 ≤ j := by omega
  have hi : i < z.length := by omega
  have hj : j < z.length := by omega
  refine ⟨length_swapZ z i j, swapZ_perm z i j hi0 hi hj0 hj, ?_, ?_⟩
  · intro k hk
    rw [cellAt_swapZ z i j k hi0 hi hj0 hj]
    have h1 : k ≠ j := by omega
    have h2 : k ≠ i := by omega
    simp [h1, h2]
  · intro P hP k hk1 hk2
    rw [cellAt_swapZ z i j k hi0 hi hj0 hj]
    split_ifs
    · exact hP i hi1 hi2
    · exact hP j hj1 hj2
    · exact hP k hk1 hk2

/-! ## The two scans of `partition` -/

theorem scanUp_spec (z : List (Individual × ℚ)) (right : Int) (hr : right < z.length) :
    ∀ (fuel : Nat) (i : Int), -1 ≤ i → i < right → right - i ≤ fuel →
    ∃ i1, scanUp fuel (some (z.map Prod.snd)) right i = .ok i1 ∧ i < i1 ∧ i1 ≤ right ∧
      (∀ k, i < k → k < i1 → keyAt z right < keyAt z k) ∧ keyAt z i1 ≤ keyAt z right := by
  intro fuel
  induction fuel with
  | zero => intro i _ h2 h3; simp at h3; omega
  | succ n ih =>
    intro i h1 h2 h3
    have e1 := rd_keys z (i + 1) (by omega) (by omega)
    have e2 := rd_keys z right (by omega) hr
    simp only [scanUp, e1, e2, bind, Except.bind, less]
    by_cases hc : keyAt z right < keyAt z (i + 1)
    · have hne : i + 1 ≠ right := by
        intro h; rw [h] at hc; exact lt_irrefl _ hc
      obtain ⟨i1, r1, r2, r3, r4, r5⟩ := ih (i + 1) (by omega) (by omega) (by push_cast at h3; omega)
      refine ⟨i1, ?_, by omega, r3, ?_, r5⟩
      · simp [hc, r1]
      · intro k hk1 hk2
        by_cases hk : k = i + 1
        · rw [hk]; exact hc
        · exact r4 k (by omega) hk2
    · refine ⟨i + 1, ?_, by omega, by omega, ?_, not_lt.mp hc⟩
      · simp [hc, pure, Except.pure]
      · intro k hk1 hk2; omega

theorem scanDown_spec (z : List (Individual × ℚ)) (left right : Int) (hl : 0 ≤ left)
    (hr : right < z.length) :
    ∀ (fuel : Nat) (j : Int), left < j → j ≤ right → j - left ≤ fuel →
    ∃ j1, scanDown fuel (some (z.map Prod.snd)) left right j = .ok j1 ∧ left ≤ j1 ∧ j1 < j ∧
      (∀ k, j1 < k → k < j → keyAt z k < keyAt z right) ∧
      (keyAt z right ≤ keyAt z j1 ∨ j1 = left) := by
  intro fuel
  induction fuel with
  | zero => intro j h1 _ h3; simp at h3; omega
  | succ n ih =>
    intro j h1 h2 h3
    have e1 := rd_keys z (j - 1) (by omega) (by omega)
    have e2 := rd_keys z right (by omega) hr
    simp only [scanDown, e1, e2, bind, Except.bind, less]
    by_cases hc : keyAt z (j - 1) < keyAt z right
    · by_cases hjl : j - 1 = left
      · refine ⟨j - 1, ?_, by omega, by omega, ?_, Or.inr hjl⟩
        · simp [hc, hjl, pure, Except.pure]
        · intro k hk1 hk2; omega
      · obtain ⟨j1, r1, r2, r3, r4, r5⟩ :=
          ih (j - 1) (by omega) (by omega) (by push_cast at h3; omega)
        refine ⟨j1, ?_, r2, by omega, ?_, r5⟩
        · simp [hc, hjl, r1]
        · intro k hk1 hk2
          by_cases hk : k = j - 1
          · rw [hk]; exact hc
          · exact r4 k hk1 (by omega)
    · refine ⟨j - 1, ?_, by omega, by omega, ?_, Or.inl (not_lt.mp hc)⟩
      · simp [hc, pure, Except.pure]
      · intro k hk1 hk2; omega

/-! ## `partition` -/

theorem partitionLoop_spec (left right : Int) (hl : 0 ≤ left) :
    ∀ (fuel : Nat) (z : List (Individual × ℚ)) (i j : Int), right < z.length →
    left - 1 ≤ i → i < j → left < j → j ≤ right →
    (∀ k, left ≤ k → k ≤ i → keyAt z right ≤ keyAt z k) →
    (∀ k, j ≤ k → k < right → keyAt z k ≤ keyAt z right) →
    right - i + 1 ≤ fuel → j - left + 1 ≤ fuel →
    ∃ z1 p, partitionLoop fuel (some (z.map Prod.fst)) (some (z.map Prod.snd)) left right i j
        = .ok (some (z1.map Prod.fst), some (z1.map Prod.snd), p) ∧
      RangePerm z z1 left (right - 1) ∧ left ≤ p ∧ p ≤ right ∧
      (∀ k, left ≤ k → k < p → keyAt z1 right ≤ keyAt z1 k) ∧
      (∀ k, p ≤ k → k ≤ right → keyAt z1 k ≤ keyAt z1 right) := by
  intro fuel
  induction fuel with
  | zero => intro z i j _ _ _ _ _ _ _ h1 _; simp at h1; omega
  | succ n ih =>
    intro z i j hr hi1 hij hlj hj invL invR hf1 hf2
    push_cast at hf1 hf2
    obtain ⟨i1, s1, s2, s3, s4, s5⟩ := scanUp_spec z right hr n i (by omega) (by omega) (by omega)
    obtain ⟨j1, t1, t2, t3, t4, t5⟩ :=
      scanDown_spec z left right hl hr n j (by omega) hj (by omega)
    simp only [partitionLoop, s1, t1, bind, Except.bind]
    by_cases hc : i1 ≥ j1
    · refine ⟨z, i1, ?_, RangePerm.range_refl _ _ _, by omega, s3, ?_, ?_⟩
      · simp [hc, pure, Except.pure]
      · intro k hk1 hk2
        by_cases hki : k ≤ i
        · exact invL k hk1 hki
        · exact le_of_lt (s4 k (by omega) hk2)
      · intro k hk1 hk2
        by_cases hkr : k = right
        · rw [hkr]
        · by_cases hki : k = i1
          · rw [hki]; exact s5
          · by_cases hkj : k < j
            · exact le_of_lt (t4 k (by omega) hkj)
            · exact invR k (by omega) (by omega)
    · have hlt : i1 < j1 := by omega
      have hi0 : 0 ≤ i1 := by omega
      have hj0 : 0 ≤ j1 := by omega
      have hsw := exch_spec z i1 j1 hi0 (by omega) hj0 (by omega)
      have hcell := fun k => cellAt_swapZ z i1 j1 k hi0 (by omega) hj0 (by omega)
      have hpiv : keyAt (swapZ z i1 j1) right = keyAt z right := by
        simp only [keyAt, hcell]
        rw [if_neg (by omega), if_neg (by omega)]
      have hpj : keyAt z right ≤ keyAt z j1 := by
        rcases t5 with h | h
        · exact h
        · omega
      obtain ⟨z1, p, r1, r2, r3, r4, r5, r6⟩ := ih (swapZ z i1 j1) i1 j1
        (by rw [length_swapZ]; exact hr) (by omega) hlt (by omega) (by omega)
        (by
          intro k hk1 hk2
          rw [hpiv]
          simp only [keyAt, hcell]
          rw [if_neg (by omega)]
          by_cases hki : k = i1
          · rw [if_pos hki]; exact hpj
          · rw [if_neg hki]
            by_cases hki2 : k ≤ i
            · exact invL k hk1 hki2
            · exact le_of_lt (s4 k (by omega) (by omega)))
        (by
          intro k hk1 hk2
          rw [hpiv]
          simp only [keyAt, hcell]
          by_cases hkj : k = j1
          · rw [if_pos hkj]; exact s5
          · rw [if_neg hkj, if_neg (by omega)]
            by_cases hkj2 : k < j
            · exact le_of_lt (t4 k (by omega) hkj2)
            · exact invR k (by omega) hk2)
        (by omega) (by omega)
      refine ⟨z1, p, ?_, ?_, r3, r4, r5, r6⟩
      · simp [hc, hsw, r1]
      · exact (RangePerm_swapZ z left (right - 1) i1 j1 hl (by omega) (by omega) (by omega)
          (by omega) (by omega)).range_trans r2

theorem partition_spec (z : List (Individual × ℚ)) (left right : Int) (fuel : Nat)
    (hl : 0 ≤ left) (hlr : left < right) (hr : right < z.length)
    (hf : right - left + 2 ≤ fuel) :
    ∃ z1 p, partition fuel (some (z.map Prod.fst)) (some (z.map Prod.snd)) left right
        = .ok (some (z1.map Prod.fst), some (z1.map Prod.snd), p) ∧
      RangePerm z z1 left right ∧ left ≤ p ∧ p ≤ right ∧ keyAt z1 p = keyAt z right ∧
      (∀ k, left ≤ k → k < p → keyAt z1 p ≤ keyAt z1 k) ∧
      (∀ k, p < k → k ≤ right → keyAt z1 k ≤ keyAt z1 p) := by
  obtain ⟨z1, p, r1, r2, r3, r4, r5, r6⟩ := partitionLoop_spec left right hl fuel z
    (left - 1) right hr (by omega) (by omega) (by omega) (by omega) (by intro k h1 h2; omega)
    (by intro k h1 h2; omega) (by omega) (by omega)
  have hlen : z1.length = z.length := r2.1
  have hp0 : 0 ≤ p := by omega
  have hsw := exch_spec z1 p right hp0 (by omega) (by omega) (by omega)
  have hcell := fun k => cellAt_swapZ z1 p right k hp0 (by omega) (by omega) (by omega)
  have hpiv : keyAt z1 right = keyAt z right := by
    simp only [keyAt]; rw [r2.2.2.1 right (by omega)]
  have hkp : keyAt (swapZ z1 p right) p = keyAt z1 right := by
    simp only [keyAt, hcell]
    by_cases h : p = right
    · rw [if_pos h]; rw [h]
    · simp [h]
  refine ⟨swapZ z1 p right, p, ?_, ?_, r3, r4, by rw [hkp, hpiv], ?_, ?_⟩
  · simp [partition, r1, hsw, bind, Except.bind, pure, Except.pure]
  · exact (r2.range_mono (le_refl _) (by omega)).range_trans
      (RangePerm_swapZ z1 left right p right hl (by omega) r3 r4 (by omega) (le_refl _))
  · intro k hk1 hk2
    rw [hkp]
    simp only [keyAt, hcell]
    rw [if_neg (by omega), if_neg (by omega)]
    exact r5 k hk1 hk2
  · intro k hk1 hk2
    rw [hkp]
    simp only [keyAt, hcell]
    by_cases hkr : k = right
    · rw [if_pos hkr]; exact r6 p (le_refl _) r4
    · rw [if_neg hkr, if_neg (by omega)]
      exact r6 k (by omega) hk2

/-! ## `quicksort` -/

theorem quicksort_spec :
    ∀ (fuel : Nat) (z : List (Individual × ℚ)) (left right : Int), 0 ≤ left →
    right < z.length → right - left + 3 ≤ fuel →
    ∃ z1, quicksort fuel (some (z.map Prod.fst)) (some (z.map Prod.snd)) left right
        = .ok (some (z1.map Prod.fst), some (z1.map Prod.snd)) ∧
      RangePerm z z1 left right ∧
      (∀ k1 k2, left ≤ k1 → k1 ≤ k2 → k2 ≤ right → keyAt z1 k2 ≤ keyAt z1 k1) := by
  intro fuel
  induction fuel with
  | zero =>
    intro z left right _ _ hf
    have hrl : right ≤ left := by simp at hf; omega
    refine ⟨z, by simp [quicksort, hrl, pure, Except.pure], RangePerm.range_refl _ _ _, ?_⟩
    intro k1 k2 h1 h2 h3
    have : k1 = k2 := by omega
    rw [this]
  | succ n ih =>
    intro z left right hl hr hf
    push_cast at hf
    by_cases hrl : right ≤ left
    · refine ⟨z, by simp [quicksort, hrl, pure, Except.pure], RangePerm.range_refl _ _ _, ?_⟩
      intro k1 k2 h1 h2 h3
      have : k1 = k2 := by omega
      rw [this]
    · obtain ⟨z1, p, p1, p2, p3, p4, _, p6, p7⟩ :=
        partition_spec z left right n hl (by omega) hr (by omega)
      have len1 : z1.length = z.length := p2.1
      obtain ⟨z2, q1, q2, q3⟩ := ih z1 left (p - 1) hl (by omega) (by omega)
      have len2 : z2.length = z1.length := q2.1
      obtain ⟨z3, s1, s2, s3⟩ := ih z2 (p + 1) right (by omega) (by omega) (by omega)
      have fr2 := q2.2.2.1
      have fr3 := s2.2.2.1
      have hB : keyAt z3 p = keyAt z1 p := by
        simp only [keyAt]; rw [fr3 p (by omega), fr2 p (by omega)]
      have hA : ∀ k, left ≤ k → k ≤ p - 1 → keyAt z1 p ≤ keyAt z3 k := by
        intro k h1 h2
        have h := q2.2.2.2 (fun c => keyAt z1 p ≤ c.2)
          (fun k' a b => p6 k' a (by omega)) k h1 h2
        simp only [keyAt]; rw [fr3 k (by omega)]; exact h
      have hC : ∀ k, p + 1 ≤ k → k ≤ right → keyAt z3 k ≤ keyAt z1 p := by
        intro k h1 h2
        refine s2.2.2.2 (fun c => c.2 ≤ keyAt z1 p) ?_ k h1 h2
        intro k' a b
        rw [fr2 k' (by omega)]
        exact p7 k' (by omega) b
      refine ⟨z3, ?_, ?_, ?_⟩
      · simp [quicksort, hrl, p1, q1, s1, bind, Except.bind]
      · exact p2.range_trans ((q2.range_mono (le_refl _) (by omega)).range_trans
          (s2.range_mono (by omega) (le_refl _)))
      · intro k1 k2 h1 h2 h3
        by_cases a2 : k2 ≤ p - 1
        · have e1 : keyAt z3 k1 = keyAt z2 k1 := by
            simp only [keyAt]; rw [fr3 k1 (by omega)]
          have e2 : keyAt z3 k2 = keyAt z2 k2 := by
            simp only [keyAt]; rw [fr3 k2 (by omega)]
          rw [e1, e2]
          exact q3 k1 k2 h1 h2 a2
        · by_cases a1 : p + 1 ≤ k1
          · exact s3 k1 k2 a1 h2 h3
          · have u1 : keyAt z1 p ≤ keyAt z3 k1 := by
              by_cases b : k1 = p
              · rw [b, hB]
              · exact hA k1 h1 (by omega)
            have u2 : keyAt z3 k2 ≤ keyAt z1 p := by
              by_cases b : k2 = p
              · rw [b, hB]
              · exact hC k2 (by omega) h3
            exact le_trans u2 u1

/-! ## Running computations -/

theorem bind_run {σ β γ : Type} (m : M σ β) (f : β → M σ γ) (w : World σ) :
    (m >>= f) w = match m w with
      | (.ok b, w1) => f b w1
      | (.error e, w1) => (.error e, w1) := rfl

theorem bind_ok {σ β γ : Type} {m : M σ β} {f : β → M σ γ} {w w1 : World σ} {b : β}
    (h : m w = (.ok b, w1)) : (m >>= f) w = f b w1 := by
  rw [bind_run, h]

theorem bind_error {σ β γ : Type} {m : M σ β} {f : β → M σ γ} {w w1 : World σ} {e : Err}
    (h : m w = (.error e, w1)) : (m >>= f) w = (.error e, w1) := by
  rw [bind_run, h]

theorem pure_run {σ β : Type} (b : β) (w : World σ) : (pure b : M σ β) w = (.ok b, w) := rfl

theorem liftE_run {σ β : Type} (e : Except Err β) (w : World σ) :
    (liftE e : M σ β) w = (e, w) := rfl

theorem logEvent_run {σ : Type} (e : Event) (w : World σ) :
    (logEvent e : M σ Unit) w = (.ok (), ⟨w.user, w.log ++ [e]⟩) := rfl

theorem call_run {σ β : Type} (f : σ → β × σ) (w : World σ) :
    call f w = (.ok (f w.user).1, ⟨(f w.user).2, w.log⟩) := rfl

theorem callFitness_run {σ : Type} (fitness : GAFitnessFnc) (x : Individual) (w : World σ) :
    callFitness fitness x w = (.ok (fitness x), ⟨w.user, w.log ++ [Event.fitness x]⟩) := rfl

theorem malloc_run {σ β : Type} (env : Env σ) (init : β) (cells : Int) (w : World σ) :
    malloc env init cells w =
      (.ok (if (env.malloc cells w.user).1 then some (List.replicate cells.toNat init) else none),
        ⟨(env.malloc cells w.user).2, w.log⟩) := rfl

/-! ## `GAsort` -/

theorem sortFitnessLoop_spec {σ : Type} (fitness : GAFitnessFnc) (l : List Individual) :
    ∀ (n i : Nat) (arr : List ℚ) (w : World σ), i + n = l.length → arr.length = l.length →
    (∀ k, k < i → arr[k]? = some (fitness (l.getD k NULL))) →
    sortFitnessLoop fitness (some l) n (i : Int) (some arr) w =
      (.ok (some (l.map fitness)), ⟨w.user, w.log ++ (l.drop i).map Event.fitness⟩) := by
  intro n
  induction n with
  | zero =>
    intro i arr w hi hlen hpre
    have e : arr = l.map fitness := by
      apply List.ext_getElem?
      intro k
      by_cases hk : k < i
      · rw [hpre k hk]
        have : k < l.length := by omega
        simp [List.getD_eq_getElem?_getD, List.getElem?_eq_getElem this]
      · rw [List.getElem?_eq_none (by omega), List.getElem?_eq_none (by simp; omega)]
    have hd : l.drop i = [] := List.drop_eq_nil_of_le (by omega)
    simp [sortFitnessLoop, pure_run, e, hd]
  | succ n ih =>
    intro i arr w hi hlen hpre
    have hil : i < l.length := by omega
    have r1 : rd (some l) (i : Int) = .ok l[i] := by
      simp [rd, List.getElem?_eq_getElem hil]
    have w1 := wr_some arr (i : Int) (fitness l[i]) (by omega) (by omega)
    simp only [Int.toNat_ofNat] at w1
    have step := ih (i + 1) (arr.set i (fitness l[i])) ⟨w.user, w.log ++ [Event.fitness l[i]]⟩
      (by omega) (by simpa using hlen)
      (by
        intro k hk
        by_cases hki : k = i
        · subst hki
          simp [List.getElem?_set, hlen, hil, List.getD_eq_getElem?_getD,
            List.getElem?_eq_getElem hil]
        · rw [List.getElem?_set_ne (by omega)]
          exact hpre k (by omega))
    have hd : l.drop i = l[i] :: l.drop (i + 1) := List.drop_eq_getElem_cons hil
    push_cast at step
    simp only [sortFitnessLoop, bind_run, liftE_run, callFitness_run, r1, w1, step]
    rw [hd]
    simp only [List.map_cons, List.append_assoc, List.singleton_append]

theorem GAsort_spec {σ : Type} (env : Env σ) (fitness : GAFitnessFnc) (l : List Individual)
    (w : World σ) (halloc : (env.malloc l.length w.user).1 = true) :
    ∃ z1 : List (Individual × ℚ),
      GAsort env (some l) fitness l.length w =
        (.ok (some (z1.map Prod.fst)),
          ⟨(env.malloc l.length w.user).2,
            w.log ++ [Event.GAsort (some l) l.length] ++ l.map Event.fitness⟩) ∧
      z1.Perm (l.map (fun x => (x, fitness x))) ∧
      (∀ k1 k2 : Int, 0 ≤ k1 → k1 ≤ k2 → k2 < l.length → keyAt z1 k2 ≤ keyAt z1 k1) := by
  have hloop := sortFitnessLoop_spec fitness l l.length 0 (List.replicate l.length (0 : ℚ))
    (⟨(env.malloc l.length w.user).2, w.log ++ [Event.GAsort (some l) l.length]⟩ : World σ)
    (by omega) (by simp) (by intro k hk; omega)
  have e1 : (l.map (fun x => (x, fitness x))).map Prod.fst = l := by
    simp [List.map_map, Function.comp_def]
  have e2 : (l.map (fun x => (x, fitness x))).map Prod.snd = l.map fitness := by
    simp [List.map_map, Function.comp_def]
  obtain ⟨z1, q1, q2, q3⟩ := quicksort_spec (l.length + 2) (l.map (fun x => (x, fitness x)))
    0 ((l.length : Int) - 1) (le_refl _) (by simp) (by push_cast; omega)
  rw [e1, e2] at q1
  refine ⟨z1, ?_, q2.2.1, fun k1 k2 h1 h2 h3 => q3 k1 k2 h1 h2 (by omega)⟩
  simp only [Nat.cast_zero, List.drop_zero] at hloop
  simp only [GAsort, bind_run, logEvent_run, malloc_run, halloc, if_true, pure_run,
    Int.toNat_ofNat, hloop, liftE_run, decr_nat, q1]
  simp [bind_run, liftE_run, pure_run, q1]

theorem sortFitnessLoop_null {σ : Type} (fitness : GAFitnessFnc) (population : Population)
    (n : Nat) (i : Int) (w : World σ) :
    ∃ e w1, sortFitnessLoop fitness population (n + 1) i none w = (.error e, w1) := by
  simp only [sortFitnessLoop, bind_run, liftE_run]
  cases h : rd population i with
  | error e => exact ⟨e, w, rfl⟩
  | ok x =>
    simp only [callFitness_run, wr]
    exact ⟨_, _, rfl⟩

theorem GAsort_alloc_fail {σ : Type} (env : Env σ) (fitness : GAFitnessFnc)
    (population : Population) (populationSz : Int) (w : World σ)
    (halloc : (env.malloc populationSz w.user).1 = false) (hn : 1 ≤ populationSz) :
    ∃ e w1, GAsort env population fitness populationSz w = (.error e, w1) := by
  obtain ⟨n, hn1⟩ : ∃ n : Nat, populationSz.toNat = n + 1 := ⟨populationSz.toNat - 1, by omega⟩
  obtain ⟨e, w1, h⟩ := sortFitnessLoop_null fitness population n 0
    (⟨(env.malloc populationSz w.user).2, w.log ++ [Event.GAsort population populationSz]⟩ :
      World σ)
  refine ⟨e, w1, ?_⟩
  simp only [GAsort, bind_run, logEvent_run, malloc_run, halloc, pure_run, hn1]
  simp [h]

theorem keyAt_of_getElem? (fitness : GAFitnessFnc) (z1 : List (Individual × ℚ))
    (hz : ∀ c ∈ z1, c.2 = fitness c.1) (i : Nat) (x : Individual)
    (hx : (z1.map Prod.fst)[i]? = some x) : keyAt z1 (i : Int) = fitness x ∧ i < z1.length := by
  rw [List.getElem?_map] at hx
  cases hc : z1[i]? with
  | none => rw [hc] at hx; simp at hx
  | some c =>
    rw [hc] at hx
    simp at hx
    have hmem : c ∈ z1 := List.getElem?_mem hc
    have hlt : i < z1.length := by
      by_contra h
      rw [List.getElem?_eq_none (by omega)] at hc
      exact Option.noConfusion hc
    refine ⟨?_, hlt⟩
    simp [keyAt, cellAt, List.getD_eq_getElem?_getD, hc, hz c hmem, hx]

/-- What `GAsort` does when its buffer is allocated: it returns a permutation of the
population in which fitness never increases from one index to a later one, and it logs its own
call followed by one fitness call per individual. -/
theorem GAsort_ok {σ : Type} (env : Env σ) (fitness : GAFitnessFnc) (l : List Individual)
    (w : World σ) (halloc : (env.malloc l.length w.user).1 = true) :
    ∃ l1 : List Individual,
      GAsort env (some l) fitness l.length w =
        (.ok (some l1),
          ⟨(env.malloc l.length w.user).2,
            w.log ++ [Event.GAsort (some l) l.length] ++ l.map Event.fitness⟩) ∧
      l1.Perm l ∧
      (∀ (i j : Nat) (x y : Individual), i ≤ j → l1[i]? = some x → l1[j]? = some y →
        fitness y ≤ fitness x) := by
  obtain ⟨z1, h1, h2, h3⟩ := GAsort_spec env fitness l w halloc
  have hz : ∀ c ∈ z1, c.2 = fitness c.1 := by
    intro c hc
    have := (h2.mem_iff).1 hc
    simp only [List.mem_map] at this
    obtain ⟨x, _, rfl⟩ := this
    rfl
  have hlen : z1.length = l.length := by simpa using h2.length_eq
  refine ⟨z1.map Prod.fst, h1, ?_, ?_⟩
  · have := h2.map Prod.fst
    simpa [List.map_map, Function.comp_def] using this
  · intro i j x y hij hx hy
    obtain ⟨kx, _⟩ := keyAt_of_getElem? fitness z1 hz i x hx
    obtain ⟨ky, hj⟩ := keyAt_of_getElem? fitness z1 hz j y hy
    rw [← kx, ← ky]
    exact h3 i j (by omega) (by omega) (by omega)

/-! ## `GAselect` -/

theorem cumul_succ (fv : List ℚ) (i : Nat) (hi : i < fv.length) :
    cumul fv (i + 1) = cumul fv i + fv.getD i 0 := by
  simp [cumul, List.sum_take_succ fv i hi, List.getD_eq_getElem?_getD,
    List.getElem?_eq_getElem hi]

theorem GAselectLoop_spec (fv : List ℚ) (d : ℚ) :
    ∀ (m i : Nat), i + m + 1 = fv.length →
    ∃ r : Nat, GAselectLoop m (some fv) d (cumul fv i) (i : Int) = .ok (r : Int) ∧
      i ≤ r ∧ r ≤ i + m ∧ (∀ k, i ≤ k → k < r → ¬ InOpenInterval fv d k) ∧
      (r < i + m → InOpenInterval fv d r) := by
  intro m
  induction m with
  | zero =>
    intro i _
    exact ⟨i, rfl, le_refl _, le_refl _, fun k h1 h2 => by omega, fun h => by omega⟩
  | succ n ih =>
    intro i hi
    have hil : i < fv.length := by omega
    have r1 : rd (some fv) (i : Int) = .ok (fv.getD i 0) := by
      simp [rd, List.getD_eq_getElem?_getD, List.getElem?_eq_getElem hil]
    simp only [GAselectLoop, r1, bind, Except.bind]
    by_cases hc : cumul fv i < d ∧ d < cumul fv i + fv.getD i 0
    · refine ⟨i, by rw [if_pos hc]; rfl, le_refl _, by omega, fun k h1 h2 => by omega,
        fun _ => hc⟩
    · obtain ⟨r, q1, q2, q3, q4, q5⟩ := ih (i + 1) (by omega)
      rw [cumul_succ fv i hil] at q1
      push_cast at q1
      refine ⟨r, by simp only [if_neg hc]; exact q1, by omega, by omega, ?_, fun h => q5 (by omega)⟩
      intro k h1 h2
      by_cases hk : k = i
      · rw [hk]; exact hc
      · exact q4 k (by omega) h2

/-- Result of `GAselect` on a block of `n ≥ 1` fitness values: the smallest index whose open
cumulative interval contains the draw, else the last index. -/
theorem GAselect_spec {σ : Type} (env : Env σ) (population : Population) (fv : List ℚ)
    (sumOfFitness : ℚ) (s : σ) (hn : 1 ≤ fv.length) :
    ∃ r : Nat, (GAselect env population (some fv) sumOfFitness fv.length s).1 = .ok (r : Int) ∧
      r < fv.length ∧
      (∀ k, k < r → ¬ InOpenInterval fv ((env.mtrand s).1 * sumOfFitness) k) ∧
      (r < fv.length - 1 → InOpenInterval fv ((env.mtrand s).1 * sumOfFitness) r) := by
  obtain ⟨r, q1, _, q3, q4, q5⟩ :=
    GAselectLoop_spec fv ((env.mtrand s).1 * sumOfFitness) (fv.length - 1) 0 (by omega)
  have e : ((fv.length : Int) - 1).toNat = fv.length - 1 := by omega
  refine ⟨r, ?_, by omega, fun k hk => q4 k (by omega) hk, fun h => q5 (by omega)⟩
  simp only [GAselect, decr_nat, bind, Except.bind, e]
  simpa [cumul] using q1
theorem cumul_mono (fv : List ℚ) (hnn : ∀ x ∈ fv, 0 ≤ x) :
    ∀ (b a : Nat), a ≤ b → b ≤ fv.length → cumul fv a ≤ cumul fv b := by
  intro b
  induction b with
  | zero => intro a h _; have : a = 0 := by omega
            rw [this]
  | succ n ih =>
    intro a h1 h2
    by_cases ha : a = n + 1
    · rw [ha]
    · have hn : n < fv.length := by omega
      have h := ih a (by omega) (by omega)
      rw [cumul_succ fv n hn]
      have hx : 0 ≤ fv.getD n 0 := by
        rw [List.getD_eq_getElem?_getD, List.getElem?_eq_getElem hn]
        exact hnn _ (List.getElem_mem hn)
      linarith

theorem cumul_locate (fv : List ℚ) (d : ℚ) (hd0 : 0 ≤ d) :
    ∀ n : Nat, n ≤ fv.length → d < cumul fv n → ∃ i, i < n ∧ InHalfOpenInterval fv d i := by
  intro n
  induction n with
  | zero => intro _ h; simp [cumul] at h; linarith
  | succ n ih =>
    intro h1 h2
    by_cases hc : d < cumul fv n
    · obtain ⟨i, hi, h⟩ := ih (by omega) hc
      exact ⟨i, by omega, h⟩
    · refine ⟨n, by omega, not_lt.mp hc, ?_⟩
      rw [← cumul_succ fv n (by omega)]
      exact h2

theorem cumul_length (fv : List ℚ) : cumul fv fv.length = fv.sum := by
  simp [cumul]

/-! ## `GAnextGen`: the fitness loop -/

theorem rd_nat {β : Type} (l : List β) (i : Nat) (d : β) (hi : i < l.length) :
    rd (some l) (i : Int) = .ok (l.getD i d) := by
  simp [rd, List.getD_eq_getElem?_getD, List.getElem?_eq_getElem hi]

theorem wr_nat {β : Type} (l : List β) (i : Nat) (v : β) (hi : i < l.length) :
    wr (some l) (i : Int) v = .ok (some (l.set i v)) := by
  simp [wr, hi]

theorem fitnessLoop_step {σ : Type} (fitness : GAFitnessFnc) (l : List Individual)
    (n i best : Nat) (arr : List ℚ) (total : ℚ) (w : World σ)
    (hi : i < l.length) (hlen : arr.length = l.length) (hb : best ≤ i)
    (hbv : best < i → arr.getD best 0 = clamped fitness (l.getD best NULL)) :
    fitnessLoop fitness (some l) (n + 1) (i : Int) (some arr) total (best : Int) w =
      fitnessLoop fitness (some l) n ((i : Int) + 1)
        (some (arr.set i (clamped fitness (l.getD i NULL))))
        (total + clamped fitness (l.getD i NULL))
        (if clamped fitness (l.getD i NULL) > clamped fitness (l.getD best NULL)
          then (i : Int) else (best : Int))
        ⟨w.user, w.log ++ [Event.fitness (l.getD i NULL)]⟩ := by
  have hia : i < arr.length := by omega
  have r1 := rd_nat l i NULL hi
  have w1 := wr_nat arr i (fitness (l.getD i NULL)) hia
  have r2 := rd_nat (arr.set i (fitness (l.getD i NULL))) i 0 (by simpa using hia)
  have g2 : (arr.set i (fitness (l.getD i NULL))).getD i 0 = fitness (l.getD i NULL) := by
    simp [List.getD_eq_getElem?_getD, hia]
  rw [g2] at r2
  have hvb : ∀ v : ℚ, (arr.set i v).getD best 0 =
      if best = i then v else clamped fitness (l.getD best NULL) := by
    intro v
    by_cases hbi : best = i
    · subst hbi; simp [List.getD_eq_getElem?_getD, hia]
    · rw [if_neg hbi, ← hbv (by omega)]
      simp [List.getD_eq_getElem?_getD, List.getElem?_set_ne (Ne.symm hbi)]
  have hgi : ∀ v : ℚ, (arr.set i v).getD i 0 = v := by
    intro v; simp [List.getD_eq_getElem?_getD, hia]
  have hfinal : ∀ v : ℚ, v = clamped fitness (l.getD i NULL) →
      (if v > (if best = i then v else clamped fitness (l.getD best NULL)) then (i : Int)
        else (best : Int)) =
      (if v > clamped fitness (l.getD best NULL) then (i : Int) else (best : Int)) := by
    intro v hv
    by_cases hbi : best = i
    · subst hbi; simp [hv]
    · rw [if_neg hbi]
  by_cases hneg : fitness (l.getD i NULL) < 0
  · have hc : clamped fitness (l.getD i NULL) = 0 := by unfold clamped; rw [if_pos hneg]
    have w2 := wr_nat (arr.set i (fitness (l.getD i NULL))) i (0 : ℚ) (by simpa using hia)
    rw [List.set_set] at w2
    have r3 := rd_nat (arr.set i (0 : ℚ)) i 0 (by simpa using hia)
    have r4 := rd_nat (arr.set i (0 : ℚ)) best 0 (by simp; omega)
    rw [hgi] at r3
    rw [hvb] at r4
    simp only [fitnessLoop, bind_run, liftE_run, callFitness_run, r1, w1, r2, hneg, if_true,
      w2, r3, r4, pure_run]
    rw [hfinal 0 hc.symm, hc]
  · have hc : clamped fitness (l.getD i NULL) = fitness (l.getD i NULL) := by
      unfold clamped; rw [if_neg hneg]
    have r4 := rd_nat (arr.set i (fitness (l.getD i NULL))) best 0 (by simp; omega)
    rw [hvb] at r4
    simp only [fitnessLoop, bind_run, liftE_run, callFitness_run, r1, w1, r2, hneg, if_false,
      r4, pure_run]
    rw [hfinal _ hc.symm, hc]
theorem fitnessLoop_spec {σ : Type} (fitness : GAFitnessFnc) (l : List Individual) :
    ∀ (n i best : Nat) (arr : List ℚ) (total : ℚ) (w : World σ),
    i + n = l.length → arr.length = l.length →
    (∀ k, k < i → arr.getD k 0 = clamped fitness (l.getD k NULL)) →
    ((i = 0 ∧ best = 0) ∨ (best < i ∧
      (∀ k, k < i → clamped fitness (l.getD k NULL) ≤ clamped fitness (l.getD best NULL)) ∧
      (∀ k, k < best → clamped fitness (l.getD k NULL) < clamped fitness (l.getD best NULL)))) →
    ∃ b : Nat,
      fitnessLoop fitness (some l) n (i : Int) (some arr) total (best : Int) w =
        (.ok (some (l.map (clamped fitness)),
            total + ((l.drop i).map (clamped fitness)).sum, (b : Int)),
          ⟨w.user, w.log ++ (l.drop i).map Event.fitness⟩) ∧
      (1 ≤ l.length → IsFirstMax (fun k => clamped fitness (l.getD k NULL)) l.length b) := by
  intro n
  induction n with
  | zero =>
    intro i best arr total w hi hlen hpre hinv
    have e : arr = l.map (clamped fitness) := by
      apply List.ext_getElem?
      intro k
      by_cases hk : k < l.length
      · have h := hpre k (by omega)
        rw [List.getD_eq_getElem?_getD, List.getElem?_eq_getElem (by omega)] at h
        simp only [Option.getD_some] at h
        rw [List.getElem?_eq_getElem (by omega), h]
        simp [List.getD_eq_getElem?_getD, List.getElem?_eq_getElem hk]
      · rw [List.getElem?_eq_none (by omega), List.getElem?_eq_none (by simp; omega)]
    have hd : l.drop i = [] := List.drop_eq_nil_of_le (by omega)
    refine ⟨best, by simp [fitnessLoop, pure_run, e, hd], ?_⟩
    intro h1
    rcases hinv with ⟨h0, _⟩ | ⟨hb, hmax, hfirst⟩
    · omega
    · exact ⟨by omega, fun k hk => hmax k (by omega), hfirst⟩
  | succ n ih =>
    intro i best arr total w hi hlen hpre hinv
    have hil : i < l.length := by omega
    have hb : best ≤ i := by
      rcases hinv with ⟨h0, h1⟩ | ⟨hb, _⟩ <;> omega
    have hstep := fitnessLoop_step fitness l n i best arr total w hil hlen hb
      (fun h => hpre best h)
    have hd : l.drop i = l.getD i NULL :: l.drop (i + 1) := by
      rw [List.drop_eq_getElem_cons hil]
      simp [List.getD_eq_getElem?_getD, List.getElem?_eq_getElem hil]
    have hpre2 : ∀ k, k < i + 1 →
        (arr.set i (clamped fitness (l.getD i NULL))).getD k 0 =
          clamped fitness (l.getD k NULL) := by
      intro k hk
      by_cases hki : k = i
      · subst hki
        simp [List.getD_eq_getElem?_getD, hlen, hil]
      · rw [← hpre k (by omega)]
        simp [List.getD_eq_getElem?_getD, List.getElem?_set_ne (Ne.symm hki)]
    by_cases hgt : clamped fitness (l.getD i NULL) > clamped fitness (l.getD best NULL)
    · rw [if_pos hgt] at hstep
      have hinv2 : ((i + 1 = 0 ∧ i = 0) ∨ (i < i + 1 ∧
          (∀ k, k < i + 1 →
            clamped fitness (l.getD k NULL) ≤ clamped fitness (l.getD i NULL)) ∧
          (∀ k, k < i → clamped fitness (l.getD k NULL) < clamped fitness (l.getD i NULL)))) := by
        right
        rcases hinv with ⟨h0, h1⟩ | ⟨_, hmax, _⟩
        · exfalso
          rw [h0, h1] at hgt
          exact lt_irrefl _ hgt
        · refine ⟨by omega, fun k hk => ?_, fun k hk => lt_of_le_of_lt (hmax k hk) hgt⟩
          by_cases hki : k = i
          · rw [hki]
          · exact le_of_lt (lt_of_le_of_lt (hmax k (by omega)) hgt)
      obtain ⟨b, q1, q2⟩ := ih (i + 1) i (arr.set i (clamped fitness (l.getD i NULL)))
        (total + clamped fitness (l.getD i NULL))
        ⟨w.user, w.log ++ [Event.fitness (l.getD i NULL)]⟩ (by omega) (by simpa using hlen)
        hpre2 hinv2
      refine ⟨b, ?_, q2⟩
      push_cast at q1
      rw [hstep, q1, hd]
      simp only [List.map_cons, List.sum_cons, List.append_assoc, List.singleton_append,
        add_assoc]
    · rw [if_neg hgt] at hstep
      have hle := not_lt.mp hgt
      have hinv2 : ((i + 1 = 0 ∧ best = 0) ∨ (best < i + 1 ∧
          (∀ k, k < i + 1 →
            clamped fitness (l.getD k NULL) ≤ clamped fitness (l.getD best NULL)) ∧
          (∀ k, k < best →
            clamped fitness (l.getD k NULL) < clamped fitness (l.getD best NULL)))) := by
        right
        rcases hinv with ⟨h0, h1⟩ | ⟨_, hmax, hfirst⟩
        · refine ⟨by omega, fun k hk => ?_, fun k hk => by omega⟩
          have : k = best := by omega
          rw [this]
        · refine ⟨by omega, fun k hk => ?_, hfirst⟩
          by_cases hki : k = i
          · rw [hki]; exact hle
          · exact hmax k (by omega)
      obtain ⟨b, q1, q2⟩ := ih (i + 1) best (arr.set i (clamped fitness (l.getD i NULL)))
        (total + clamped fitness (l.getD i NULL))
        ⟨w.user, w.log ++ [Event.fitness (l.getD i NULL)]⟩ (by omega) (by simpa using hlen)
        hpre2 hinv2
      refine ⟨b, ?_, q2⟩
      push_cast at q1
      rw [hstep, q1, hd]
      simp only [List.map_cons, List.sum_cons, List.append_assoc, List.singleton_append,
        add_assoc]

/-! ## `GAnextGen`: the slot loop -/

theorem bind_ok_inv {σ β γ : Type} {m : M σ β} {f : β → M σ γ} {w w2 : World σ} {r : γ}
    (h : (m >>= f) w = (.ok r, w2)) :
    ∃ b w1, m w = (.ok b, w1) ∧ f b w1 = (.ok r, w2) := by
  rw [bind_run] at h
  rcases hm : m w with ⟨res, w1⟩
  rw [hm] at h
  cases res with
  | error e => simp at h
  | ok b => exact ⟨b, w1, rfl, h⟩

theorem liftE_ok_inv {σ β : Type} {e : Except Err β} {w w1 : World σ} {b : β}
    (h : (liftE e : M σ β) w = (.ok b, w1)) : e = .ok b ∧ w1 = w := by
  rw [liftE_run] at h
  injection h with h1 h2
  exact ⟨h1, h2.symm⟩

theorem wr_ok_inv {β : Type} {l : List β} {i : Int} {v : β} {p : Ptr β}
    (h : wr (some l) i v = .ok p) : p = some (l.set i.toNat v) ∧ 0 ≤ i ∧ i.toNat < l.length := by
  unfold wr at h
  simp only at h
  split_ifs at h with hc
  injection h with h
  exact ⟨h.symm, hc.1, hc.2⟩

theorem callSelect_run {σ : Type} (select : GASelectionFnc σ) (population : Population)
    (fitnessValues : Ptr ℚ) (sumOfFitness : ℚ) (popSz : Int) (w : World σ) :
    callSelect select population fitnessValues sumOfFitness popSz w =
      ((select population fitnessValues sumOfFitness popSz w.user).1,
        ⟨(select population fitnessValues sumOfFitness popSz w.user).2,
          w.log ++ [Event.select population fitnessValues sumOfFitness popSz]⟩) := by
  simp only [callSelect, bind_run, logEvent_run, call_run, liftE_run]

theorem callClone_run {σ : Type} (env : Env σ) (x : Individual) (w : World σ) :
    callClone env x w =
      (.ok (env.clone x w.user).1, ⟨(env.clone x w.user).2, w.log ++ [Event.clone x]⟩) := rfl

theorem callCrossover_run {σ : Type} (crossover : GACrossoverFnc σ) (x1 x2 : Individual)
    (w : World σ) :
    callCrossover crossover x1 x2 w =
      (.ok (crossover x1 x2 w.user).1,
        ⟨(crossover x1 x2 w.user).2, w.log ++ [Event.crossover x1 x2]⟩) := rfl

theorem callMutate_run {σ : Type} (mutate : GAMutateFnc σ) (x : Individual) (w : World σ) :
    callMutate mutate x w =
      (.ok (mutate x w.user).1, ⟨(mutate x w.user).2, w.log ++ [Event.mutate x]⟩) := rfl

theorem callDelete_run {σ : Type} (env : Env σ) (x : Individual) (w : World σ) :
    callDelete env x w =
      (.ok (), ⟨env.deleteIndividual x w.user, w.log ++ [Event.deleteIndividual x]⟩) := rfl

theorem callCallback_run {σ : Type} (callback : GACallbackFnc σ) (i : Int)
    (population : Population) (popSz : Int) (w : World σ) :
    callCallback callback i population popSz w =
      (.ok (callback i population popSz w.user).1,
        ⟨(callback i population popSz w.user).2,
          w.log ++ [Event.callback i population popSz]⟩) := rfl

theorem slotLoop_post {σ : Type} (env : Env σ) (currentPopulation : Population)
    (oldPopSz : Int) (crossover : Option (GACrossoverFnc σ)) (mutate : Option (GAMutateFnc σ))
    (select : GASelectionFnc σ) (totalFitness : ℚ) :
    ∀ (n : Nat) (i : Int) (fa : Ptr ℚ) (np : List Individual) (w w2 : World σ)
      (r : Population), 1 ≤ i →
    slotLoop env currentPopulation oldPopSz crossover mutate select totalFitness n i fa
      (some np) w = (.ok r, w2) →
    ∃ np1, r = some np1 ∧ np1.length = np.length ∧ np1[0]? = np[0]? := by
  intro n
  induction n with
  | zero =>
    intro i fa np w w2 r _ h
    simp only [slotLoop, pure_run] at h
    injection h with h1 _
    injection h1 with h1
    exact ⟨np, h1.symm, rfl, rfl⟩
  | succ n ih =>
    intro i fa np w w2 r hi h
    rw [slotLoop] at h
    obtain ⟨⟨x1, fa1⟩, w1, _, h2⟩ := bind_ok_inv h
    simp only at h2
    obtain ⟨np1, w3, h3, h4⟩ := bind_ok_inv h2
    obtain ⟨h5, _⟩ := liftE_ok_inv h3
    obtain ⟨h6, _, _⟩ := wr_ok_inv h5
    subst h6
    obtain ⟨np2, q1, q2, q3⟩ := ih (i + 1) fa1 _ w3 w2 r (by omega) h4
    refine ⟨np2, q1, by simpa using q2, ?_⟩
    rw [q3, List.getElem?_set_ne (by omega)]
theorem nextSlot_total {σ : Type} (env : Env σ) (l : List Individual)
    (crossover : Option (GACrossoverFnc σ)) (mutate : Option (GAMutateFnc σ))
    (select : GASelectionFnc σ) (hsel : SelectorOk select l.length)
    (arr : List ℚ) (totalFitness : ℚ) (w : World σ) (hlen : arr.length = l.length) :
    ∃ x w1, nextSlot env (some l) l.length crossover mutate select (some arr) totalFitness w =
      (.ok (x, some arr), w1) := by
  obtain ⟨k, hk1, hk2⟩ := hsel (some l) arr totalFitness w.user hlen
  have r1 := rd_nat l k NULL hk2
  cases crossover with
  | none =>
    cases mutate with
    | none =>
      simp only [nextSlot, bind_run, callSelect_run, hk1, liftE_run, r1, callClone_run,
        pure_run]
      exact ⟨_, _, rfl⟩
    | some mu =>
      simp only [nextSlot, bind_run, callSelect_run, hk1, liftE_run, r1, callClone_run,
        pure_run, callMutate_run]
      exact ⟨_, _, rfl⟩
  | some co =>
    have hka : k < arr.length := by omega
    have r2 := rd_nat arr k 0 hka
    have w2 := wr_nat arr k (0 : ℚ) hka
    obtain ⟨k2, hk3, hk4⟩ := hsel (some l) (arr.set k 0) totalFitness
      (select (some l) (some arr) totalFitness l.length w.user).2 (by simpa using hlen)
    have w3 := wr_nat (arr.set k 0) k (arr.getD k 0) (by simpa using hka)
    have hback : (arr.set k 0).set k (arr.getD k 0) = arr := by
      rw [List.set_set]
      apply List.ext_getElem?
      intro j
      rw [List.getElem?_set]
      split_ifs with h1
      · subst h1
        simp [List.getD_eq_getElem?_getD, List.getElem?_eq_getElem hka]
      · rfl
    rw [hback] at w3
    have r3 := rd_nat l k2 NULL hk4
    cases mutate with
    | none =>
      simp only [nextSlot, bind_run, callSelect_run, hk1, liftE_run, r1, r2, w2, hk3, w3, r3,
        callCrossover_run, pure_run]
      exact ⟨_, _, rfl⟩
    | some mu =>
      simp only [nextSlot, bind_run, callSelect_run, hk1, liftE_run, r1, r2, w2, hk3, w3, r3,
        callCrossover_run, pure_run, callMutate_run]
      exact ⟨_, _, rfl⟩

theorem slotLoop_total {σ : Type} (env : Env σ) (l : List Individual)
    (crossover : Option (GACrossoverFnc σ)) (mutate : Option (GAMutateFnc σ))
    (select : GASelectionFnc σ) (hsel : SelectorOk select l.length)
    (arr : List ℚ) (totalFitness : ℚ) (hlen : arr.length = l.length) :
    ∀ (n i : Nat) (np : List Individual) (w : World σ), i + n = np.length →
    ∃ np1 w1, slotLoop env (some l) l.length crossover mutate select totalFitness n (i : Int)
      (some arr) (some np) w = (.ok (some np1), w1) := by
  intro n
  induction n with
  | zero => intro i np w _; exact ⟨np, w, rfl⟩
  | succ n ih =>
    intro i np w hi
    obtain ⟨x, w1, h1⟩ := nextSlot_total env l crossover mutate select hsel arr totalFitness w
      hlen
    have w2 := wr_nat np i x (by omega)
    obtain ⟨np1, w3, h3⟩ := ih (i + 1) (np.set i x) w1 (by simp; omega)
    refine ⟨np1, w3, ?_⟩
    push_cast at h3
    simp only [slotLoop, bind_run, h1, liftE_run, w2, h3]

theorem deleteLoop_total {σ : Type} (env : Env σ) (l : List Individual) :
    ∀ (n i : Nat) (w : World σ), i + n = l.length →
    ∃ w1, deleteLoop env (some l) n (i : Int) w = (.ok (), w1) := by
  intro n
  induction n with
  | zero => intro i w _; exact ⟨w, rfl⟩
  | succ n ih =>
    intro i w hi
    have r1 := rd_nat l i NULL (by omega)
    by_cases hx : l.getD i NULL ≠ NULL
    · obtain ⟨w1, h1⟩ := ih (i + 1) ⟨env.deleteIndividual (l.getD i NULL) w.user,
        w.log ++ [Event.deleteIndividual (l.getD i NULL)]⟩ (by omega)
      refine ⟨w1, ?_⟩
      push_cast at h1
      simp only [deleteLoop, bind_run, liftE_run, r1]
      rw [if_pos hx]
      simp only [bind_run, callDelete_run, h1]
    · obtain ⟨w1, h1⟩ := ih (i + 1) w (by omega)
      refine ⟨w1, ?_⟩
      push_cast at h1
      simp only [deleteLoop, bind_run, liftE_run, r1]
      rw [if_neg hx]
      simp only [bind_run, pure_run, h1]

/-! ## Total and partial correctness of computations -/

theorem Returns.returns_bind {σ β γ : Type} {m : M σ β} {f : β → M σ γ} {w : World σ}
    {Q : β → World σ → Prop} {R : γ → World σ → Prop}
    (h1 : Returns m w Q) (h2 : ∀ b w1, Q b w1 → Returns (f b) w1 R) :
    Returns (m >>= f) w R := by
  obtain ⟨b, w1, e, q⟩ := h1
  obtain ⟨c, w2, e2, r⟩ := h2 b w1 q
  exact ⟨c, w2, by rw [bind_ok e, e2], r⟩

theorem Ensures.ensures_bind {σ β γ : Type} {m : M σ β} {f : β → M σ γ} {w : World σ}
    {Q : β → World σ → Prop} {R : γ → World σ → Prop}
    (h1 : Ensures m w Q) (h2 : ∀ b w1, Q b w1 → Ensures (f b) w1 R) :
    Ensures (m >>= f) w R := by
  intro c w2 h
  obtain ⟨b, w1, e, e2⟩ := bind_ok_inv h
  exact h2 b w1 (h1 b w1 e) c w2 e2

theorem Returns.returns_mono {σ β : Type} {m : M σ β} {w : World σ} {Q R : β → World σ → Prop}
    (h : Returns m w Q) (hQR : ∀ b w1, Q b w1 → R b w1) : Returns m w R := by
  obtain ⟨b, w1, e, q⟩ := h
  exact ⟨b, w1, e, hQR b w1 q⟩

theorem Ensures.ensures_mono {σ β : Type} {m : M σ β} {w : World σ} {Q R : β → World σ → Prop}
    (h : Ensures m w Q) (hQR : ∀ b w1, Q b w1 → R b w1) : Ensures m w R :=
  fun b w1 e => hQR b w1 (h b w1 e)

theorem Returns.returns_ensures {σ β : Type} {m : M σ β} {w : World σ} {Q R : β → World σ → Prop}
    (h : Returns m w Q) (h2 : Ensures m w R) : Returns m w (fun b w1 => Q b w1 ∧ R b w1) := by
  obtain ⟨b, w1, e, q⟩ := h
  exact ⟨b, w1, e, q, h2 b w1 e⟩

theorem Returns.returns_of_eq {σ β : Type} {m : M σ β} {w w1 : World σ} {b : β}
    {Q : β → World σ → Prop} (e : m w = (.ok b, w1)) (q : Q b w1) : Returns m w Q :=
  ⟨b, w1, e, q⟩

theorem Ensures.ensures_of_eq {σ β : Type} {m : M σ β} {w w1 : World σ} {b : β}
    {Q : β → World σ → Prop} (e : m w = (.ok b, w1)) (q : Q b w1) : Ensures m w Q := by
  intro c w2 h
  rw [e] at h
  injection h with h1 h2
  injection h1 with h1
  subst h1; subst h2
  exact q

theorem Ensures.ensures_of_error {σ β : Type} {m : M σ β} {w w1 : World σ} {e : Err}
    {Q : β → World σ → Prop} (h : m w = (.error e, w1)) : Ensures m w Q := by
  intro c w2 h2
  rw [h] at h2
  injection h2 with h3 _
  exact Except.noConfusion h3

theorem Ensures.ensures_liftE {σ β : Type} (e : Except Err β) (w : World σ)
    (Q : β → World σ → Prop) (h : ∀ b, e = .ok b → Q b w) : Ensures (liftE e : M σ β) w Q := by
  intro b w1 hb
  obtain ⟨h1, h2⟩ := liftE_ok_inv hb
  subst h2
  exact h b h1

/-! ## `GAnextGen`: partial and total correctness -/

theorem fitnessLoop_null {σ : Type} (fitness : GAFitnessFnc) (population : Population)
    (n : Nat) (i : Int) (total : ℚ) (best : Int) (w : World σ) :
    ∃ e w1, fitnessLoop fitness population (n + 1) i none total best w = (.error e, w1) := by
  simp only [fitnessLoop, bind_run, liftE_run]
  cases h : rd population i with
  | error e => exact ⟨e, w, rfl⟩
  | ok x =>
    simp only [callFitness_run, wr]
    exact ⟨_, _, rfl⟩

theorem GAnextGen_ensures {σ : Type} (env : Env σ) (l : List Individual) (newPopSz : Int)
    (fitness : GAFitnessFnc) (crossover : Option (GACrossoverFnc σ))
    (mutate : Option (GAMutateFnc σ)) (select : GASelectionFnc σ) (keepOldPopulation : Int)
    (w : World σ) (hl : 1 ≤ l.length) :
    Ensures (GAnextGen env (some l) l.length newPopSz fitness crossover mutate select
      keepOldPopulation) w
      (fun r _ => (r = none ∧ (env.malloc newPopSz w.user).1 = false) ∨
        ∃ (l1 : List Individual) (b : Nat) (s : σ), r = some l1 ∧
        (l1.length : Int) = newPopSz ∧
        IsFirstMax (fun k => clamped fitness (l.getD k NULL)) l.length b ∧
        l1[0]? = some (env.clone (l.getD b NULL) s).1) := by
  unfold GAnextGen
  refine Ensures.ensures_bind (Q := fun _ w1 => w1.user = w.user)
    (Ensures.ensures_of_eq (logEvent_run _ _) rfl) ?_
  intro _ w1 hw1
  refine Ensures.ensures_bind (Q := fun np _ => (np = none ∧ (env.malloc newPopSz w.user).1 = false) ∨
    np = some (List.replicate newPopSz.toNat NULL)) ?_ ?_
  · refine Ensures.ensures_of_eq (malloc_run env NULL newPopSz w1) ?_
    rw [hw1]
    cases (env.malloc newPopSz w.user).1 with
    | true => exact Or.inr rfl
    | false => exact Or.inl ⟨rfl, rfl⟩
  intro np w2 hnp
  rcases hnp with ⟨hnp, hfail⟩ | hnp
  · subst hnp
    exact Ensures.ensures_of_eq rfl (Or.inl ⟨rfl, hfail⟩)
  subst hnp
  rw [if_neg (by simp)]
  refine Ensures.ensures_bind (Q := fun fa _ => fa = none ∨
    fa = some (List.replicate l.length (0 : ℚ))) ?_ ?_
  · refine Ensures.ensures_of_eq (malloc_run env (0 : ℚ) l.length w2) ?_
    split_ifs
    · exact Or.inr (by simp)
    · exact Or.inl rfl
  intro fa w3 hfa
  obtain ⟨n, hn⟩ : ∃ n, l.length = n + 1 := ⟨l.length - 1, by omega⟩
  rcases hfa with hfa | hfa
  · subst hfa
    obtain ⟨e, w4, h⟩ := fitnessLoop_null fitness (some l) n 0 0 0 w3
    simp only [Int.toNat_ofNat, hn]
    exact Ensures.ensures_bind (Q := fun _ _ => False) (Ensures.ensures_of_error h)
      (fun _ _ hf => False.elim hf)
  subst hfa
  obtain ⟨b, hb1, hb2⟩ := fitnessLoop_spec fitness l l.length 0 0
    (List.replicate l.length (0 : ℚ)) 0 w3 (by omega) (by simp) (fun k hk => by omega)
    (Or.inl ⟨rfl, rfl⟩)
  simp only [Int.toNat_ofNat]
  refine Ensures.ensures_bind (Q := fun p _ => p.2.2 = (b : Int)) (Ensures.ensures_of_eq hb1 rfl) ?_
  have hmax := hb2 hl
  rintro ⟨fa, tot, best⟩ w4 hbest
  simp only at hbest
  subst hbest
  have r1 := rd_nat l b NULL hmax.1
  simp only
  refine Ensures.ensures_bind (Q := fun x _ => x = l.getD b NULL)
    (Ensures.ensures_liftE _ _ _ (fun x hx => by rw [r1] at hx; injection hx with hx; exact hx.symm)) ?_
  intro x w5 hx
  subst hx
  refine Ensures.ensures_bind (Ensures.ensures_of_eq (callClone_run env _ w5)
    (Q := fun c _ => c = (env.clone (l.getD b NULL) w5.user).1) rfl) ?_
  intro c w6 hc
  refine Ensures.ensures_bind (Q := fun np1 _ => ∃ l0 : List Individual, np1 = some l0 ∧
    (l0.length : Int) = newPopSz ∧ l0[0]? = some c)
    (Ensures.ensures_liftE _ _ _ ?_) ?_
  · intro np1 hnp1
    obtain ⟨q1, _, q3⟩ := wr_ok_inv hnp1
    simp only [List.length_replicate, Int.toNat_zero] at q3
    refine ⟨_, q1, ?_, ?_⟩
    · simp only [List.length_set, List.length_replicate]; omega
    · simp [q3]
  intro np1 w7 hnp1
  obtain ⟨l0, hl0, hlen0, hc0⟩ := hnp1
  subst hl0
  refine Ensures.ensures_bind (Q := fun np2 _ => ∃ l2 : List Individual, np2 = some l2 ∧
    l2.length = l0.length ∧ l2[0]? = l0[0]?) ?_ ?_
  · intro r w8 hr
    exact slotLoop_post env (some l) l.length crossover mutate select _ _ 1 _ l0 w7 w8 r
      (le_refl _) hr
  intro np2 w8 hnp2
  obtain ⟨l2, hl2, hlen2, hc2⟩ := hnp2
  subst hl2
  have hfin : ∀ w9 : World σ, Ensures (pure (some l2) : M σ Population) w9
      (fun r _ => (r = none ∧ (env.malloc newPopSz w.user).1 = false) ∨
        ∃ (l1 : List Individual) (b : Nat) (s : σ), r = some l1 ∧
        (l1.length : Int) = newPopSz ∧
        IsFirstMax (fun k => clamped fitness (l.getD k NULL)) l.length b ∧
        l1[0]? = some (env.clone (l.getD b NULL) s).1) := by
    intro w9
    refine Ensures.ensures_of_eq rfl
      (Or.inr ⟨l2, b, w5.user, rfl, by rw [hlen2]; exact hlen0, hmax, ?_⟩)
    rw [hc2, hc0, hc]
  split_ifs
  · refine Ensures.ensures_bind (Q := fun _ _ => True) (fun _ _ _ => trivial) ?_
    intro _ _ _
    refine Ensures.ensures_bind (Q := fun _ _ => True) (fun _ _ _ => trivial) ?_
    intro _ w9 _
    exact hfin w9
  · refine Ensures.ensures_bind (Q := fun _ _ => True) (fun _ _ _ => trivial) ?_
    intro _ w9 _
    exact hfin w9
theorem GAnextGen_returns {σ : Type} (env : Env σ) (l : List Individual) (newPopSz : Int)
    (fitness : GAFitnessFnc) (crossover : Option (GACrossoverFnc σ))
    (mutate : Option (GAMutateFnc σ)) (select : GASelectionFnc σ) (keepOldPopulation : Int)
    (w : World σ) (hl : 1 ≤ l.length) (hm : 1 ≤ newPopSz) (halloc : AllocOk env)
    (hsel : SelectorOk select l.length) :
    Returns (GAnextGen env (some l) l.length newPopSz fitness crossover mutate select
      keepOldPopulation) w (fun r _ => ∃ l1, r = some l1) := by
  unfold GAnextGen
  refine Returns.returns_bind (Q := fun _ _ => True) ⟨_, _, logEvent_run _ _, trivial⟩ ?_
  intro _ w1 _
  refine Returns.returns_bind (Q := fun np _ => np = some (List.replicate newPopSz.toNat NULL))
    ⟨_, _, malloc_run env NULL newPopSz w1, by rw [halloc, if_pos rfl]⟩ ?_
  intro np w2 hnp
  subst hnp
  rw [if_neg (by simp)]
  refine Returns.returns_bind (Q := fun fa _ => fa = some (List.replicate l.length (0 : ℚ)))
    ⟨_, _, malloc_run env (0 : ℚ) l.length w2, by rw [halloc, if_pos rfl]; simp⟩ ?_
  intro fa w3 hfa
  subst hfa
  obtain ⟨b, hb1, hb2⟩ := fitnessLoop_spec fitness l l.length 0 0
    (List.replicate l.length (0 : ℚ)) 0 w3 (by omega) (by simp) (fun k hk => by omega)
    (Or.inl ⟨rfl, rfl⟩)
  simp only [Int.toNat_ofNat]
  refine Returns.returns_bind (Q := fun p _ => p.1 = some (l.map (clamped fitness)) ∧ p.2.2 = (b : Int))
    ⟨_, _, hb1, rfl, rfl⟩ ?_
  have hmax := hb2 hl
  rintro ⟨fa, tot, best⟩ w4 ⟨hfa, hbest⟩
  simp only at hfa hbest
  subst hbest; subst hfa
  have r1 := rd_nat l b NULL hmax.1
  simp only
  refine Returns.returns_bind (Q := fun _ _ => True) ⟨_, _, by rw [r1]; rfl, trivial⟩ ?_
  intro x w5 _
  refine Returns.returns_bind (Q := fun _ _ => True) ⟨_, _, callClone_run env _ w5, trivial⟩ ?_
  intro c w6 _
  have hpos : 0 < (List.replicate newPopSz.toNat NULL).length := by
    simp only [List.length_replicate]; omega
  have w0 := wr_nat (List.replicate newPopSz.toNat NULL) 0 c hpos
  refine Returns.returns_bind (Q := fun np1 _ => np1 = some ((List.replicate newPopSz.toNat NULL).set 0 c))
    ⟨_, _, by rw [Nat.cast_zero] at w0; rw [w0]; rfl, rfl⟩ ?_
  intro np1 w7 hnp1
  subst hnp1
  obtain ⟨np2, w8, h8⟩ := slotLoop_total env l crossover mutate select hsel
    (l.map (clamped fitness)) tot (by simp) (newPopSz - 1).toNat 1
    ((List.replicate newPopSz.toNat NULL).set 0 c) w7
    (by simp only [List.length_set, List.length_replicate]; omega)
  refine Returns.returns_bind (Q := fun np1 _ => np1 = some np2) ⟨_, _, h8, rfl⟩ ?_
  intro np3 w9 hnp3
  subst hnp3
  split_ifs
  · obtain ⟨w10, h10⟩ := deleteLoop_total env l l.length 0 w9 (by omega)
    refine Returns.returns_bind (Q := fun _ _ => True) ⟨_, _, h10, trivial⟩ ?_
    intro _ _ _
    refine Returns.returns_bind (Q := fun _ _ => True) ⟨_, _, logEvent_run _ _, trivial⟩ ?_
    intro _ w11 _
    exact ⟨_, _, rfl, np2, rfl⟩
  · refine Returns.returns_bind (Q := fun _ _ => True) ⟨_, _, rfl, trivial⟩ ?_
    intro _ w11 _
    exact ⟨_, _, rfl, np2, rfl⟩

/-! ## `GAnextGen`: elitism -/

theorem run_eq_of_fst {σ β : Type} {m : M σ β} {w : World σ} {r : β}
    (h : (m w).1 = .ok r) : m w = (.ok r, (m w).2) := by
  rw [← h]

theorem clamped_le_of_firstMax (fitness : GAFitnessFnc) (l : List Individual) (b : Nat)
    (hmax : IsFirstMax (fun k => clamped fitness (l.getD k NULL)) l.length b)
    (x : Individual) (hx : x ∈ l) : clamped fitness x ≤ clamped fitness (l.getD b NULL) := by
  obtain ⟨k, hk, rfl⟩ := List.getElem_of_mem hx
  have := hmax.2.1 k hk
  simpa [List.getD_eq_getElem?_getD, List.getElem?_eq_getElem hk] using this

theorem clamped_clone {σ : Type} (env : Env σ) (fitness : GAFitnessFnc)
    (hclone : ∀ x s, fitness (env.clone x s).1 = fitness x) (x : Individual) (s : σ) :
    clamped fitness (env.clone x s).1 = clamped fitness x := by
  simp only [clamped, hclone]

theorem clamped_of_nonneg (fitness : GAFitnessFnc) (hnn : ∀ y, 0 ≤ fitness y)
    (x : Individual) : clamped fitness x = fitness x := by
  unfold clamped
  rw [if_neg (not_lt.mpr (hnn x))]

/-- Elitism of `GAnextGen`, in the form used for whole runs: whenever it returns a non-null
population, that population has `newPopSz` cells and cell `0` holds an individual whose clamped
fitness is at least the clamped fitness of every old individual. -/
theorem GAnextGen_elite {σ : Type} (env : Env σ) (l : List Individual) (newPopSz : Int)
    (fitness : GAFitnessFnc) (crossover : Option (GACrossoverFnc σ))
    (mutate : Option (GAMutateFnc σ)) (select : GASelectionFnc σ) (keepOldPopulation : Int)
    (w : World σ) (hl : 1 ≤ l.length)
    (hclone : ∀ x s, fitness (env.clone x s).1 = fitness x) :
    Ensures (GAnextGen env (some l) l.length newPopSz fitness crossover mutate select
      keepOldPopulation) w
      (fun r _ => (r = none ∧ (env.malloc newPopSz w.user).1 = false) ∨
        ∃ (l1 : List Individual) (c : Individual), r = some l1 ∧
        (l1.length : Int) = newPopSz ∧ l1[0]? = some c ∧
        ∀ x ∈ l, clamped fitness x ≤ clamped fitness c) := by
  refine (GAnextGen_ensures env l newPopSz fitness crossover mutate select keepOldPopulation w
    hl).ensures_mono ?_
  intro r _ h
  rcases h with h | ⟨l1, b, s, h1, h2, h3, h4⟩
  · exact Or.inl h
  · refine Or.inr ⟨l1, _, h1, h2, h4, ?_⟩
    intro x hx
    rw [clamped_clone env fitness hclone]
    exact clamped_le_of_firstMax fitness l b h3 x hx

/-! ## `GArun` -/

theorem GAselect_selectorOk {σ : Type} (env : Env σ) (n : Nat) (hn : 1 ≤ n) :
    SelectorOk (GAselect env) n := by
  intro population fv total s hlen
  subst hlen
  obtain ⟨r, h1, h2, _⟩ := GAselect_spec env population fv total s hn
  exact ⟨r, h1, h2⟩

theorem fitnessLoop_nullpop {σ : Type} (fitness : GAFitnessFnc) (n : Nat) (i : Int)
    (fa : Ptr ℚ) (total : ℚ) (best : Int) (w : World σ) :
    fitnessLoop fitness none (n + 1) i fa total best w = (.error .fault, w) := by
  simp only [fitnessLoop, bind_run, liftE_run, rd]

theorem GAnextGen_null {σ : Type} (env : Env σ) (oldPopSz newPopSz : Int)
    (fitness : GAFitnessFnc) (crossover : Option (GACrossoverFnc σ))
    (mutate : Option (GAMutateFnc σ)) (select : GASelectionFnc σ) (keepOldPopulation : Int)
    (w : World σ) (hold : 1 ≤ oldPopSz) :
    Ensures (GAnextGen env none oldPopSz newPopSz fitness crossover mutate select
      keepOldPopulation) w (fun r _ => r = none) := by
  unfold GAnextGen
  refine Ensures.ensures_bind (Q := fun _ _ => True) (fun _ _ _ => trivial) ?_
  intro _ w1 _
  refine Ensures.ensures_bind (Q := fun _ _ => True) (fun _ _ _ => trivial) ?_
  intro np w2 _
  by_cases hnp : np = none
  · rw [if_pos hnp]
    exact Ensures.ensures_of_eq rfl rfl
  · rw [if_neg hnp]
    refine Ensures.ensures_bind (Q := fun _ _ => True) (fun _ _ _ => trivial) ?_
    intro fa w3 _
    obtain ⟨n, hn⟩ : ∃ n, oldPopSz.toNat = n + 1 := ⟨oldPopSz.toNat - 1, by omega⟩
    rw [hn]
    exact Ensures.ensures_bind (Q := fun _ _ => False)
      (Ensures.ensures_of_error (fitnessLoop_nullpop fitness n 0 fa 0 0 w3))
      (fun _ _ hf => False.elim hf)

theorem sortFitnessLoop_nullpop {σ : Type} (fitness : GAFitnessFnc) (n : Nat) (i : Int)
    (a : Ptr ℚ) (w : World σ) :
    sortFitnessLoop fitness none (n + 1) i a w = (.error .fault, w) := by
  simp only [sortFitnessLoop, bind_run, liftE_run, rd]

theorem GAsort_null {σ : Type} (env : Env σ) (fitness : GAFitnessFnc) (populationSz : Int)
    (w : World σ) (hn : 1 ≤ populationSz) (Q : Population → World σ → Prop) :
    Ensures (GAsort env none fitness populationSz) w Q := by
  unfold GAsort
  refine Ensures.ensures_bind (Q := fun _ _ => True) (fun _ _ _ => trivial) ?_
  intro _ w1 _
  refine Ensures.ensures_bind (Q := fun _ _ => True) (fun _ _ _ => trivial) ?_
  intro a w2 _
  obtain ⟨n, hn⟩ : ∃ n, populationSz.toNat = n + 1 := ⟨populationSz.toNat - 1, by omega⟩
  rw [hn]
  exact Ensures.ensures_bind (Q := fun _ _ => False)
    (Ensures.ensures_of_error (sortFitnessLoop_nullpop fitness n 0 a w2))
    (fun _ _ hf => False.elim hf)

theorem GAsort_ensures {σ : Type} (env : Env σ) (fitness : GAFitnessFnc)
    (l : List Individual) (w : World σ) (hl : 1 ≤ l.length) :
    Ensures (GAsort env (some l) fitness l.length) w
      (fun r _ => ∃ l1 : List Individual, r = some l1 ∧ l1.Perm l ∧
        ∀ (i j : Nat) (x y : Individual), i ≤ j → l1[i]? = some x → l1[j]? = some y →
          fitness y ≤ fitness x) := by
  cases halloc : (env.malloc l.length w.user).1 with
  | false =>
    obtain ⟨e, w1, h⟩ := GAsort_alloc_fail env fitness (some l) l.length w halloc (by omega)
    exact Ensures.ensures_of_error h
  | true =>
    obtain ⟨l1, h1, h2, h3⟩ := GAsort_ok env fitness l w halloc
    exact Ensures.ensures_of_eq h1 ⟨l1, rfl, h2, h3⟩

theorem GAsort_returns {σ : Type} (env : Env σ) (fitness : GAFitnessFnc)
    (l : List Individual) (w : World σ) (halloc : AllocOk env) :
    Returns (GAsort env (some l) fitness l.length) w (fun r _ => ∃ l1, r = some l1) := by
  obtain ⟨l1, h1, _⟩ := GAsort_ok env fitness l w (halloc _ _)
  exact ⟨_, _, h1, l1, rfl⟩

theorem Dominates.dom_refl (fitness : GAFitnessFnc) (l : List Individual) :
    Dominates fitness l l := fun x hx => ⟨x, hx, le_refl _⟩

theorem Dominates.dom_step {fitness : GAFitnessFnc} {l0 l l1 : List Individual} {c : Individual}
    (h : Dominates fitness l0 l) (hc : l1[0]? = some c)
    (hmax : ∀ x ∈ l, clamped fitness x ≤ clamped fitness c) : Dominates fitness l0 l1 := by
  intro x hx
  obtain ⟨y, hy, hxy⟩ := h x hx
  exact ⟨c, List.getElem?_mem hc, le_trans hxy (hmax y hy)⟩
theorem GArunLoop_succ {σ : Type} (env : Env σ) (initPopSz popSz numGenerations : Int)
    (fitness : GAFitnessFnc) (crossover : Option (GACrossoverFnc σ))
    (mutate : Option (GAMutateFnc σ)) (callback : Option (GACallbackFnc σ))
    (fuel : Nat) (i : Int) (pop : Population) :
    GArunLoop env initPopSz popSz numGenerations fitness crossover mutate callback
        (fuel + 1) i pop =
      (GAnextGen env pop (if i = 0 then initPopSz else popSz) popSz fitness crossover mutate
          (GAselect env) 0 >>= fun population =>
        (match callback with
          | some callback => callCallback callback i population popSz
          | none => pure 0) >>= fun stop =>
        if (if i + 1 ≥ numGenerations then (1 : Int) else stop) = 0 then
          GArunLoop env initPopSz popSz numGenerations fitness crossover mutate callback
            fuel (i + 1) population
        else pure population) := by
  rw [GArunLoop]
  by_cases h0 : i = 0
  · simp only [if_pos h0]
    cases callback <;> rfl
  · simp only [if_neg h0]
    cases callback <;> rfl

theorem GArunLoop_ensures {σ : Type} (env : Env σ)
    (initPopSz popSz numGenerations : Int) (fitness : GAFitnessFnc)
    (crossover : Option (GACrossoverFnc σ)) (mutate : Option (GAMutateFnc σ))
    (callback : Option (GACallbackFnc σ)) (P : List Individual → Prop)
    (hstep : ∀ (l l1 : List Individual) (b : Nat) (s : σ), P l →
      IsFirstMax (fun k => clamped fitness (l.getD k NULL)) l.length b →
      l1[0]? = some (env.clone (l.getD b NULL) s).1 → P l1)
    (hinit : 1 ≤ initPopSz) (hp : 1 ≤ popSz) :
    ∀ (fuel : Nat) (i : Int) (pop : Population) (w : World σ), 0 ≤ i →
    (pop = none ∨ ∃ l : List Individual, pop = some l ∧
      (l.length : Int) = (if i = 0 then initPopSz else popSz) ∧ P l) →
    Ensures (GArunLoop env initPopSz popSz numGenerations fitness crossover mutate callback
      fuel i pop) w
      (fun r _ => r = none ∨ ∃ l : List Individual, r = some l ∧ (l.length : Int) = popSz ∧
        P l) := by
  intro fuel
  induction fuel with
  | zero =>
    intro i pop w _ _
    exact Ensures.ensures_of_error (liftE_run (Except.error Err.fuel) w)
  | succ n ih =>
    intro i pop w hi hinv
    rw [GArunLoop_succ]
    refine Ensures.ensures_bind (Q := fun r _ => r = none ∨ ∃ l : List Individual, r = some l ∧
      (l.length : Int) = popSz ∧ P l) ?_ ?_
    · rcases hinv with hnone | ⟨l, hl, hlen, hdom⟩
      · subst hnone
        exact (GAnextGen_null env _ popSz fitness crossover mutate (GAselect env) 0
          w (by split_ifs <;> assumption)).ensures_mono (fun r _ h => Or.inl h)
      · subst hl
        have hl1 : 1 ≤ l.length := by
          split_ifs at hlen <;> omega
        have key := (GAnextGen_ensures env l popSz fitness crossover mutate (GAselect env) 0 w
          hl1).ensures_mono (R := fun r _ => r = none ∨ ∃ l1 : List Individual, r = some l1 ∧
            (l1.length : Int) = popSz ∧ P l1)
          (by
            intro r _ h
            rcases h with h | ⟨l1, b, s, h1, h2, h3, h4⟩
            · exact Or.inl h.1
            · exact Or.inr ⟨l1, h1, h2, hstep l l1 b s hdom h3 h4⟩)
        rw [← hlen]
        exact key
    · intro pop1 w1 hpop1
      refine Ensures.ensures_bind (Q := fun _ _ => True) (fun _ _ _ => trivial) ?_
      intro stop w2 _
      by_cases hstop : (if i + 1 ≥ numGenerations then (1 : Int) else stop) = 0
      · rw [if_pos hstop]
        refine ih (i + 1) pop1 w2 (by omega) ?_
        rcases hpop1 with h | ⟨l1, h1, h2, h3⟩
        · exact Or.inl h
        · refine Or.inr ⟨l1, h1, ?_, h3⟩
          rw [if_neg (by omega)]
          exact h2
      · rw [if_neg hstop]
        exact Ensures.ensures_of_eq rfl hpop1

theorem GArunLoop_returns {σ : Type} (env : Env σ) (initPopSz popSz numGenerations : Int)
    (fitness : GAFitnessFnc) (crossover : Option (GACrossoverFnc σ))
    (mutate : Option (GAMutateFnc σ)) (callback : Option (GACallbackFnc σ))
    (halloc : AllocOk env) (hinit : 1 ≤ initPopSz) (hp : 1 ≤ popSz) :
    ∀ (fuel : Nat) (i : Int) (l : List Individual) (w : World σ), 0 ≤ i →
    (l.length : Int) = (if i = 0 then initPopSz else popSz) → 0 < fuel →
    numGenerations - i ≤ fuel →
    Returns (GArunLoop env initPopSz popSz numGenerations fitness crossover mutate callback
      fuel i (some l)) w
      (fun r _ => ∃ l1 : List Individual, r = some l1 ∧ (l1.length : Int) = popSz) := by
  intro fuel
  induction fuel with
  | zero => intro i l w _ _ h _; omega
  | succ n ih =>
    intro i l w hi hlen _ hfuel
    have hl1 : 1 ≤ l.length := by
      split_ifs at hlen <;> omega
    rw [GArunLoop_succ, ← hlen]
    refine Returns.returns_bind (Q := fun r _ => ∃ l1 : List Individual, r = some l1 ∧
      (l1.length : Int) = popSz) ?_ ?_
    · refine ((GAnextGen_returns env l popSz fitness crossover mutate (GAselect env) 0 w hl1 hp
        halloc (GAselect_selectorOk env l.length hl1)).returns_ensures
        (GAnextGen_ensures env l popSz fitness crossover mutate (GAselect env) 0 w hl1)).returns_mono ?_
      rintro r _ ⟨⟨l1, h1⟩, h2⟩
      rcases h2 with ⟨h2, _⟩ | ⟨l2, b, s, h3, h4, _⟩
      · rw [h1] at h2; exact Option.noConfusion h2
      · exact ⟨l2, h3, h4⟩
    · rintro pop1 w1 ⟨l1, h1, h2⟩
      subst h1
      refine Returns.returns_bind (Q := fun _ _ => True) ?_ ?_
      · cases callback with
        | none => exact ⟨_, _, rfl, trivial⟩
        | some cb => exact ⟨_, _, callCallback_run cb i (some l1) popSz w1, trivial⟩
      · intro stop w2 _
        by_cases hstop : (if i + 1 ≥ numGenerations then (1 : Int) else stop) = 0
        · rw [if_pos hstop]
          have hlt : ¬ i + 1 ≥ numGenerations := by
            intro h; rw [if_pos h] at hstop; omega
          push_cast at hfuel
          exact ih (i + 1) l1 w2 (by omega) (by rw [if_neg (by omega)]; exact h2) (by omega)
            (by omega)
        · rw [if_neg hstop]
          exact ⟨_, _, rfl, l1, rfl, h2⟩

/-- Partial correctness of `GArun`, for a property `P` of populations that holds of the initial
population and is kept by every generation advance: whenever `GArun` returns, the result is a
population of `popSz` individuals whose first individual has the largest fitness, and it is a
reordering of a population that satisfies `P`. -/
theorem GArun_ensures {σ : Type} (env : Env σ) (l0 : List Individual)
    (popSz numGenerations : Int) (fitness : GAFitnessFnc)
    (crossover : Option (GACrossoverFnc σ)) (mutate : Option (GAMutateFnc σ))
    (callback : Option (GACallbackFnc σ)) (w : World σ) (P : List Individual → Prop)
    (hstep : ∀ (l l1 : List Individual) (b : Nat) (s : σ), P l →
      IsFirstMax (fun k => clamped fitness (l.getD k NULL)) l.length b →
      l1[0]? = some (env.clone (l.getD b NULL) s).1 → P l1)
    (hP0 : P l0) (hl0 : 1 ≤ l0.length) (hp : 1 ≤ popSz) :
    Ensures (GArun env (some l0) l0.length popSz numGenerations fitness crossover mutate
      callback) w
      (fun r _ => ∃ (l1 : List Individual) (c : Individual), r = some l1 ∧
        (l1.length : Int) = popSz ∧ l1[0]? = some c ∧ (∀ y ∈ l1, fitness y ≤ fitness c) ∧
        ∃ l, P l ∧ l1.Perm l) := by
  unfold GArun
  refine Ensures.ensures_bind (Q := fun _ _ => True) (fun _ _ _ => trivial) ?_
  intro _ w1 _
  refine Ensures.ensures_bind (GArunLoop_ensures env l0.length popSz numGenerations fitness crossover
    mutate callback P hstep (by omega) hp _ 0 (some l0) w1 (le_refl _)
    (Or.inr ⟨l0, rfl, by rw [if_pos rfl], hP0⟩)) ?_
  intro pop w2 hpop
  rcases hpop with h | ⟨l, h1, h2, h3⟩
  · subst h
    exact GAsort_null env fitness popSz w2 hp _
  · subst h1
    rw [← h2]
    have hl : 1 ≤ l.length := by omega
    refine (GAsort_ensures env fitness l w2 hl).ensures_mono ?_
    rintro r _ ⟨l1, q1, q2, q3⟩
    have hlen : l1.length = l.length := q2.length_eq
    have h0 : 0 < l1.length := by omega
    refine ⟨l1, l1[0], q1, by omega, List.getElem?_eq_getElem h0, ?_, l, h3, q2⟩
    intro y hy
    obtain ⟨j, hj, rfl⟩ := List.getElem_of_mem hy
    exact q3 0 j _ _ (Nat.zero_le _) (List.getElem?_eq_getElem h0)
      (List.getElem?_eq_getElem hj)

theorem Dominates.dom_advance {σ : Type} (env : Env σ) (fitness : GAFitnessFnc)
    (hclone : ∀ x s, fitness (env.clone x s).1 = fitness x) (l0 : List Individual) :
    ∀ (l l1 : List Individual) (b : Nat) (s : σ), Dominates fitness l0 l →
      IsFirstMax (fun k => clamped fitness (l.getD k NULL)) l.length b →
      l1[0]? = some (env.clone (l.getD b NULL) s).1 → Dominates fitness l0 l1 := by
  intro l l1 b s hdom hmax hc
  refine hdom.dom_step hc ?_
  intro x hx
  rw [clamped_clone env fitness hclone]
  exact clamped_le_of_firstMax fitness l b hmax x hx

theorem GArun_returns {σ : Type} (env : Env σ) (l0 : List Individual)
    (popSz numGenerations : Int) (fitness : GAFitnessFnc)
    (crossover : Option (GACrossoverFnc σ)) (mutate : Option (GAMutateFnc σ))
    (callback : Option (GACallbackFnc σ)) (w : World σ)
    (halloc : AllocOk env) (hl0 : 1 ≤ l0.length) (hp : 1 ≤ popSz) :
    Returns (GArun env (some l0) l0.length popSz numGenerations fitness crossover mutate
      callback) w (fun r _ => ∃ l1, r = some l1) := by
  unfold GArun
  refine Returns.returns_bind (Q := fun _ _ => True) ⟨_, _, call_run _ _, trivial⟩ ?_
  intro _ w1 _
  refine Returns.returns_bind (GArunLoop_returns env l0.length popSz numGenerations fitness crossover
    mutate callback halloc (by omega) hp _ 0 l0 w1 (le_refl _) (by rw [if_pos rfl])
    (by omega) (by push_cast; omega)) ?_
  rintro pop w2 ⟨l, h1, h2⟩
  subst h1
  rw [← h2]
  exact GAsort_returns env fitness l w2 halloc

/-! ## What a computation appends to the log -/

theorem Emits.emits_pure {σ β : Type} (P : Event → Prop) (b : β) : Emits P (pure b : M σ β) :=
  fun w => ⟨[], by simp [pure_run], by simp⟩

theorem Emits.emits_liftE {σ β : Type} (P : Event → Prop) (e : Except Err β) :
    Emits P (liftE e : M σ β) :=
  fun w => ⟨[], by simp [liftE_run], by simp⟩

theorem Emits.emits_call {σ β : Type} (P : Event → Prop) (f : σ → β × σ) : Emits P (call f) :=
  fun w => ⟨[], by simp [call_run], by simp⟩

theorem Emits.emits_logEvent {σ : Type} {P : Event → Prop} {e : Event} (h : P e) :
    Emits P (logEvent e : M σ Unit) :=
  fun w => ⟨[e], by simp [logEvent_run], by simpa using h⟩

theorem Emits.emits_bind {σ β γ : Type} {P : Event → Prop} {m : M σ β} {f : β → M σ γ}
    (h1 : Emits P m) (h2 : ∀ b, Emits P (f b)) : Emits P (m >>= f) := by
  intro w
  obtain ⟨es1, e1, p1⟩ := h1 w
  rw [bind_run]
  rcases hm : m w with ⟨res, w1⟩
  rw [hm] at e1
  cases res with
  | error e => exact ⟨es1, e1, p1⟩
  | ok b =>
    obtain ⟨es2, e2, p2⟩ := h2 b w1
    refine ⟨es1 ++ es2, ?_, ?_⟩
    · simp only at e1 ⊢
      rw [e2, e1, List.append_assoc]
    · intro e he
      rcases List.mem_append.1 he with h | h
      · exact p1 e h
      · exact p2 e h

theorem Emits.emits_mono {σ β : Type} {P Q : Event → Prop} {m : M σ β} (h : Emits P m)
    (hPQ : ∀ e, P e → Q e) : Emits Q m := by
  intro w
  obtain ⟨es, e1, p1⟩ := h w
  exact ⟨es, e1, fun e he => hPQ e (p1 e he)⟩

theorem malloc_emits {σ β : Type} (P : Event → Prop) (env : Env σ) (init : β) (cells : Int) :
    Emits P (malloc env init cells) :=
  Emits.emits_bind (Emits.emits_call P _) (fun _ => Emits.emits_pure P _)

theorem callFitness_emits {σ : Type} (fitness : GAFitnessFnc) (x : Individual) :
    Emits (fun e => e.making = true) (callFitness fitness x : M σ ℚ) :=
  Emits.emits_bind (Emits.emits_logEvent rfl) (fun _ => Emits.emits_pure _ _)

theorem callClone_emits {σ : Type} (env : Env σ) (x : Individual) :
    Emits (fun e => e.making = true) (callClone env x) :=
  Emits.emits_bind (Emits.emits_logEvent rfl) (fun _ => Emits.emits_call _ _)

theorem callCrossover_emits {σ : Type} (crossover : GACrossoverFnc σ) (x1 x2 : Individual) :
    Emits (fun e => e.making = true) (callCrossover crossover x1 x2) :=
  Emits.emits_bind (Emits.emits_logEvent rfl) (fun _ => Emits.emits_call _ _)

theorem callMutate_emits {σ : Type} (mutate : GAMutateFnc σ) (x : Individual) :
    Emits (fun e => e.making = true) (callMutate mutate x) :=
  Emits.emits_bind (Emits.emits_logEvent rfl) (fun _ => Emits.emits_call _ _)

theorem callSelect_emits {σ : Type} (select : GASelectionFnc σ) (population : Population)
    (fitnessValues : Ptr ℚ) (sumOfFitness : ℚ) (popSz : Int) :
    Emits (fun e => e.making = true)
      (callSelect select population fitnessValues sumOfFitness popSz) :=
  Emits.emits_bind (Emits.emits_logEvent rfl)
    (fun _ => Emits.emits_bind (Emits.emits_call _ _) (fun _ => Emits.emits_liftE _ _))

theorem callDelete_emits {σ : Type} (env : Env σ) (x : Individual) :
    Emits (fun e => e.inner = true) (callDelete env x) :=
  Emits.emits_bind (Emits.emits_logEvent rfl) (fun _ => Emits.emits_call _ _)

theorem fitnessLoop_emits {σ : Type} (fitness : GAFitnessFnc) (population : Population) :
    ∀ (n : Nat) (i : Int) (fa : Ptr ℚ) (total : ℚ) (best : Int),
    Emits (fun e => e.making = true)
      (fitnessLoop fitness population n i fa total best : M σ (Ptr ℚ × ℚ × Int)) := by
  intro n
  induction n with
  | zero => intro i fa total best; exact Emits.emits_pure _ _
  | succ n ih =>
    intro i fa total best
    rw [fitnessLoop]
    refine Emits.emits_bind (Emits.emits_liftE _ _) (fun x => ?_)
    refine Emits.emits_bind (callFitness_emits fitness x) (fun fx => ?_)
    refine Emits.emits_bind (Emits.emits_liftE _ _) (fun fa1 => ?_)
    refine Emits.emits_bind (Emits.emits_liftE _ _) (fun v => ?_)
    have hjp : ∀ fa2 : Ptr ℚ, Emits (fun e => e.making = true)
        ((do
          let v ← GA.liftE (rd fa2 i)
          let vi ← GA.liftE (rd fa2 i)
          let vb ← GA.liftE (rd fa2 best)
          fitnessLoop fitness population n (i + 1) fa2 (total + v)
            (if vi > vb then i else best)) : M σ (Ptr ℚ × ℚ × Int)) := by
      intro fa2
      refine Emits.emits_bind (Emits.emits_liftE _ _) (fun v2 => ?_)
      refine Emits.emits_bind (Emits.emits_liftE _ _) (fun vi => ?_)
      refine Emits.emits_bind (Emits.emits_liftE _ _) (fun vb => ?_)
      exact ih _ _ _ _
    dsimp only
    split_ifs
    · exact Emits.emits_bind (Emits.emits_liftE _ _) hjp
    · exact Emits.emits_bind (Emits.emits_pure _ _) hjp

theorem nextSlot_emits {σ : Type} (env : Env σ) (currentPopulation : Population)
    (oldPopSz : Int) (crossover : Option (GACrossoverFnc σ)) (mutate : Option (GAMutateFnc σ))
    (select : GASelectionFnc σ) (fa : Ptr ℚ) (totalFitness : ℚ) :
    Emits (fun e => e.making = true)
      (nextSlot env currentPopulation oldPopSz crossover mutate select fa totalFitness) := by
  unfold nextSlot
  refine Emits.emits_bind (callSelect_emits _ _ _ _ _) (fun k => ?_)
  refine Emits.emits_bind (Emits.emits_liftE _ _) (fun x1 => ?_)
  have hjp : ∀ p : Individual × Ptr ℚ, Emits (fun e => e.making = true)
      ((match mutate with
        | some mutate => do
          let y ← callMutate mutate p.1
          pure (y, p.2)
        | none => do
          let y ← pure p.1
          pure (y, p.2)) : M σ (Individual × Ptr ℚ)) := by
    intro p
    cases mutate with
    | none => exact Emits.emits_bind (Emits.emits_pure _ _) (fun _ => Emits.emits_pure _ _)
    | some mu => exact Emits.emits_bind (callMutate_emits mu _) (fun _ => Emits.emits_pure _ _)
  dsimp only
  cases crossover with
  | none =>
    refine Emits.emits_bind (callClone_emits env x1) (fun y => ?_)
    exact Emits.emits_bind (Emits.emits_pure _ _) hjp
  | some co =>
    refine Emits.emits_bind (Emits.emits_liftE _ _) (fun temp => ?_)
    refine Emits.emits_bind (Emits.emits_liftE _ _) (fun fa1 => ?_)
    refine Emits.emits_bind (callSelect_emits _ _ _ _ _) (fun k2 => ?_)
    refine Emits.emits_bind (Emits.emits_liftE _ _) (fun fa2 => ?_)
    refine Emits.emits_bind (Emits.emits_liftE _ _) (fun x2 => ?_)
    refine Emits.emits_bind (callCrossover_emits co x1 x2) (fun y => ?_)
    exact Emits.emits_bind (Emits.emits_pure _ _) hjp

theorem slotLoop_emits {σ : Type} (env : Env σ) (currentPopulation : Population)
    (oldPopSz : Int) (crossover : Option (GACrossoverFnc σ)) (mutate : Option (GAMutateFnc σ))
    (select : GASelectionFnc σ) (totalFitness : ℚ) :
    ∀ (n : Nat) (i : Int) (fa : Ptr ℚ) (np : Population),
    Emits (fun e => e.making = true)
      (slotLoop env currentPopulation oldPopSz crossover mutate select totalFitness n i fa
        np) := by
  intro n
  induction n with
  | zero => intro i fa np; exact Emits.emits_pure _ _
  | succ n ih =>
    intro i fa np
    rw [slotLoop]
    refine Emits.emits_bind (nextSlot_emits _ _ _ _ _ _ _ _) (fun p => ?_)
    refine Emits.emits_bind (Emits.emits_liftE _ _) (fun np1 => ?_)
    exact ih _ _ _

theorem deleteLoop_emits {σ : Type} (env : Env σ) (currentPopulation : Population) :
    ∀ (n : Nat) (i : Int),
    Emits (fun e => e.inner = true) (deleteLoop env currentPopulation n i) := by
  intro n
  induction n with
  | zero => intro i; exact Emits.emits_pure _ _
  | succ n ih =>
    intro i
    rw [deleteLoop]
    refine Emits.emits_bind (Emits.emits_liftE _ _) (fun x => ?_)
    split_ifs
    · exact Emits.emits_bind (callDelete_emits env x) (fun _ => ih _)
    · exact Emits.emits_bind (Emits.emits_pure _ _) (fun _ => ih _)
theorem making_inner (e : Event) (h : e.making = true) : e.inner = true := by
  cases e <;> simp_all [Event.inner, Event.making]

/-- The log of one `GAnextGen` call: the call itself, then only calls made from inside it. -/
theorem GAnextGen_log {σ : Type} (env : Env σ) (currentPopulation : Population)
    (oldPopSz newPopSz : Int) (fitness : GAFitnessFnc)
    (crossover : Option (GACrossoverFnc σ)) (mutate : Option (GAMutateFnc σ))
    (select : GASelectionFnc σ) (keepOldPopulation : Int) (w : World σ) :
    ∃ es, (GAnextGen env currentPopulation oldPopSz newPopSz fitness crossover mutate select
        keepOldPopulation w).2.log =
        w.log ++ Event.GAnextGen currentPopulation oldPopSz newPopSz keepOldPopulation :: es ∧
      ∀ e ∈ es, e.inner = true := by
  have hbody : ∀ u : Unit, Emits (fun e => e.inner = true)
      ((do
        let nextPopulation ← malloc env NULL newPopSz
        if nextPopulation = none then pure none
        else do
          let fitnessArray ← malloc env (0 : ℚ) oldPopSz
          let (fitnessArray, totalFitness, best) ←
            fitnessLoop fitness currentPopulation oldPopSz.toNat 0 fitnessArray 0 0
          let xbest ← liftE (rd currentPopulation best)
          let c ← callClone env xbest
          let nextPopulation ← liftE (wr nextPopulation 0 c)
          let nextPopulation ←
            slotLoop env currentPopulation oldPopSz crossover mutate select totalFitness
              (newPopSz - 1).toNat 1 fitnessArray nextPopulation
          if keepOldPopulation = 0 then do
            deleteLoop env currentPopulation oldPopSz.toNat 0
            logEvent (.free currentPopulation)
          else pure ()
          pure nextPopulation) : M σ Population) := by
    intro _
    refine Emits.emits_bind (malloc_emits _ env NULL newPopSz) (fun np => ?_)
    by_cases hnp : np = none
    · rw [if_pos hnp]; exact Emits.emits_pure _ _
    rw [if_neg hnp]
    refine Emits.emits_bind (malloc_emits _ env (0 : ℚ) oldPopSz) (fun fa => ?_)
    refine Emits.emits_bind ((fitnessLoop_emits fitness currentPopulation _ _ _ _ _).emits_mono
      making_inner) (fun p => ?_)
    dsimp only
    refine Emits.emits_bind (Emits.emits_liftE _ _) (fun xbest => ?_)
    refine Emits.emits_bind ((callClone_emits env xbest).emits_mono making_inner) (fun c => ?_)
    refine Emits.emits_bind (Emits.emits_liftE _ _) (fun np1 => ?_)
    refine Emits.emits_bind ((slotLoop_emits env _ _ _ _ _ _ _ _ _ _).emits_mono making_inner)
      (fun np2 => ?_)
    dsimp only
    split_ifs
    · refine Emits.emits_bind (deleteLoop_emits env _ _ _) (fun _ => ?_)
      exact Emits.emits_bind (Emits.emits_logEvent rfl) (fun _ => Emits.emits_pure _ _)
    · exact Emits.emits_bind (Emits.emits_pure _ _) (fun _ => Emits.emits_pure _ _)
  have h := hbody () ⟨w.user,
    w.log ++ [Event.GAnextGen currentPopulation oldPopSz newPopSz keepOldPopulation]⟩
  obtain ⟨es, e1, p1⟩ := h
  refine ⟨es, ?_, p1⟩
  simp only [List.append_assoc, List.singleton_append] at e1
  rw [← e1]
  rfl

theorem nextGenCalls_append (a b : List Event) :
    nextGenCalls (a ++ b) = nextGenCalls a + nextGenCalls b := by
  simp [nextGenCalls, List.countP_append]

theorem nextGenCalls_inner (es : List Event) (h : ∀ e ∈ es, e.inner = true) :
    nextGenCalls es = 0 := by
  rw [nextGenCalls, List.countP_eq_zero]
  intro e he
  have := h e he
  cases e <;> simp_all [Event.inner, Event.isNextGen]
theorem Returns.returns_with_world {σ β : Type} {m : M σ β} {w : World σ} {Q : β → World σ → Prop}
    {P : World σ → Prop} (h : Returns m w Q) (hw : P (m w).2) :
    Returns m w (fun r w1 => Q r w1 ∧ P w1) := by
  obtain ⟨b, w1, e, q⟩ := h
  rw [e] at hw
  exact ⟨b, w1, e, q, hw⟩

theorem GArunLoop_early_stop {σ : Type} (env : Env σ) (initPopSz popSz numGenerations : Int)
    (fitness : GAFitnessFnc) (crossover : Option (GACrossoverFnc σ))
    (mutate : Option (GAMutateFnc σ)) (cb : GACallbackFnc σ) (g : Nat)
    (halloc : AllocOk env) (hinit : 1 ≤ initPopSz) (hp : 1 ≤ popSz)
    (hg : (g : Int) < numGenerations - 1)
    (hcont : ∀ i : Int, 0 ≤ i → i < g → ∀ pop sz s, (cb i pop sz s).1 = 0)
    (hstop : ∀ pop sz s, (cb g pop sz s).1 ≠ 0) :
    ∀ (k fuel : Nat) (i : Int) (l : List Individual) (w : World σ), 0 ≤ i → i + k = g →
    (l.length : Int) = (if i = 0 then initPopSz else popSz) → k < fuel →
    Returns (GArunLoop env initPopSz popSz numGenerations fitness crossover mutate (some cb)
      fuel i (some l)) w
      (fun r w1 => (∃ l1 : List Individual, r = some l1 ∧ (l1.length : Int) = popSz) ∧
        ∃ es, w1.log = w.log ++ es ∧ nextGenCalls es = k + 1) := by
  intro k
  induction k with
  | zero =>
    intro fuel i l w hi hik hlen hfuel
    obtain ⟨n, rfl⟩ : ∃ n, fuel = n + 1 := ⟨fuel - 1, by omega⟩
    have hl1 : 1 ≤ l.length := by
      split_ifs at hlen <;> omega
    have hig : i = (g : Int) := by omega
    rw [GArunLoop_succ, ← hlen]
    refine Returns.returns_bind ((((GAnextGen_returns env l popSz fitness crossover mutate (GAselect env)
      0 w hl1 hp halloc (GAselect_selectorOk env l.length hl1)).returns_ensures
      (GAnextGen_ensures env l popSz fitness crossover mutate (GAselect env) 0 w hl1)).returns_with_world
      (P := fun w1 => ∃ es, w1.log = w.log ++ es ∧ nextGenCalls es = 1) ?_)) ?_
    · obtain ⟨es, e1, p1⟩ := GAnextGen_log env (some l) l.length popSz fitness crossover mutate
        (GAselect env) 0 w
      refine ⟨_, e1, ?_⟩
      rw [← List.singleton_append, nextGenCalls_append, nextGenCalls_inner es p1]
      rfl
    · rintro pop1 w1 ⟨⟨⟨l1, h1⟩, h2⟩, es1, e1, c1⟩
      have hsome : ∃ l2 : List Individual, pop1 = some l2 ∧ (l2.length : Int) = popSz := by
        rcases h2 with ⟨h2, _⟩ | ⟨l2, b, s, h3, h4, _⟩
        · rw [h1] at h2; exact Option.noConfusion h2
        · exact ⟨l2, h3, h4⟩
      refine Returns.returns_bind (Q := fun stop w2 => stop ≠ 0 ∧
        w2.log = w1.log ++ [Event.callback i pop1 popSz])
        ⟨_, _, callCallback_run cb i pop1 popSz w1, by rw [hig]; exact hstop _ _ _, rfl⟩ ?_
      rintro stop w2 ⟨hs, e2⟩
      have hc : ¬ (if i + 1 ≥ numGenerations then (1 : Int) else stop) = 0 := by
        split_ifs
        · omega
        · exact hs
      rw [if_neg hc]
      refine ⟨_, _, rfl, hsome, es1 ++ [Event.callback i pop1 popSz], ?_, ?_⟩
      · rw [e2, e1, List.append_assoc]
      · rw [nextGenCalls_append, c1]
        rfl
  | succ k ih =>
    intro fuel i l w hi hik hlen hfuel
    obtain ⟨n, rfl⟩ : ∃ n, fuel = n + 1 := ⟨fuel - 1, by omega⟩
    have hl1 : 1 ≤ l.length := by
      split_ifs at hlen <;> omega
    have hig : i < (g : Int) := by push_cast at hik; omega
    rw [GArunLoop_succ, ← hlen]
    refine Returns.returns_bind ((((GAnextGen_returns env l popSz fitness crossover mutate (GAselect env)
      0 w hl1 hp halloc (GAselect_selectorOk env l.length hl1)).returns_ensures
      (GAnextGen_ensures env l popSz fitness crossover mutate (GAselect env) 0 w hl1)).returns_with_world
      (P := fun w1 => ∃ es, w1.log = w.log ++ es ∧ nextGenCalls es = 1) ?_)) ?_
    · obtain ⟨es, e1, p1⟩ := GAnextGen_log env (some l) l.length popSz fitness crossover mutate
        (GAselect env) 0 w
      refine ⟨_, e1, ?_⟩
      rw [← List.singleton_append, nextGenCalls_append, nextGenCalls_inner es p1]
      rfl
    · rintro pop1 w1 ⟨⟨⟨l1, h1⟩, h2⟩, es1, e1, c1⟩
      have hsome : ∃ l2 : List Individual, pop1 = some l2 ∧ (l2.length : Int) = popSz := by
        rcases h2 with ⟨h2, _⟩ | ⟨l2, b, s, h3, h4, _⟩
        · rw [h1] at h2; exact Option.noConfusion h2
        · exact ⟨l2, h3, h4⟩
      obtain ⟨l2, hl2, hlen2⟩ := hsome
      subst hl2
      refine Returns.returns_bind (Q := fun stop w2 => stop = 0 ∧
        w2.log = w1.log ++ [Event.callback i (some l2) popSz])
        ⟨_, _, callCallback_run cb i (some l2) popSz w1, hcont i hi hig _ _ _, rfl⟩ ?_
      rintro stop w2 ⟨hs, e2⟩
      have hc : (if i + 1 ≥ numGenerations then (1 : Int) else stop) = 0 := by
        rw [if_neg (by omega)]
        exact hs
      rw [if_pos hc]
      refine (ih n (i + 1) l2 w2 (by omega) (by push_cast at hik ⊢; omega)
        (by rw [if_neg (by omega)]; exact hlen2) (by omega)).returns_mono ?_
      rintro r w3 ⟨hr, es3, e3, c3⟩
      refine ⟨hr, es1 ++ [Event.callback i (some l2) popSz] ++ es3, ?_, ?_⟩
      · rw [e3, e2, e1]; simp only [List.append_assoc]
      · rw [nextGenCalls_append, nextGenCalls_append, c1, c3]
        have : nextGenCalls [Event.callback i (some l2) popSz] = 0 := rfl
        omega
/-- A run whose callback asks to stop at generation `g`, before the configured maximum:
`GArun` returns a population of `popSz` individuals, and its log consists of a part with
exactly `g + 1` calls of `GAnextGen`, followed by the call of `GAsort` and the fitness calls of
that ranking. -/
theorem GArun_early_stop {σ : Type} (env : Env σ) (l0 : List Individual)
    (popSz numGenerations : Int) (fitness : GAFitnessFnc)
    (crossover : Option (GACrossoverFnc σ)) (mutate : Option (GAMutateFnc σ))
    (cb : GACallbackFnc σ) (g : Nat) (w : World σ)
    (halloc : AllocOk env) (hl0 : 1 ≤ l0.length) (hp : 1 ≤ popSz)
    (hg : (g : Int) < numGenerations - 1)
    (hcont : ∀ i : Int, 0 ≤ i → i < g → ∀ pop sz s, (cb i pop sz s).1 = 0)
    (hstop : ∀ pop sz s, (cb g pop sz s).1 ≠ 0) :
    Returns (GArun env (some l0) l0.length popSz numGenerations fitness crossover mutate
      (some cb)) w
      (fun r w1 => (∃ l1 : List Individual, r = some l1 ∧ (l1.length : Int) = popSz) ∧
        ∃ (es : List Event) (l : List Individual),
          w1.log = w.log ++ es ++ Event.GAsort (some l) popSz :: l.map Event.fitness ∧
          nextGenCalls es = g + 1) := by
  unfold GArun
  refine Returns.returns_bind (Q := fun _ w1 => w1.log = w.log) ⟨_, _, call_run _ _, rfl⟩ ?_
  intro _ w1 hw1
  refine Returns.returns_bind (GArunLoop_early_stop env l0.length popSz numGenerations fitness crossover
    mutate cb g halloc (by omega) hp hg hcont hstop g _ 0 l0 w1 (le_refl _) (by simp)
    (by rw [if_pos rfl]) (by omega)) ?_
  rintro pop w2 ⟨⟨l, h1, h2⟩, es, e2, c2⟩
  subst h1
  rw [← h2]
  obtain ⟨l1, q1, q2, _⟩ := GAsort_ok env fitness l w2 (halloc _ _)
  refine ⟨_, _, q1, ⟨l1, rfl, by rw [q2.length_eq]⟩, es, l, ?_, c2⟩
  simp only [e2, hw1, List.append_assoc, List.singleton_append]
theorem Ensures.ensures_of_world {σ β : Type} {m : M σ β} {w : World σ} {P : World σ → Prop}
    (h : P (m w).2) : Ensures m w (fun _ w1 => P w1) := by
  intro b w1 e
  rw [e] at h
  exact h

theorem sortFitnessLoop_emits {σ : Type} (fitness : GAFitnessFnc) (population : Population) :
    ∀ (n : Nat) (i : Int) (a : Ptr ℚ),
    Emits (fun e => e.making = true) (sortFitnessLoop fitness population n i a : M σ (Ptr ℚ)) := by
  intro n
  induction n with
  | zero => intro i a; exact Emits.emits_pure _ _
  | succ n ih =>
    intro i a
    rw [sortFitnessLoop]
    refine Emits.emits_bind (Emits.emits_liftE _ _) (fun x => ?_)
    refine Emits.emits_bind (callFitness_emits fitness x) (fun fx => ?_)
    refine Emits.emits_bind (Emits.emits_liftE _ _) (fun a1 => ?_)
    exact ih _ _

/-- The log of one `GAsort` call: the call itself, then only calls made from inside it. -/
theorem GAsort_log {σ : Type} (env : Env σ) (population : Population)
    (fitness : GAFitnessFnc) (populationSz : Int) (w : World σ) :
    ∃ es, (GAsort env population fitness populationSz w).2.log =
        w.log ++ Event.GAsort population populationSz :: es ∧
      ∀ e ∈ es, e.inner = true := by
  have hbody : ∀ u : Unit, Emits (fun e => e.inner = true)
      ((do
        let a ← malloc env (0 : ℚ) populationSz
        let a ← sortFitnessLoop fitness population populationSz.toNat 0 a
        if a ≠ none then do
          let right ← liftE (decr populationSz)
          let (population, _) ←
            liftE (quicksort (populationSz.toNat + 2) population a 0 right)
          pure population
        else pure population) : M σ Population) := by
    intro _
    refine Emits.emits_bind (malloc_emits _ env (0 : ℚ) populationSz) (fun a => ?_)
    refine Emits.emits_bind ((sortFitnessLoop_emits fitness population _ _ _).emits_mono
      making_inner) (fun a1 => ?_)
    split_ifs
    · exact Emits.emits_bind (Emits.emits_liftE _ _) (fun _ =>
        Emits.emits_bind (Emits.emits_liftE _ _) (fun _ => Emits.emits_pure _ _))
    · exact Emits.emits_pure _ _
  obtain ⟨es, e1, p1⟩ := hbody () ⟨w.user, w.log ++ [Event.GAsort population populationSz]⟩
  refine ⟨es, ?_, p1⟩
  simp only [List.append_assoc, List.singleton_append] at e1
  rw [← e1]
  rfl

theorem GArunLoop_count {σ : Type} (env : Env σ) (initPopSz popSz numGenerations : Int)
    (fitness : GAFitnessFnc) (crossover : Option (GACrossoverFnc σ))
    (mutate : Option (GAMutateFnc σ)) (cb : GACallbackFnc σ) (g : Nat)
    (hg : (g : Int) < numGenerations - 1)
    (hcont : ∀ i : Int, 0 ≤ i → i < g → ∀ pop sz s, (cb i pop sz s).1 = 0)
    (hstop : ∀ pop sz s, (cb g pop sz s).1 ≠ 0) :
    ∀ (k fuel : Nat) (i : Int) (pop : Population) (w : World σ), 0 ≤ i → i + k = g →
    Ensures (GArunLoop env initPopSz popSz numGenerations fitness crossover mutate (some cb)
      fuel i pop) w
      (fun _ w1 => ∃ es, w1.log = w.log ++ es ∧ nextGenCalls es = k + 1) := by
  intro k
  induction k with
  | zero =>
    intro fuel i pop w hi hik
    cases fuel with
    | zero => exact Ensures.ensures_of_error (liftE_run (Except.error Err.fuel) w)
    | succ n =>
      have hig : i = (g : Int) := by omega
      rw [GArunLoop_succ]
      refine Ensures.ensures_bind (Ensures.ensures_of_world
        (P := fun w1 => ∃ es, w1.log = w.log ++ es ∧ nextGenCalls es = 1) ?_) ?_
      · obtain ⟨es, e1, p1⟩ := GAnextGen_log env pop (if i = 0 then initPopSz else popSz) popSz
          fitness crossover mutate (GAselect env) 0 w
        refine ⟨_, e1, ?_⟩
        rw [← List.singleton_append, nextGenCalls_append, nextGenCalls_inner es p1]
        rfl
      · rintro pop1 w1 ⟨es1, e1, c1⟩
        refine Ensures.ensures_bind (Q := fun stop w2 => stop ≠ 0 ∧
          w2.log = w1.log ++ [Event.callback i pop1 popSz])
          (Ensures.ensures_of_eq (callCallback_run cb i pop1 popSz w1)
            ⟨by rw [hig]; exact hstop _ _ _, rfl⟩) ?_
        rintro stop w2 ⟨hs, e2⟩
        have hc : ¬ (if i + 1 ≥ numGenerations then (1 : Int) else stop) = 0 := by
          split_ifs
          · omega
          · exact hs
        rw [if_neg hc]
        refine Ensures.ensures_of_eq rfl ⟨es1 ++ [Event.callback i pop1 popSz], ?_, ?_⟩
        · rw [e2, e1, List.append_assoc]
        · rw [nextGenCalls_append, c1]
          rfl
  | succ k ih =>
    intro fuel i pop w hi hik
    cases fuel with
    | zero => exact Ensures.ensures_of_error (liftE_run (Except.error Err.fuel) w)
    | succ n =>
      have hig : i < (g : Int) := by push_cast at hik; omega
      rw [GArunLoop_succ]
      refine Ensures.ensures_bind (Ensures.ensures_of_world
        (P := fun w1 => ∃ es, w1.log = w.log ++ es ∧ nextGenCalls es = 1) ?_) ?_
      · obtain ⟨es, e1, p1⟩ := GAnextGen_log env pop (if i = 0 then initPopSz else popSz) popSz
          fitness crossover mutate (GAselect env) 0 w
        refine ⟨_, e1, ?_⟩
        rw [← List.singleton_append, nextGenCalls_append, nextGenCalls_inner es p1]
        rfl
      · rintro pop1 w1 ⟨es1, e1, c1⟩
        refine Ensures.ensures_bind (Q := fun stop w2 => stop = 0 ∧
          w2.log = w1.log ++ [Event.callback i pop1 popSz])
          (Ensures.ensures_of_eq (callCallback_run cb i pop1 popSz w1)
            ⟨hcont i hi hig _ _ _, rfl⟩) ?_
        rintro stop w2 ⟨hs, e2⟩
        have hc : (if i + 1 ≥ numGenerations then (1 : Int) else stop) = 0 := by
          rw [if_neg (by omega)]
          exact hs
        rw [if_pos hc]
        refine (ih n (i + 1) pop1 w2 (by omega) (by push_cast at hik ⊢; omega)).ensures_mono ?_
        rintro r w3 ⟨es3, e3, c3⟩
        refine ⟨es1 ++ [Event.callback i pop1 popSz] ++ es3, ?_, ?_⟩
        · rw [e3, e2, e1]; simp only [List.append_assoc]
        · rw [nextGenCalls_append, nextGenCalls_append, c1, c3]
          have : nextGenCalls [Event.callback i pop1 popSz] = 0 := rfl
          omega

/-- A run whose callback asks to stop at generation `g`, before the configured maximum:
whenever `GArun` returns, its log consists of a part with exactly `g + 1` calls of `GAnextGen`,
followed by the call of `GAsort` and the calls made by that ranking. -/
theorem GArun_count {σ : Type} (env : Env σ) (initialPopulation : Population)
    (initPopSz popSz numGenerations : Int) (fitness : GAFitnessFnc)
    (crossover : Option (GACrossoverFnc σ)) (mutate : Option (GAMutateFnc σ))
    (cb : GACallbackFnc σ) (g : Nat) (w : World σ)
    (hg : (g : Int) < numGenerations - 1)
    (hcont : ∀ i : Int, 0 ≤ i → i < g → ∀ pop sz s, (cb i pop sz s).1 = 0)
    (hstop : ∀ pop sz s, (cb g pop sz s).1 ≠ 0) :
    Ensures (GArun env initialPopulation initPopSz popSz numGenerations fitness crossover
      mutate (some cb)) w
      (fun _ w1 => ∃ (es : List Event) (pop : Population) (es2 : List Event),
        w1.log = w.log ++ es ++ Event.GAsort pop popSz :: es2 ∧
        nextGenCalls es = g + 1 ∧ ∀ e ∈ es2, e.inner = true) := by
  unfold GArun
  refine Ensures.ensures_bind (Q := fun _ w1 => w1.log = w.log) (Ensures.ensures_of_eq (call_run _ _) rfl) ?_
  intro _ w1 hw1
  refine Ensures.ensures_bind (GArunLoop_count env initPopSz popSz numGenerations fitness crossover
    mutate cb g hg hcont hstop g _ 0 initialPopulation w1 (le_refl _) (by simp)) ?_
  rintro pop w2 ⟨es, e2, c2⟩
  refine Ensures.ensures_of_world ?_
  obtain ⟨es2, e3, p3⟩ := GAsort_log env pop fitness popSz w2
  exact ⟨es, pop, es2, by rw [e3, e2, hw1], c2, p3⟩

/-! ## Ownership: which individuals `GAnextGen` deletes -/

theorem deletedOf_append (a b : List Event) : deletedOf (a ++ b) = deletedOf a ++ deletedOf b := by
  simp [deletedOf, List.filterMap_append]

theorem freedOf_append (a b : List Event) : freedOf (a ++ b) = freedOf a ++ freedOf b := by
  simp [freedOf, List.filterMap_append]

theorem deletedOf_making (es : List Event) (h : ∀ e ∈ es, e.making = true) :
    deletedOf es = [] := by
  rw [deletedOf, List.filterMap_eq_nil_iff]
  intro e he
  have := h e he
  cases e <;> simp_all [Event.making]

theorem freedOf_making (es : List Event) (h : ∀ e ∈ es, e.making = true) :
    freedOf es = [] := by
  rw [freedOf, List.filterMap_eq_nil_iff]
  intro e he
  have := h e he
  cases e <;> simp_all [Event.making]

theorem noOwn_of_emits {σ β : Type} {m : M σ β}
    (h : Emits (fun e => e.making = true) m) (w0 w : World σ)
    (h0 : deletedOf w.log = deletedOf w0.log ∧ freedOf w.log = freedOf w0.log) :
    deletedOf (m w).2.log = deletedOf w0.log ∧ freedOf (m w).2.log = freedOf w0.log := by
  obtain ⟨es, e1, p1⟩ := h w
  rw [e1, deletedOf_append, freedOf_append, deletedOf_making es p1, freedOf_making es p1,
    List.append_nil, List.append_nil]
  exact h0

theorem Ensures.ensures_and_world {σ β : Type} {m : M σ β} {w : World σ}
    {Q : β → World σ → Prop} {P : World σ → Prop} (h : Ensures m w Q) (hw : P (m w).2) :
    Ensures m w (fun b w1 => Q b w1 ∧ P w1) := by
  intro b w1 e
  refine ⟨h b w1 e, ?_⟩
  rw [e] at hw
  exact hw

theorem deleteLoop_spec {σ : Type} (env : Env σ) (l : List Individual) :
    ∀ (n i : Nat) (w : World σ), i + n = l.length →
    ∃ w1, deleteLoop env (some l) n (i : Int) w = (.ok (), w1) ∧
      w1.log = w.log ++ ((l.drop i).filter (fun x => x ≠ NULL)).map Event.deleteIndividual := by
  intro n
  induction n with
  | zero =>
    intro i w hi
    have hd : l.drop i = [] := List.drop_eq_nil_of_le (by omega)
    exact ⟨w, rfl, by simp [hd]⟩
  | succ n ih =>
    intro i w hi
    have hil : i < l.length := by omega
    have r1 := rd_nat l i NULL hil
    have hd : l.drop i = l.getD i NULL :: l.drop (i + 1) := by
      rw [List.drop_eq_getElem_cons hil]
      simp [List.getD_eq_getElem?_getD, List.getElem?_eq_getElem hil]
    by_cases hx : l.getD i NULL ≠ NULL
    · obtain ⟨w1, h1, h2⟩ := ih (i + 1) ⟨env.deleteIndividual (l.getD i NULL) w.user,
        w.log ++ [Event.deleteIndividual (l.getD i NULL)]⟩ (by omega)
      refine ⟨w1, ?_, ?_⟩
      · push_cast at h1
        simp only [deleteLoop, bind_run, liftE_run, r1]
        rw [if_pos hx]
        simp only [bind_run, callDelete_run, h1]
      · rw [h2, hd, List.filter_cons_of_pos (by simpa using hx)]
        simp only [List.map_cons, List.append_assoc, List.singleton_append]
    · obtain ⟨w1, h1, h2⟩ := ih (i + 1) w (by omega)
      refine ⟨w1, ?_, ?_⟩
      · push_cast at h1
        simp only [deleteLoop, bind_run, liftE_run, r1]
        rw [if_neg hx]
        simp only [bind_run, pure_run, h1]
      · rw [h2, hd, List.filter_cons_of_neg (by simpa using hx)]

theorem deletedOf_map_delete (l : List Individual) :
    deletedOf (l.map Event.deleteIndividual) = l := by
  induction l with
  | nil => rfl
  | cons x t ih =>
    simp only [List.map_cons, deletedOf, List.filterMap_cons] at ih ⊢
    rw [ih]

theorem freedOf_map_delete (l : List Individual) :
    freedOf (l.map Event.deleteIndividual) = [] := by
  induction l with
  | nil => rfl
  | cons x t ih =>
    simp only [List.map_cons, freedOf, List.filterMap_cons] at ih ⊢
    rw [ih]
/-- With `keepOldPopulation ≠ 0`, `GAnextGen` calls neither `deleteIndividual` nor `free` on
the old population, whatever the outcome of the call. -/
theorem GAnextGen_keep {σ : Type} (env : Env σ) (currentPopulation : Population)
    (oldPopSz newPopSz : Int) (fitness : GAFitnessFnc)
    (crossover : Option (GACrossoverFnc σ)) (mutate : Option (GAMutateFnc σ))
    (select : GASelectionFnc σ) (keepOldPopulation : Int) (w : World σ)
    (hkeep : keepOldPopulation ≠ 0) :
    deletedOf (GAnextGen env currentPopulation oldPopSz newPopSz fitness crossover mutate select
      keepOldPopulation w).2.log = deletedOf w.log ∧
    freedOf (GAnextGen env currentPopulation oldPopSz newPopSz fitness crossover mutate select
      keepOldPopulation w).2.log = freedOf w.log := by
  have hbody : ∀ u : Unit, Emits (fun e => e.making = true)
      ((do
        let nextPopulation ← malloc env NULL newPopSz
        if nextPopulation = none then pure none
        else do
          let fitnessArray ← malloc env (0 : ℚ) oldPopSz
          let (fitnessArray, totalFitness, best) ←
            fitnessLoop fitness currentPopulation oldPopSz.toNat 0 fitnessArray 0 0
          let xbest ← liftE (rd currentPopulation best)
          let c ← callClone env xbest
          let nextPopulation ← liftE (wr nextPopulation 0 c)
          let nextPopulation ←
            slotLoop env currentPopulation oldPopSz crossover mutate select totalFitness
              (newPopSz - 1).toNat 1 fitnessArray nextPopulation
          if keepOldPopulation = 0 then do
            deleteLoop env currentPopulation oldPopSz.toNat 0
            logEvent (.free currentPopulation)
          else pure ()
          pure nextPopulation) : M σ Population) := by
    intro _
    refine Emits.emits_bind (malloc_emits _ env NULL newPopSz) (fun np => ?_)
    by_cases hnp : np = none
    · rw [if_pos hnp]; exact Emits.emits_pure _ _
    rw [if_neg hnp]
    refine Emits.emits_bind (malloc_emits _ env (0 : ℚ) oldPopSz) (fun fa => ?_)
    refine Emits.emits_bind (fitnessLoop_emits fitness currentPopulation _ _ _ _ _) (fun p => ?_)
    dsimp only
    refine Emits.emits_bind (Emits.emits_liftE _ _) (fun xbest => ?_)
    refine Emits.emits_bind (callClone_emits env xbest) (fun c => ?_)
    refine Emits.emits_bind (Emits.emits_liftE _ _) (fun np1 => ?_)
    refine Emits.emits_bind (slotLoop_emits env _ _ _ _ _ _ _ _ _ _) (fun np2 => ?_)
    dsimp only
    rw [if_neg hkeep]
    exact Emits.emits_bind (Emits.emits_pure _ _) (fun _ => Emits.emits_pure _ _)
  exact noOwn_of_emits (hbody ()) w ⟨w.user,
    w.log ++ [Event.GAnextGen currentPopulation oldPopSz newPopSz keepOldPopulation]⟩
    (by rw [deletedOf_append, freedOf_append]; exact ⟨by simp [deletedOf], by simp [freedOf]⟩)

/-- With `keepOldPopulation = 0`, a call of `GAnextGen` that returns a population has called
`deleteIndividual` exactly on the non-null cells of the old population, in order, one call per
cell, and has freed the old array; a call that returns the null pointer has deleted and freed
nothing. -/
theorem GAnextGen_consume {σ : Type} (env : Env σ) (l : List Individual) (newPopSz : Int)
    (fitness : GAFitnessFnc) (crossover : Option (GACrossoverFnc σ))
    (mutate : Option (GAMutateFnc σ)) (select : GASelectionFnc σ) (w : World σ) :
    Ensures (GAnextGen env (some l) l.length newPopSz fitness crossover mutate select 0) w
      (fun r w1 =>
        (r = none ∧ deletedOf w1.log = deletedOf w.log ∧ freedOf w1.log = freedOf w.log) ∨
        (∃ l1, r = some l1 ∧
          deletedOf w1.log = deletedOf w.log ++ l.filter (fun x => x ≠ NULL) ∧
          freedOf w1.log = freedOf w.log ++ [some l])) := by
  unfold GAnextGen
  refine Ensures.ensures_bind
    (Q := fun _ w1 => deletedOf w1.log = deletedOf w.log ∧ freedOf w1.log = freedOf w.log)
    (Ensures.ensures_of_eq (logEvent_run _ _)
      (by rw [deletedOf_append, freedOf_append]; exact ⟨by simp [deletedOf], by simp [freedOf]⟩))
    ?_
  intro _ w1 hw1
  refine Ensures.ensures_bind (Q := fun _ w2 => deletedOf w2.log = deletedOf w.log ∧
    freedOf w2.log = freedOf w.log)
    (Ensures.ensures_of_world (noOwn_of_emits (malloc_emits _ env NULL newPopSz) w w1 hw1)) ?_
  intro np w2 hw2
  by_cases hnp : np = none
  · rw [if_pos hnp]
    exact Ensures.ensures_of_eq rfl (Or.inl ⟨rfl, hw2⟩)
  rw [if_neg hnp]
  refine Ensures.ensures_bind (Q := fun _ w3 => deletedOf w3.log = deletedOf w.log ∧
    freedOf w3.log = freedOf w.log)
    (Ensures.ensures_of_world (noOwn_of_emits (malloc_emits _ env (0 : ℚ) _) w w2 hw2)) ?_
  intro fa w3 hw3
  refine Ensures.ensures_bind (Q := fun _ w4 => deletedOf w4.log = deletedOf w.log ∧
    freedOf w4.log = freedOf w.log)
    (Ensures.ensures_of_world (noOwn_of_emits (fitnessLoop_emits fitness _ _ _ _ _ _) w w3 hw3))
    ?_
  intro p w4 hw4
  dsimp only
  refine Ensures.ensures_bind (Q := fun _ w5 => deletedOf w5.log = deletedOf w.log ∧
    freedOf w5.log = freedOf w.log)
    (Ensures.ensures_of_world (noOwn_of_emits (Emits.emits_liftE _ _) w w4 hw4)) ?_
  intro xbest w5 hw5
  refine Ensures.ensures_bind (Q := fun _ w6 => deletedOf w6.log = deletedOf w.log ∧
    freedOf w6.log = freedOf w.log)
    (Ensures.ensures_of_world (noOwn_of_emits (callClone_emits env xbest) w w5 hw5)) ?_
  intro c w6 hw6
  refine Ensures.ensures_bind (Q := fun np1 w7 => (∃ l0 : List Individual, np1 = some l0) ∧
    (deletedOf w7.log = deletedOf w.log ∧ freedOf w7.log = freedOf w.log))
    (Ensures.ensures_and_world (Ensures.ensures_liftE _ _ _ ?_)
      (noOwn_of_emits (Emits.emits_liftE _ _) w w6 hw6)) ?_
  · intro np1 hnp1
    cases np with
    | none => exact absurd rfl hnp
    | some l0 => exact ⟨_, (wr_ok_inv hnp1).1⟩
  rintro np1 w7 ⟨⟨l0, hl0⟩, hw7⟩
  subst hl0
  refine Ensures.ensures_bind (Q := fun np2 w8 => (∃ l2 : List Individual, np2 = some l2) ∧
    (deletedOf w8.log = deletedOf w.log ∧ freedOf w8.log = freedOf w.log))
    (Ensures.ensures_and_world ?_
      (noOwn_of_emits (slotLoop_emits env _ _ _ _ _ _ _ _ _ _) w w7 hw7)) ?_
  · intro r w8 hr
    obtain ⟨np2, h, _⟩ := slotLoop_post env (some l) l.length crossover mutate select _ _ 1 _
      l0 w7 w8 r (le_refl _) hr
    exact ⟨np2, h⟩
  rintro np2 w8 ⟨⟨l2, hl2⟩, hw8⟩
  subst hl2
  rw [if_pos rfl]
  obtain ⟨w9, h9, e9⟩ := deleteLoop_spec env l l.length 0 w8 (by omega)
  simp only [Int.toNat_ofNat, Nat.cast_zero] at h9 ⊢
  have e9a : w9.log = w8.log ++
      (l.filter (fun x => x ≠ NULL)).map Event.deleteIndividual := by simpa using e9
  refine Ensures.ensures_bind (Q := fun _ w10 => w10.log = w8.log ++
    (l.filter (fun x => x ≠ NULL)).map Event.deleteIndividual)
    (Ensures.ensures_of_eq h9 e9a) ?_
  intro _ w10 e10
  refine Ensures.ensures_bind (Q := fun _ w11 => w11.log = w10.log ++ [Event.free (some l)])
    (Ensures.ensures_of_eq (logEvent_run _ _) rfl) ?_
  intro _ w11 e11
  refine Ensures.ensures_of_eq rfl (Or.inr ⟨l2, rfl, ?_, ?_⟩)
  · rw [e11, e10, deletedOf_append, deletedOf_append, deletedOf_map_delete, hw8.1]
    simp [deletedOf]
  · rw [e11, e10, freedOf_append, freedOf_append, freedOf_map_delete, hw8.2]
    simp [freedOf]

/-! ## Properties of the specification (C1 to C10) -/

/-- C1: `GAsort` ranks in descending fitness. For every population of size `n ≥ 1` and every
(pure) fitness function, whenever `GAsort(population, fitness, n)` returns, the population is
still an array of `n` individuals and `fitness(population[i]) ≥ fitness(population[i+1])` for
every adjacent pair; and it does return whenever its fitness buffer can be allocated. -/
theorem C1_GAsort_descending {σ : Type} (env : Env σ) (fitness : GAFitnessFnc)
    (l : List Individual) (w : World σ) (hn : 1 ≤ l.length) :
    (∀ r, (GAsort env (some l) fitness l.length w).1 = .ok r →
      ∃ l1, r = some l1 ∧ l1.length = l.length ∧
        ∀ (i : Nat) (x y : Individual), l1[i]? = some x → l1[i + 1]? = some y →
          fitness x ≥ fitness y) ∧
    ((env.malloc l.length w.user).1 = true →
      ∃ l1, (GAsort env (some l) fitness l.length w).1 = .ok (some l1)) := by
  cases halloc : (env.malloc l.length w.user).1 with
  | false =>
    obtain ⟨e, w1, h⟩ := GAsort_alloc_fail env fitness (some l) l.length w halloc (by omega)
    refine ⟨?_, fun h' => Bool.noConfusion h'⟩
    intro r hr
    rw [h] at hr
    exact Except.noConfusion hr
  | true =>
    obtain ⟨l1, h1, h2, h3⟩ := GAsort_ok env fitness l w halloc
    refine ⟨?_, fun _ => ⟨l1, by rw [h1]⟩⟩
    intro r hr
    rw [h1] at hr
    injection hr with hr
    exact ⟨l1, hr.symm, h2.length_eq, fun i x y hx hy => h3 i (i + 1) x y (by omega) hx hy⟩

/-- Witness of C1 on the population `[3, 1, 2]` with the sample fitness function. -/
theorem C1_GAsort_descending_witness :
    1 ≤ ([3, 1, 2] : List Individual).length ∧
    ∃ l1, (GAsort sampleEnv (some [3, 1, 2]) sampleFitness
      (([3, 1, 2] : List Individual).length : Int) ⟨[], []⟩).1 = .ok (some l1) :=
  ⟨by decide, (C1_GAsort_descending sampleEnv sampleFitness [3, 1, 2] ⟨[], []⟩ (by decide)).2 rfl⟩

/-- C3: `GAsort` only reorders. For every population of size `n ≥ 0` and every fitness
function, whenever `GAsort` returns, the population afterwards is a permutation of the
population before (same length, same individuals with the same multiplicities); and it does
return whenever its fitness buffer can be allocated. -/
theorem C3_GAsort_perm {σ : Type} (env : Env σ) (fitness : GAFitnessFnc)
    (l : List Individual) (w : World σ) :
    (∀ r, (GAsort env (some l) fitness l.length w).1 = .ok r →
      ∃ l1, r = some l1 ∧ l1.Perm l ∧ l1.length = l.length) ∧
    ((env.malloc l.length w.user).1 = true →
      ∃ l1, (GAsort env (some l) fitness l.length w).1 = .ok (some l1)) := by
  cases halloc : (env.malloc l.length w.user).1 with
  | false =>
    refine ⟨?_, fun h' => Bool.noConfusion h'⟩
    intro r hr
    by_cases hn : 1 ≤ l.length
    · obtain ⟨e, w1, h⟩ := GAsort_alloc_fail env fitness (some l) l.length w halloc (by omega)
      rw [h] at hr
      exact Except.noConfusion hr
    · have hl : l = [] := List.length_eq_zero.mp (by omega)
      subst hl
      simp only [List.length_nil, Nat.cast_zero] at halloc
      simp [GAsort, bind_run, logEvent_run, malloc_run, halloc, pure_run, sortFitnessLoop] at hr
      exact ⟨[], hr.symm, List.Perm.refl _, rfl⟩
  | true =>
    obtain ⟨l1, h1, h2, _⟩ := GAsort_ok env fitness l w halloc
    refine ⟨?_, fun _ => ⟨l1, by rw [h1]⟩⟩
    intro r hr
    rw [h1] at hr
    injection hr with hr
    exact ⟨l1, hr.symm, h2, h2.length_eq⟩

/-- C8: `GAselect` returns the first matching open interval, else the last index. For every
`popSz ≥ 1`, every array of `popSz` fitness values (non-negative or not) and every draw
`d = mtrand() * sumOfFitness`: if some index `i` in `[0, popSz)` satisfies
`cumul i < d < cumul i + fitness[i]`, `GAselect` returns the smallest such `i`; otherwise it
returns `popSz - 1`. -/
theorem C8_GAselect_first_match {σ : Type} (env : Env σ) (population : Population)
    (fv : List ℚ) (sumOfFitness : ℚ) (s : σ) (hn : 1 ≤ fv.length) :
    ∃ r : Nat, (GAselect env population (some fv) sumOfFitness fv.length s).1 = .ok (r : Int) ∧
      ((∃ i, i < fv.length ∧ InOpenInterval fv ((env.mtrand s).1 * sumOfFitness) i) →
        r < fv.length ∧ InOpenInterval fv ((env.mtrand s).1 * sumOfFitness) r ∧
        ∀ i, i < r → ¬ InOpenInterval fv ((env.mtrand s).1 * sumOfFitness) i) ∧
      ((¬ ∃ i, i < fv.length ∧ InOpenInterval fv ((env.mtrand s).1 * sumOfFitness) i) →
        (r : Int) = (fv.length : Int) - 1) := by
  obtain ⟨r, q1, q2, q3, q4⟩ := GAselect_spec env population fv sumOfFitness s hn
  refine ⟨r, q1, ?_, ?_⟩
  · rintro ⟨i, hi, hit⟩
    refine ⟨q2, ?_, q3⟩
    by_cases hr : r < fv.length - 1
    · exact q4 hr
    · have hir : ¬ i < r := fun h => q3 i h hit
      have : i = r := by omega
      rw [← this]; exact hit
  · intro hno
    by_cases hr : r < fv.length - 1
    · exact absurd ⟨r, q2, q4 hr⟩ hno
    · omega

/-- Witness of C8 on the fitness values `[1, 2, 3]` with the random value `1/2`. -/
theorem C8_GAselect_first_match_witness :
    1 ≤ ([1, 2, 3] : List ℚ).length ∧
    ∃ r : Nat, (GAselect sampleEnv none (some [1, 2, 3]) 6 (([1, 2, 3] : List ℚ).length : Int)
      [1 / 2]).1 = .ok (r : Int) :=
  ⟨by decide,
    (C8_GAselect_first_match sampleEnv none [1, 2, 3] 6 [1 / 2] (by decide)).elim
      fun r h => ⟨r, h.1⟩⟩

/-- Counterexample to C9 as stated: with the strictly positive fitness values `[1, 1, 1]`
(sum `3`) and the random value `1/3`, the draw is `1`, which satisfies `0 ≤ 1 < 3` and lies in
the half-open interval `[1, 2)` of index `1`; `GAselect` returns index `2`, whose half-open
interval `[2, 3)` does not contain the draw. -/
theorem C9_counterexample :
    (∀ x ∈ ([1, 1, 1] : List ℚ), 0 < x) ∧
    (0 : ℚ) ≤ (sampleEnv.mtrand [1 / 3]).1 * 3 ∧
    (sampleEnv.mtrand [1 / 3]).1 * 3 < ([1, 1, 1] : List ℚ).sum ∧
    (GAselect sampleEnv none (some [1, 1, 1]) 3 3 [1 / 3]).1 = .ok 2 ∧
    InHalfOpenInterval [1, 1, 1] ((sampleEnv.mtrand [1 / 3]).1 * 3) 1 ∧
    ¬ InHalfOpenInterval [1, 1, 1] ((sampleEnv.mtrand [1 / 3]).1 * 3) 2 := by
  refine ⟨?_, ?_, ?_, ?_, ?_, ?_⟩
  · intro x hx; simp at hx; rw [hx]; norm_num
  · norm_num [sampleEnv]
  · norm_num [sampleEnv]
  · norm_num [GAselect, decr, INT_MIN, GAselectLoop, sampleEnv, rd, bind, Except.bind, pure,
      Except.pure]
  · norm_num [InHalfOpenInterval, cumul, sampleEnv]
  · norm_num [InHalfOpenInterval, cumul, sampleEnv]

/-- C9 (amended): for every `popSz ≥ 1`, every array of strictly positive fitness values with
sum `S` and every draw `d` with `0 ≤ d < S`, `GAselect` returns a valid index `r` such that:
`r` is the index whose open cumulative interval `cumul i < d < cumul i + fitness[i]` contains
`d`, when there is one; `r = popSz - 1` when `d` equals a running total `cumul i`; and one of
the two cases always applies. -/
theorem C9_GAselect_open_interval {σ : Type} (env : Env σ) (population : Population)
    (fv : List ℚ) (sumOfFitness : ℚ) (s : σ) (hn : 1 ≤ fv.length)
    (hpos : ∀ x ∈ fv, 0 < x) (hd0 : 0 ≤ (env.mtrand s).1 * sumOfFitness)
    (hd1 : (env.mtrand s).1 * sumOfFitness < fv.sum) :
    ∃ r : Nat, (GAselect env population (some fv) sumOfFitness fv.length s).1 = .ok (r : Int) ∧
      r < fv.length ∧
      (∀ i, i < fv.length → InOpenInterval fv ((env.mtrand s).1 * sumOfFitness) i → r = i) ∧
      ((∃ i, i < fv.length ∧ (env.mtrand s).1 * sumOfFitness = cumul fv i) →
        (r : Int) = (fv.length : Int) - 1) ∧
      (InOpenInterval fv ((env.mtrand s).1 * sumOfFitness) r ∨
        ∃ i, i < fv.length ∧ (env.mtrand s).1 * sumOfFitness = cumul fv i) := by
  obtain ⟨r, q1, q2, q3, q4⟩ := GAselect_spec env population fv sumOfFitness s hn
  generalize (env.mtrand s).1 * sumOfFitness = d at *
  have hnn : ∀ x ∈ fv, 0 ≤ x := fun x hx => le_of_lt (hpos x hx)
  have mono := cumul_mono fv hnn
  have hsucc := cumul_succ fv
  refine ⟨r, q1, q2, ?_, ?_, ?_⟩
  · intro i hi hit
    have h1 : ¬ i < r := fun h => q3 i h hit
    by_contra hne
    have hlt : r < i := by omega
    have hr := q4 (by omega)
    have h2 := mono i (r + 1) (by omega) (by omega)
    rw [hsucc r q2] at h2
    have := hit.1
    have := hr.2
    linarith
  · rintro ⟨i, hi, hdi⟩
    by_contra hne
    have hr := q4 (by omega)
    by_cases hir : i ≤ r
    · have := mono r i hir (by omega)
      have := hr.1
      linarith
    · have h2 := mono i (r + 1) (by omega) (by omega)
      rw [hsucc r q2] at h2
      have := hr.2
      linarith
  · by_cases hit : InOpenInterval fv d r
    · exact Or.inl hit
    · right
      have hrl : ¬ r < fv.length - 1 := fun h => hit (q4 h)
      obtain ⟨i, hi, h1, h2⟩ := cumul_locate fv d hd0 fv.length (le_refl _)
        (by rw [cumul_length]; exact hd1)
      refine ⟨i, hi, ?_⟩
      have hno : ¬ InOpenInterval fv d i := by
        by_cases hir : i < r
        · exact q3 i hir
        · have : i = r := by omega
          rw [this]; exact hit
      by_contra hne
      exact hno ⟨lt_of_le_of_ne h1 (Ne.symm hne), h2⟩

/-- Witness of C9 (amended) on the fitness values `[1, 1, 1]` with the random value `1/2`
(draw `3/2`). -/
theorem C9_GAselect_open_interval_witness :
    1 ≤ ([1, 1, 1] : List ℚ).length ∧ (∀ x ∈ ([1, 1, 1] : List ℚ), 0 < x) ∧
    (0 : ℚ) ≤ (sampleEnv.mtrand [1 / 2]).1 * 3 ∧
    (sampleEnv.mtrand [1 / 2]).1 * 3 < ([1, 1, 1] : List ℚ).sum ∧
    ∃ r : Nat, (GAselect sampleEnv none (some [1, 1, 1]) 3 (([1, 1, 1] : List ℚ).length : Int)
      [1 / 2]).1 = .ok (r : Int) ∧ r < ([1, 1, 1] : List ℚ).length :=
  have h1 : 1 ≤ ([1, 1, 1] : List ℚ).length := by decide
  have h2 : ∀ x ∈ ([1, 1, 1] : List ℚ), 0 < x := by
    intro x hx; simp at hx; rw [hx]; norm_num
  have h3 : (0 : ℚ) ≤ (sampleEnv.mtrand [1 / 2]).1 * 3 := by norm_num [sampleEnv]
  have h4 : (sampleEnv.mtrand [1 / 2]).1 * 3 < ([1, 1, 1] : List ℚ).sum := by
    norm_num [sampleEnv]
  ⟨h1, h2, h3, h4,
    (C9_GAselect_open_interval sampleEnv none [1, 1, 1] 3 [1 / 2] h1 h2 h3 h4).elim
      fun r h => ⟨r, h.1, h.2.1⟩⟩

/-- C10: selector witness with a stubbed random value. With fitness values `[1, 1, 1]`,
`sumOfFitness = 3` and `popSz = 3`, `GAselect` returns `0` when the random value is `1/6`
(draw `0.5`), `1` when it is `1/2` (draw `1.5`) and `2` when it is `5/6` (draw `2.5`). -/
theorem C10_GAselect_stubbed {σ : Type} (env : Env σ) (population : Population) (s : σ) :
    ((env.mtrand s).1 = 1 / 6 →
      (GAselect env population (some [1, 1, 1]) 3 3 s).1 = .ok 0) ∧
    ((env.mtrand s).1 = 1 / 2 →
      (GAselect env population (some [1, 1, 1]) 3 3 s).1 = .ok 1) ∧
    ((env.mtrand s).1 = 5 / 6 →
      (GAselect env population (some [1, 1, 1]) 3 3 s).1 = .ok 2) := by
  refine ⟨?_, ?_, ?_⟩ <;> intro h <;>
    norm_num [GAselect, decr, INT_MIN, GAselectLoop, rd, bind, Except.bind, pure, Except.pure, h]

/-- Witness of C10 in the sample environment, the three random values being the next value
of the stream. -/
theorem C10_GAselect_stubbed_witness :
    (GAselect sampleEnv none (some [1, 1, 1]) 3 3 [1 / 6]).1 = .ok 0 ∧
    (GAselect sampleEnv none (some [1, 1, 1]) 3 3 [1 / 2]).1 = .ok 1 ∧
    (GAselect sampleEnv none (some [1, 1, 1]) 3 3 [5 / 6]).1 = .ok 2 :=
  ⟨(C10_GAselect_stubbed sampleEnv none [1 / 6]).1 rfl,
    (C10_GAselect_stubbed sampleEnv none [1 / 2]).2.1 rfl,
    (C10_GAselect_stubbed sampleEnv none [5 / 6]).2.2 rfl⟩

/-- Counterexample to C2 as stated: the old population `[1, 2]` has fitness `-5` and `-1`
under `negativeFitness`, which `sampleEnv.clone` preserves. Both values are clamped to `0`, so
the first individual is kept as the best: `GAnextGen` (new size `1`) returns `[101]`, the clone
of individual `1`, whose fitness `-5` is smaller than the fitness `-1` of the old
individual `2`. -/
theorem C2_counterexample :
    (∀ x s, negativeFitness (sampleEnv.clone x s).1 = negativeFitness x) ∧
    (GAnextGen sampleEnv (some [1, 2]) 2 1 negativeFitness none none (GAselect sampleEnv) 1
      ⟨[], []⟩).1 = .ok (some [101]) ∧
    (2 : Individual) ∈ ([1, 2] : List Individual) ∧
    ¬ (negativeFitness 101 ≥ negativeFitness 2) := by
  refine ⟨?_, by decide, by decide, by decide⟩
  intro x s
  simp [negativeFitness, sampleEnv]

/-- C2 (amended): elitism of one generation advance holds for the clamped fitness. For every
old population of size `≥ 1`, every new size `≥ 1`, every fitness function, every selector,
crossover and mutate, and a clone that preserves fitness: whenever `GAnextGen` returns a
population, the individual `c` in slot `0` satisfies
`max(0, fitness(c)) ≥ max(0, fitness(x))` for every individual `x` of the old population, and
so `fitness(c) ≥ fitness(x)` when the fitness function has no negative value. `GAnextGen` does
return a population when allocations succeed and the selector returns valid indices. -/
theorem C2_elitism_clamped {σ : Type} (env : Env σ) (l : List Individual) (newPopSz : Int)
    (fitness : GAFitnessFnc) (crossover : Option (GACrossoverFnc σ))
    (mutate : Option (GAMutateFnc σ)) (select : GASelectionFnc σ) (keepOldPopulation : Int)
    (w : World σ) (hl : 1 ≤ l.length) (hm : 1 ≤ newPopSz)
    (hclone : ∀ x s, fitness (env.clone x s).1 = fitness x) :
    (∀ r, (GAnextGen env (some l) l.length newPopSz fitness crossover mutate select
        keepOldPopulation w).1 = .ok r →
      r = none ∨ ∃ (l1 : List Individual) (c : Individual), r = some l1 ∧ l1[0]? = some c ∧
        (∀ x ∈ l, clamped fitness c ≥ clamped fitness x) ∧
        ((∀ y, 0 ≤ fitness y) → ∀ x ∈ l, fitness c ≥ fitness x)) ∧
    (AllocOk env → SelectorOk select l.length →
      ∃ l1, (GAnextGen env (some l) l.length newPopSz fitness crossover mutate select
        keepOldPopulation w).1 = .ok (some l1)) := by
  constructor
  · intro r hr
    have h := GAnextGen_elite env l newPopSz fitness crossover mutate select keepOldPopulation
      w hl hclone r _ (run_eq_of_fst hr)
    rcases h with h | ⟨l1, c, h1, _, h3, h4⟩
    · exact Or.inl h.1
    · refine Or.inr ⟨l1, c, h1, h3, h4, ?_⟩
      intro hnn x hx
      have := h4 x hx
      rwa [clamped_of_nonneg fitness hnn, clamped_of_nonneg fitness hnn] at this
  · intro halloc hsel
    obtain ⟨r, w1, h1, l1, h2⟩ := GAnextGen_returns env l newPopSz fitness crossover mutate
      select keepOldPopulation w hl hm halloc hsel
    exact ⟨l1, by rw [h1, h2]⟩

/-- Witness of C2 (amended): the old population `[1, 2]` with `negativeFitness`, new size
`1`. -/
theorem C2_elitism_clamped_witness :
    1 ≤ ([1, 2] : List Individual).length ∧ (1 : Int) ≤ 1 ∧
    (∀ x s, negativeFitness (sampleEnv.clone x s).1 = negativeFitness x) ∧
    ∀ r, (GAnextGen sampleEnv (some [1, 2]) (([1, 2] : List Individual).length : Int) 1
        negativeFitness none none (GAselect sampleEnv) 1 ⟨[], []⟩).1 = .ok r →
      r = none ∨ ∃ (l1 : List Individual) (c : Individual), r = some l1 ∧ l1[0]? = some c ∧
        (∀ x ∈ ([1, 2] : List Individual), clamped negativeFitness c ≥ clamped negativeFitness x) ∧
        ((∀ y, 0 ≤ negativeFitness y) →
          ∀ x ∈ ([1, 2] : List Individual), negativeFitness c ≥ negativeFitness x) :=
  have hc : ∀ x s, negativeFitness (sampleEnv.clone x s).1 = negativeFitness x := by
    intro x s
    simp [negativeFitness, sampleEnv]
  ⟨by decide, le_refl _, hc,
    (C2_elitism_clamped sampleEnv [1, 2] 1 negativeFitness none none (GAselect sampleEnv) 1
      ⟨[], []⟩ (by decide) (le_refl _) hc).1⟩

/-- C4: best fitness never decreases over a whole run. For every `GArun` call with initial size
`≥ 1`, steady size `popSz ≥ 1`, any `numGenerations`, any callback (or none), any crossover
and mutate, a fitness function with non-negative values and a clone that preserves fitness:
whenever `GArun` returns, the first individual of the returned (ranked) population has fitness
`≥` the fitness of every individual of the initial population; and `GArun` does return when
allocations succeed. -/
theorem C4_best_fitness_never_decreases {σ : Type} (env : Env σ) (l0 : List Individual)
    (popSz numGenerations : Int) (fitness : GAFitnessFnc)
    (crossover : Option (GACrossoverFnc σ)) (mutate : Option (GAMutateFnc σ))
    (callback : Option (GACallbackFnc σ)) (w : World σ)
    (hl0 : 1 ≤ l0.length) (hp : 1 ≤ popSz) (hnn : ∀ y, 0 ≤ fitness y)
    (hclone : ∀ x s, fitness (env.clone x s).1 = fitness x) :
    (∀ r, (GArun env (some l0) l0.length popSz numGenerations fitness crossover mutate
        callback w).1 = .ok r →
      ∃ (l1 : List Individual) (c : Individual), r = some l1 ∧ l1[0]? = some c ∧
        ∀ x ∈ l0, fitness c ≥ fitness x) ∧
    (AllocOk env →
      ∃ l1, (GArun env (some l0) l0.length popSz numGenerations fitness crossover mutate
        callback w).1 = .ok (some l1)) := by
  constructor
  · intro r hr
    obtain ⟨l1, c, h1, _, h3, h4, l, h5, h6⟩ := GArun_ensures env l0 popSz numGenerations
      fitness crossover mutate callback w (Dominates fitness l0)
      (Dominates.dom_advance env fitness hclone l0) (Dominates.dom_refl fitness l0) hl0 hp r _
      (run_eq_of_fst hr)
    refine ⟨l1, c, h1, h3, ?_⟩
    intro x hx
    obtain ⟨y, hy, hxy⟩ := h5 x hx
    rw [clamped_of_nonneg fitness hnn, clamped_of_nonneg fitness hnn] at hxy
    exact le_trans hxy (h4 y (h6.mem_iff.2 hy))
  · intro halloc
    obtain ⟨r, w1, h1, l1, h2⟩ := GArun_returns env l0 popSz numGenerations fitness crossover
      mutate callback w halloc hl0 hp
    exact ⟨l1, by rw [h1, h2]⟩

/-- Witness of C4: a run of `3` generations from the population `[1, 2, 3]` to steady size
`4` in the sample environment. -/
theorem C4_best_fitness_never_decreases_witness :
    1 ≤ ([1, 2, 3] : List Individual).length ∧ (1 : Int) ≤ 4 ∧
    (∀ y, 0 ≤ sampleFitness y) ∧
    (∀ x s, sampleFitness (sampleEnv.clone x s).1 = sampleFitness x) ∧
    ∀ r, (GArun sampleEnv (some [1, 2, 3]) (([1, 2, 3] : List Individual).length : Int) 4 3
        sampleFitness none none none ⟨[], []⟩).1 = .ok r →
      ∃ (l1 : List Individual) (c : Individual), r = some l1 ∧ l1[0]? = some c ∧
        ∀ x ∈ ([1, 2, 3] : List Individual), sampleFitness c ≥ sampleFitness x :=
  have h1 : ∀ y, 0 ≤ sampleFitness y := fun y => by simp [sampleFitness]
  have h2 : ∀ x s, sampleFitness (sampleEnv.clone x s).1 = sampleFitness x := by
    intro x s
    simp [sampleFitness, sampleEnv]
  ⟨by decide, by decide, h1, h2,
    (C4_best_fitness_never_decreases sampleEnv [1, 2, 3] 4 3 sampleFitness none none none
      ⟨[], []⟩ (by decide) (by decide) h1 h2).1⟩

/-! ### Filled slots -/

theorem Produced_ne_null {σ : Type} (env : Env σ) (crossover : Option (GACrossoverFnc σ))
    (mutate : Option (GAMutateFnc σ)) (x : Individual)
    (hclone : ∀ y s, (env.clone y s).1 ≠ NULL)
    (hco : ∀ co, crossover = some co → ∀ y1 y2 s, (co y1 y2 s).1 ≠ NULL)
    (hmu : ∀ mu, mutate = some mu → ∀ y s, (mu y s).1 ≠ NULL)
    (h : Produced env crossover mutate x) : x ≠ NULL := by
  rcases h with ⟨y, s, rfl⟩ | ⟨co, y1, y2, s, hc, rfl⟩ | ⟨mu, y, s, hm, rfl⟩
  · exact hclone y s
  · exact hco co hc y1 y2 s
  · exact hmu mu hm y s

/-- The individual that a completed slot stores is the result of `clone`, of the crossover or
of the mutation. -/
theorem nextSlot_produced {σ : Type} (env : Env σ) (pop : Population) (n : Int)
    (crossover : Option (GACrossoverFnc σ)) (mutate : Option (GAMutateFnc σ))
    (select : GASelectionFnc σ) (fa : Ptr ℚ) (T : ℚ) (w w1 : World σ)
    (p : Individual × Ptr ℚ)
    (h : nextSlot env pop n crossover mutate select fa T w = (.ok p, w1)) :
    Produced env crossover mutate p.1 := by
  cases hs : (select pop fa T n w.user).1 with
  | error e => simp [nextSlot, bind_run, callSelect_run, hs] at h
  | ok k =>
    cases hr : rd pop k with
    | error e => simp [nextSlot, bind_run, callSelect_run, hs, liftE_run, hr] at h
    | ok x1 =>
      cases crossover with
      | none =>
        cases mutate with
        | none =>
          simp only [nextSlot, bind_run, callSelect_run, hs, liftE_run, hr, callClone_run,
            pure_run] at h
          injection h with h1 h2
          injection h1 with h1
          subst h1
          exact Or.inl ⟨_, _, rfl⟩
        | some mu =>
          simp only [nextSlot, bind_run, callSelect_run, hs, liftE_run, hr, callClone_run,
            pure_run, callMutate_run] at h
          injection h with h1 h2
          injection h1 with h1
          subst h1
          exact Or.inr (Or.inr ⟨mu, _, _, rfl, rfl⟩)
      | some co =>
        cases ht : rd fa k with
        | error e =>
          simp [nextSlot, bind_run, callSelect_run, hs, liftE_run, hr, ht] at h
        | ok temp =>
          cases hw : wr fa k 0 with
          | error e =>
            simp [nextSlot, bind_run, callSelect_run, hs, liftE_run, hr, ht, hw] at h
          | ok fa1 =>
            cases hs2 : (select pop fa1 T n (select pop fa T n w.user).2).1 with
            | error e =>
              simp [nextSlot, bind_run, callSelect_run, hs, liftE_run, hr, ht, hw, hs2] at h
            | ok k2 =>
              cases hw2 : wr fa1 k temp with
              | error e =>
                simp [nextSlot, bind_run, callSelect_run, hs, liftE_run, hr, ht, hw, hs2,
                  hw2] at h
              | ok fa2 =>
                cases hr2 : rd pop k2 with
                | error e =>
                  simp [nextSlot, bind_run, callSelect_run, hs, liftE_run, hr, ht, hw, hs2,
                    hw2, hr2] at h
                | ok x2 =>
                  cases mutate with
                  | none =>
                    simp only [nextSlot, bind_run, callSelect_run, hs, liftE_run, hr, ht, hw,
                      hs2, hw2, hr2, callCrossover_run, pure_run] at h
                    injection h with h1 h2
                    injection h1 with h1
                    subst h1
                    exact Or.inr (Or.inl ⟨co, _, _, _, rfl, rfl⟩)
                  | some mu =>
                    simp only [nextSlot, bind_run, callSelect_run, hs, liftE_run, hr, ht, hw,
                      hs2, hw2, hr2, callCrossover_run, pure_run, callMutate_run] at h
                    injection h with h1 h2
                    injection h1 with h1
                    subst h1
                    exact Or.inr (Or.inr ⟨mu, _, _, rfl, rfl⟩)

theorem slotLoop_produced {σ : Type} (env : Env σ) (pop : Population) (sz : Int)
    (crossover : Option (GACrossoverFnc σ)) (mutate : Option (GAMutateFnc σ))
    (select : GASelectionFnc σ) (T : ℚ) :
    ∀ (n i : Nat) (fa : Ptr ℚ) (np : List Individual) (w w1 : World σ) (r : Population),
    slotLoop env pop sz crossover mutate select T n (i : Int) fa (some np) w = (.ok r, w1) →
    i + n = np.length →
    (∀ (k : Nat) (x : Individual), k < i → np[k]? = some x →
      Produced env crossover mutate x) →
    ∃ np1 : List Individual, r = some np1 ∧ np1.length = np.length ∧
      ∀ x ∈ np1, Produced env crossover mutate x := by
  intro n
  induction n with
  | zero =>
    intro i fa np w w1 r h hi hinv
    simp only [slotLoop, pure_run] at h
    injection h with h1 _
    injection h1 with h1
    refine ⟨np, h1.symm, rfl, ?_⟩
    intro x hx
    obtain ⟨k, hk, rfl⟩ := List.getElem_of_mem hx
    exact hinv k _ (by omega) (List.getElem?_eq_getElem hk)
  | succ n ih =>
    intro i fa np w w1 r h hi hinv
    rw [slotLoop] at h
    obtain ⟨⟨x1, fa1⟩, wa, h1, h2⟩ := bind_ok_inv h
    have hx1 := nextSlot_produced env pop sz crossover mutate select fa T w wa (x1, fa1) h1
    simp only at h2 hx1
    obtain ⟨np1, wb, h3, h4⟩ := bind_ok_inv h2
    obtain ⟨h5, _⟩ := liftE_ok_inv h3
    obtain ⟨h6, _, _⟩ := wr_ok_inv h5
    simp only [Int.toNat_ofNat] at h6
    subst h6
    have h4a : slotLoop env pop sz crossover mutate select T n (((i + 1 : Nat) : Int)) fa1
        (some (np.set i x1)) wb = (.ok r, w1) := by
      push_cast
      exact h4
    obtain ⟨np2, q1, q2, q3⟩ := ih (i + 1) fa1 (np.set i x1) wb w1 r h4a
      (by rw [List.length_set]; omega) (by
        intro k x hk hkx
        by_cases hki : k = i
        · subst hki
          rw [List.getElem?_set_eq_of_lt _ (by omega)] at hkx
          injection hkx with hkx
          rw [← hkx]
          exact hx1
        · rw [List.getElem?_set_ne (fun e => hki e.symm)] at hkx
          exact hinv k x (by omega) hkx)
    exact ⟨np2, q1, by rw [q2, List.length_set], q3⟩

/-- Every slot of a population that `GAnextGen` returns is filled: the population has
`newPopSz` cells and each of them holds the result of `clone`, of the crossover or of the
mutation. -/
theorem GAnextGen_produced {σ : Type} (env : Env σ) (currentPopulation : Population)
    (oldPopSz newPopSz : Int) (fitness : GAFitnessFnc)
    (crossover : Option (GACrossoverFnc σ)) (mutate : Option (GAMutateFnc σ))
    (select : GASelectionFnc σ) (keepOldPopulation : Int) (w : World σ) :
    Ensures (GAnextGen env currentPopulation oldPopSz newPopSz fitness crossover mutate select
      keepOldPopulation) w
      (fun r _ => ∀ l1 : List Individual, r = some l1 →
        (l1.length : Int) = newPopSz ∧ ∀ x ∈ l1, Produced env crossover mutate x) := by
  unfold GAnextGen
  refine Ensures.ensures_bind (Q := fun _ _ => True) (fun _ _ _ => trivial) ?_
  intro _ w1 _
  refine Ensures.ensures_bind (Q := fun np _ => np = none ∨
    np = some (List.replicate newPopSz.toNat NULL)) ?_ ?_
  · refine Ensures.ensures_of_eq (malloc_run env NULL newPopSz w1) ?_
    split_ifs
    · exact Or.inr rfl
    · exact Or.inl rfl
  intro np w2 hnp
  rcases hnp with hnp | hnp
  · subst hnp
    rw [if_pos rfl]
    exact Ensures.ensures_of_eq rfl (fun l1 h => Option.noConfusion h)
  subst hnp
  rw [if_neg (by simp)]
  refine Ensures.ensures_bind (Q := fun _ _ => True) (fun _ _ _ => trivial) ?_
  intro fa w3 _
  refine Ensures.ensures_bind (Q := fun _ _ => True) (fun _ _ _ => trivial) ?_
  rintro ⟨fa1, tot, best⟩ w4 _
  simp only
  refine Ensures.ensures_bind (Q := fun _ _ => True) (fun _ _ _ => trivial) ?_
  intro xbest w5 _
  refine Ensures.ensures_bind (Q := fun c _ => Produced env crossover mutate c)
    (Ensures.ensures_of_eq (callClone_run env xbest w5) (Or.inl ⟨_, _, rfl⟩)) ?_
  intro c w6 hc
  refine Ensures.ensures_bind (Q := fun np1 _ =>
    np1 = some ((List.replicate newPopSz.toNat NULL).set 0 c) ∧ 0 < newPopSz.toNat)
    (Ensures.ensures_liftE _ _ _ ?_) ?_
  · intro np1 hnp1
    obtain ⟨q1, _, q3⟩ := wr_ok_inv hnp1
    simp only [List.length_replicate, Int.toNat_zero] at q3 q1
    exact ⟨q1, q3⟩
  rintro np1 w7 ⟨hnp1, hpos⟩
  subst hnp1
  refine Ensures.ensures_bind (Q := fun np2 _ => ∃ l2 : List Individual, np2 = some l2 ∧
    l2.length = newPopSz.toNat ∧ ∀ x ∈ l2, Produced env crossover mutate x) ?_ ?_
  · intro r w8 hr
    have hr1 : slotLoop env currentPopulation oldPopSz crossover mutate select tot
        (newPopSz - 1).toNat (((1 : Nat) : Int)) fa1
        (some ((List.replicate newPopSz.toNat NULL).set 0 c)) w7 = (.ok r, w8) := hr
    obtain ⟨l2, q1, q2, q3⟩ := slotLoop_produced env currentPopulation oldPopSz crossover
      mutate select tot _ 1 fa1 _ w7 w8 r hr1
      (by rw [List.length_set, List.length_replicate]; omega) (by
        intro k x hk hkx
        have hk0 : k = 0 := by omega
        subst hk0
        rw [List.getElem?_set_eq_of_lt _ (by rw [List.length_replicate]; exact hpos)] at hkx
        injection hkx with hkx
        rw [← hkx]
        exact hc)
    exact ⟨l2, q1, by rw [q2, List.length_set, List.length_replicate], q3⟩
  rintro np2 w8 ⟨l2, hl2, hlen2, hprod⟩
  subst hl2
  have hfin : ∀ w9 : World σ, Ensures (pure (some l2) : M σ Population) w9
      (fun r _ => ∀ l1 : List Individual, r = some l1 →
        (l1.length : Int) = newPopSz ∧ ∀ x ∈ l1, Produced env crossover mutate x) := by
    intro w9
    refine Ensures.ensures_of_eq rfl ?_
    intro l1 h1
    injection h1 with h1
    subst h1
    exact ⟨by rw [hlen2]; omega, hprod⟩
  split_ifs
  · refine Ensures.ensures_bind (Q := fun _ _ => True) (fun _ _ _ => trivial) ?_
    intro _ _ _
    refine Ensures.ensures_bind (Q := fun _ _ => True) (fun _ _ _ => trivial) ?_
    intro _ w9 _
    exact hfin w9
  · refine Ensures.ensures_bind (Q := fun _ _ => True) (fun _ _ _ => trivial) ?_
    intro _ w9 _
    exact hfin w9

theorem GArunLoop_produced {σ : Type} (env : Env σ) (initPopSz popSz numGenerations : Int)
    (fitness : GAFitnessFnc) (crossover : Option (GACrossoverFnc σ))
    (mutate : Option (GAMutateFnc σ)) (callback : Option (GACallbackFnc σ)) :
    ∀ (fuel : Nat) (i : Int) (pop : Population) (w : World σ),
    Ensures (GArunLoop env initPopSz popSz numGenerations fitness crossover mutate callback
      fuel i pop) w
      (fun r _ => ∀ l1 : List Individual, r = some l1 →
        (l1.length : Int) = popSz ∧ ∀ x ∈ l1, Produced env crossover mutate x) := by
  intro fuel
  induction fuel with
  | zero =>
    intro i pop w
    exact Ensures.ensures_of_error (liftE_run (Except.error Err.fuel) w)
  | succ n ih =>
    intro i pop w
    rw [GArunLoop_succ]
    refine Ensures.ensures_bind (GAnextGen_produced env pop _ popSz fitness crossover mutate
      (GAselect env) 0 w) ?_
    intro pop1 w1 hpop1
    refine Ensures.ensures_bind (Q := fun _ _ => True) (fun _ _ _ => trivial) ?_
    intro stop w2 _
    by_cases hstop : (if i + 1 ≥ numGenerations then (1 : Int) else stop) = 0
    · rw [if_pos hstop]
      exact ih (i + 1) pop1 w2
    · rw [if_neg hstop]
      exact Ensures.ensures_of_eq rfl hpop1

/-- Every slot of the population that `GArun` returns is filled. -/
theorem GArun_produced {σ : Type} (env : Env σ) (initialPopulation : Population)
    (initPopSz popSz numGenerations : Int) (fitness : GAFitnessFnc)
    (crossover : Option (GACrossoverFnc σ)) (mutate : Option (GAMutateFnc σ))
    (callback : Option (GACallbackFnc σ)) (w : World σ) (hp : 1 ≤ popSz) :
    Ensures (GArun env initialPopulation initPopSz popSz numGenerations fitness crossover
      mutate callback) w
      (fun r _ => ∃ l1 : List Individual, r = some l1 ∧ (l1.length : Int) = popSz ∧
        ∀ x ∈ l1, Produced env crossover mutate x) := by
  unfold GArun
  refine Ensures.ensures_bind (Q := fun _ _ => True) (fun _ _ _ => trivial) ?_
  intro _ w1 _
  refine Ensures.ensures_bind (GArunLoop_produced env initPopSz popSz numGenerations fitness
    crossover mutate callback _ 0 initialPopulation w1) ?_
  intro pop w2 hpop
  cases pop with
  | none => exact GAsort_null env fitness popSz w2 hp _
  | some l =>
    obtain ⟨hlen, hprod⟩ := hpop l rfl
    rw [← hlen]
    refine (GAsort_ensures env fitness l w2 (by omega)).ensures_mono ?_
    rintro r _ ⟨l1, q1, q2, _⟩
    exact ⟨l1, q1, by rw [q2.length_eq], fun x hx => hprod x ((q2.mem_iff).1 hx)⟩

/-- C5: the population returned by `GArun` has exactly `popSz` individuals, for every initial
population of size `initPopSz ≥ 1`, every `popSz ≥ 1`, every `numGenerations` and every
callback (or none): the returned array has `popSz` cells and every cell is filled, that is, it
holds the result of a call of `clone`, of the crossover or of the mutation (so no cell is
`NULL` when these never return `NULL`); `GArun` does return when allocations succeed. In
particular each `GAnextGen` call on a population of size `≥ 1` that returns a population
returns one of exactly `newPopSz` filled slots (it returns the null pointer only when the
allocation of the new array fails), and it does return a population when allocations succeed
and the selector returns valid indices. -/
theorem C5_population_size {σ : Type} (env : Env σ) (l0 : List Individual)
    (popSz numGenerations : Int) (fitness : GAFitnessFnc)
    (crossover : Option (GACrossoverFnc σ)) (mutate : Option (GAMutateFnc σ))
    (callback : Option (GACallbackFnc σ)) (w : World σ)
    (hl0 : 1 ≤ l0.length) (hp : 1 ≤ popSz) :
    ((∀ r, (GArun env (some l0) l0.length popSz numGenerations fitness crossover mutate
        callback w).1 = .ok r →
        ∃ l1 : List Individual, r = some l1 ∧ (l1.length : Int) = popSz ∧
          (∀ x ∈ l1, Produced env crossover mutate x) ∧
          ((∀ y s, (env.clone y s).1 ≠ NULL) →
            (∀ co, crossover = some co → ∀ y1 y2 s, (co y1 y2 s).1 ≠ NULL) →
            (∀ mu, mutate = some mu → ∀ y s, (mu y s).1 ≠ NULL) →
            ∀ x ∈ l1, x ≠ NULL)) ∧
      (AllocOk env →
        ∃ l1, (GArun env (some l0) l0.length popSz numGenerations fitness crossover mutate
          callback w).1 = .ok (some l1))) ∧
    (∀ (select : GASelectionFnc σ) (keepOldPopulation : Int) (w1 : World σ),
      (∀ r, (GAnextGen env (some l0) l0.length popSz fitness crossover mutate select
          keepOldPopulation w1).1 = .ok r →
        (r = none ∧ (env.malloc popSz w1.user).1 = false) ∨
          ∃ l1 : List Individual, r = some l1 ∧ (l1.length : Int) = popSz ∧
            (∀ x ∈ l1, Produced env crossover mutate x) ∧
            ((∀ y s, (env.clone y s).1 ≠ NULL) →
              (∀ co, crossover = some co → ∀ y1 y2 s, (co y1 y2 s).1 ≠ NULL) →
              (∀ mu, mutate = some mu → ∀ y s, (mu y s).1 ≠ NULL) →
              ∀ x ∈ l1, x ≠ NULL)) ∧
      (AllocOk env → SelectorOk select l0.length →
        ∃ l1, (GAnextGen env (some l0) l0.length popSz fitness crossover mutate select
          keepOldPopulation w1).1 = .ok (some l1))) := by
  refine ⟨⟨?_, ?_⟩, ?_⟩
  · intro r hr
    obtain ⟨l1, h1, h2, h3⟩ := GArun_produced env (some l0) l0.length popSz numGenerations
      fitness crossover mutate callback w hp r _ (run_eq_of_fst hr)
    exact ⟨l1, h1, h2, h3, fun hc hco hmu x hx =>
      Produced_ne_null env crossover mutate x hc hco hmu (h3 x hx)⟩
  · intro halloc
    obtain ⟨r, w1, h1, l1, h2⟩ := GArun_returns env l0 popSz numGenerations fitness crossover
      mutate callback w halloc hl0 hp
    exact ⟨l1, by rw [h1, h2]⟩
  · intro select keep w1
    constructor
    · intro r hr
      have h := GAnextGen_ensures env l0 popSz fitness crossover mutate select keep w1 hl0 r _
        (run_eq_of_fst hr)
      rcases h with h | ⟨l1, b, s, h1, h2, _⟩
      · exact Or.inl h
      · obtain ⟨_, h3⟩ := GAnextGen_produced env (some l0) l0.length popSz fitness crossover
          mutate select keep w1 r _ (run_eq_of_fst hr) l1 h1
        exact Or.inr ⟨l1, h1, h2, h3, fun hc hco hmu x hx =>
          Produced_ne_null env crossover mutate x hc hco hmu (h3 x hx)⟩
    · intro halloc hsel
      obtain ⟨r, w2, h1, l1, h2⟩ := GAnextGen_returns env l0 popSz fitness crossover mutate
        select keep w1 hl0 hp halloc hsel
      exact ⟨l1, by rw [h1, h2]⟩

/-- Witness of C5: a run of `3` generations from the population `[1, 2, 3]` to steady size
`4` in the sample environment returns `4` filled slots, none of them `NULL`. -/
theorem C5_population_size_witness :
    1 ≤ ([1, 2, 3] : List Individual).length ∧ (1 : Int) ≤ 4 ∧
    (∀ r, (GArun sampleEnv (some [1, 2, 3]) (([1, 2, 3] : List Individual).length : Int) 4 3
        sampleFitness none none none ⟨[], []⟩).1 = .ok r →
      ∃ l1 : List Individual, r = some l1 ∧ (l1.length : Int) = 4 ∧
        (∀ x ∈ l1, Produced sampleEnv none none x) ∧
        ((∀ y s, (sampleEnv.clone y s).1 ≠ NULL) →
          (∀ co, (none : Option (GACrossoverFnc (List ℚ))) = some co →
            ∀ y1 y2 s, (co y1 y2 s).1 ≠ NULL) →
          (∀ mu, (none : Option (GAMutateFnc (List ℚ))) = some mu →
            ∀ y s, (mu y s).1 ≠ NULL) →
          ∀ x ∈ l1, x ≠ NULL)) ∧
    (∀ y s, (sampleEnv.clone y s).1 ≠ NULL) :=
  ⟨by decide, by decide,
    (C5_population_size sampleEnv [1, 2, 3] 4 3 sampleFitness none none none ⟨[], []⟩
      (by decide) (by decide)).1.1,
    fun y _ => Nat.succ_ne_zero (y + 99)⟩

/-- C6: early stop. For every `g` and `numGenerations` with `0 ≤ g < numGenerations - 1`, if
the callback returns `0` at generations `0..g-1` and a non-zero value at generation `g`, then
whenever `GArun` returns, its log is: a part with exactly `g + 1` calls of `GAnextGen` (not
`numGenerations`), then the call of `GAsort` on the final population, then only calls made by
that ranking. `GArun` does return, with a population of `popSz` individuals, when the initial
population has size `≥ 1`, `popSz ≥ 1` and allocations succeed. -/
theorem C6_early_stop {σ : Type} (env : Env σ) (l0 : List Individual)
    (popSz numGenerations : Int) (fitness : GAFitnessFnc)
    (crossover : Option (GACrossoverFnc σ)) (mutate : Option (GAMutateFnc σ))
    (cb : GACallbackFnc σ) (g : Nat) (w : World σ)
    (hg : (g : Int) < numGenerations - 1)
    (hcont : ∀ i : Int, 0 ≤ i → i < g → ∀ pop sz s, (cb i pop sz s).1 = 0)
    (hstop : ∀ pop sz s, (cb g pop sz s).1 ≠ 0) :
    (∀ r, (GArun env (some l0) l0.length popSz numGenerations fitness crossover mutate
        (some cb) w).1 = .ok r →
      ∃ (es : List Event) (pop : Population) (es2 : List Event),
        (GArun env (some l0) l0.length popSz numGenerations fitness crossover mutate (some cb)
          w).2.log = w.log ++ es ++ Event.GAsort pop popSz :: es2 ∧
        nextGenCalls es = g + 1 ∧ ∀ e ∈ es2, e.inner = true) ∧
    (AllocOk env → 1 ≤ l0.length → 1 ≤ popSz →
      ∃ l1 : List Individual,
        (GArun env (some l0) l0.length popSz numGenerations fitness crossover mutate (some cb)
          w).1 = .ok (some l1) ∧ (l1.length : Int) = popSz) := by
  constructor
  · intro r hr
    exact GArun_count env (some l0) l0.length popSz numGenerations fitness crossover mutate cb g
      w hg hcont hstop r _ (run_eq_of_fst hr)
  · intro halloc hl0 hp
    obtain ⟨r, w1, h1, ⟨l1, h2, h3⟩, _⟩ := GArun_early_stop env l0 popSz
      numGenerations fitness crossover mutate cb g w halloc hl0 hp hg hcont hstop
    exact ⟨l1, by rw [h1, h2], h3⟩

/-- Witness of C6: the callback `stopAt 1` in a run configured for `5` generations. -/
theorem C6_early_stop_witness :
    ((1 : Nat) : Int) < 5 - 1 ∧
    (∀ i : Int, 0 ≤ i → i < (1 : Nat) →
      ∀ pop sz s, ((stopAt 1 : GACallbackFnc (List ℚ)) i pop sz s).1 = 0) ∧
    (∀ pop sz s, ((stopAt 1 : GACallbackFnc (List ℚ)) (1 : Nat) pop sz s).1 ≠ 0) ∧
    AllocOk sampleEnv ∧ 1 ≤ ([1, 2, 3] : List Individual).length ∧ (1 : Int) ≤ 4 ∧
    ∃ l1 : List Individual,
      (GArun sampleEnv (some [1, 2, 3]) (([1, 2, 3] : List Individual).length : Int) 4 5
        sampleFitness none none (some (stopAt 1)) ⟨[], []⟩).1 = .ok (some l1) ∧
      (l1.length : Int) = 4 :=
  have h1 : AllocOk sampleEnv := fun _ _ => rfl
  have h2 : ∀ i : Int, 0 ≤ i → i < (1 : Nat) →
      ∀ pop sz s, ((stopAt 1 : GACallbackFnc (List ℚ)) i pop sz s).1 = 0 := by
    intro i _ hi pop sz s
    have : i ≠ 1 := by omega
    simp [stopAt, this]
  have h3 : ∀ pop sz s, ((stopAt 1 : GACallbackFnc (List ℚ)) (1 : Nat) pop sz s).1 ≠ 0 := by
    intro pop sz s
    simp [stopAt]
  ⟨by decide, h2, h3, h1, by decide, by decide,
    (C6_early_stop sampleEnv [1, 2, 3] 4 5 sampleFitness none none (stopAt 1) 1 ⟨[], []⟩
      (by decide) h2 h3).2 h1 (by decide) (by decide)⟩

/-- C7 fails on the code: `GAnextGen` at an aliasing crossover. The old population `[1, 2]`
holds pairwise distinct non-null individuals and `keepOldPopulation` is `0`. The crossover
`firstParent` returns its first parent. `GAnextGen` returns the new population `[102, 2]`,
whose slot `1` holds the old individual `2`, and it has called `deleteIndividual` on that
individual: the log of `deleteIndividual` calls is `1, 2`. -/
theorem C7_deletes_member_of_new_population :
    ([1, 2] : List Individual).Nodup ∧ (∀ x ∈ ([1, 2] : List Individual), x ≠ NULL) ∧
    (GAnextGen sampleEnv (some [1, 2]) 2 2 sampleFitness (some firstParent) none
      (GAselect sampleEnv) 0 ⟨[1 / 2, 1 / 2], []⟩).1 = .ok (some [102, 2]) ∧
    (GAnextGen sampleEnv (some [1, 2]) 2 2 sampleFitness (some firstParent) none
      (GAselect sampleEnv) 0 ⟨[1 / 2, 1 / 2], []⟩).2.log =
      [Event.GAnextGen (some [1, 2]) 2 2 0, Event.fitness 1, Event.fitness 2, Event.clone 2,
        Event.select (some [1, 2]) (some [1, 2]) 3 2,
        Event.select (some [1, 2]) (some [1, 0]) 3 2, Event.crossover 2 2,
        Event.deleteIndividual 1, Event.deleteIndividual 2, Event.free (some [1, 2])] ∧
    (2 : Individual) ∈ ([102, 2] : List Individual) := by
  refine ⟨by decide, by decide, by decide!, by decide!, by decide⟩


/-! ## Properties of the specification (C11 to C20) -/

theorem GAselectLoop_over (fitnessValues : Ptr ℚ) (randNum : ℚ) :
    ∀ (n : Nat) (total : ℚ) (i : Int),
    GAselectLoop n fitnessValues randNum total i =
      GAselectLoopOver ratArith n fitnessValues randNum total i := by
  intro n
  induction n with
  | zero => intro total i; rfl
  | succ n ih =>
    intro total i
    unfold GAselectLoop GAselectLoopOver
    cases h : rd fitnessValues i with
    | error e => rfl
    | ok f =>
      simp only [bind, Except.bind, ratArith, Bool.and_eq_true, decide_eq_true_eq]
      by_cases hc : total < randNum ∧ randNum < total + f
      · rw [if_pos hc, if_pos hc]
      · rw [if_neg hc, if_neg hc]
        exact ih _ _

theorem cumul_zero (fv : List ℚ) (hz : ∀ x ∈ fv, x = 0) (i : Nat) : cumul fv i = 0 := by
  unfold cumul
  exact List.sum_eq_zero (fun x hx => hz x (List.mem_of_mem_take hx))

/-- C11: when every fitness value is `0` and `sumOfFitness = 0`, `GAselect` returns
`popSz - 1` for every population size `popSz ≥ 1` and every random value (every generator
`env.mtrand` and state `s`); and on every input `GAselect` is the instance at the rationals of
`GAselectOver`, which is written with `0`, sum, product and strict comparison only, so that
its computation performs no division. -/
theorem C11_GAselect_zero_total {σ : Type} (env : Env σ) (population : Population)
    (fv : List ℚ) (s : σ) (hn : 1 ≤ fv.length) (hz : ∀ x ∈ fv, x = 0) :
    (GAselect env population (some fv) 0 fv.length s).1 = .ok ((fv.length : Int) - 1) ∧
    ∀ (fitnessValues : Ptr ℚ) (sumOfFitness : ℚ) (popSz : Int) (t : σ),
      GAselect env population fitnessValues sumOfFitness popSz t =
        GAselectOver ratArith env.mtrand population fitnessValues sumOfFitness popSz t := by
  constructor
  · obtain ⟨r, h1, h2, _, h4⟩ := GAselect_spec env population fv 0 s hn
    by_cases hr : r < fv.length - 1
    · have h := (h4 hr).1
      rw [cumul_zero fv hz, mul_zero] at h
      exact absurd h (lt_irrefl _)
    · have e : (r : Int) = (fv.length : Int) - 1 := by omega
      rw [h1, e]
  · intro fitnessValues sumOfFitness popSz t
    simp only [GAselect, GAselectOver, GAselectLoop_over]
    rfl

/-- Witness of C11: three fitness values `0` and the random value `1/2`. -/
theorem C11_GAselect_zero_total_witness :
    (GAselect sampleEnv (some [1, 2, 3]) (some [0, 0, 0]) 0 3 [1 / 2]).1 = .ok 2 :=
  (C11_GAselect_zero_total sampleEnv (some [1, 2, 3]) [0, 0, 0] [1 / 2] (by decide)
    (by simp)).1

/-- C12: for `popSz = 1`, `GAselect` returns `0` for every fitness array (a null one
included), every `sumOfFitness` and every random value. -/
theorem C12_GAselect_single {σ : Type} (env : Env σ) (population : Population)
    (fitnessValues : Ptr ℚ) (sumOfFitness : ℚ) (s : σ) :
    (GAselect env population fitnessValues sumOfFitness 1 s).1 = .ok 0 := by
  have e : ((1 : Int) - 1).toNat = 0 := by decide
  simp only [GAselect, e]
  rfl

/-- When the weight of index `k` is set to `0` and `k` is not the last index, `GAselect` does
not return `k`. -/
theorem GAselect_zeroed_ne {σ : Type} (env : Env σ) (population : Population) (fv : List ℚ)
    (sumOfFitness : ℚ) (s : σ) (k : Nat) (hk : k + 1 < fv.length) (r : Int)
    (h : (GAselect env population (some (fv.set k 0)) sumOfFitness fv.length s).1 = .ok r) :
    r ≠ k := by
  have hlen : (fv.set k 0).length = fv.length := List.length_set _ _ _
  obtain ⟨r1, h1, _, _, h4⟩ :=
    GAselect_spec env population (fv.set k 0) sumOfFitness s (by rw [hlen]; omega)
  rw [hlen] at h1 h4
  rw [h1] at h
  injection h with h
  subst h
  intro e
  have e1 : r1 = k := by exact_mod_cast e
  subst e1
  obtain ⟨q1, q2⟩ := h4 (by omega)
  have z : (fv.set r1 0).getD r1 0 = 0 := by
    simp only [List.getD_eq_getElem?_getD, List.getElem?_set, if_true]
    split <;> rfl
  rw [z, add_zero] at q2
  exact absurd (lt_trans q1 q2) (lt_irrefl _)

/-- C13 fails on the code: the second parent can be the first parent. The old population
`[1, 2, 3]` holds three distinct individuals of fitness `1, 2, 3`, all positive, and both
random values are `3/4`. The first selection, on the weights `[1, 2, 3]` with total `6`,
returns `k = 2`. The second selection, on the weights `[1, 2, 0]` with the same total `6`,
returns `k2 = 2` again, and `crossover` is called on the pair `(3, 3)`. -/
theorem C13_second_parent_is_first :
    ([1, 2, 3] : List Individual).Nodup ∧
    (∀ x ∈ ([1, 2, 3] : List Individual), 0 < clamped sampleFitness x) ∧
    GAselect sampleEnv (some [1, 2, 3]) (some [1, 2, 3]) 6 3 [3 / 4, 3 / 4] =
      (.ok 2, [3 / 4]) ∧
    GAselect sampleEnv (some [1, 2, 3]) (some [1, 2, 0]) 6 3 [3 / 4] = (.ok 2, []) ∧
    (GAnextGen sampleEnv (some [1, 2, 3]) 3 2 sampleFitness (some blend) none
      (GAselect sampleEnv) 1 ⟨[3 / 4, 3 / 4], []⟩).1 = .ok (some [103, 206]) ∧
    (GAnextGen sampleEnv (some [1, 2, 3]) 3 2 sampleFitness (some blend) none
      (GAselect sampleEnv) 1 ⟨[3 / 4, 3 / 4], []⟩).2.log =
      [Event.GAnextGen (some [1, 2, 3]) 3 2 1, Event.fitness 1, Event.fitness 2,
        Event.fitness 3, Event.clone 3,
        Event.select (some [1, 2, 3]) (some [1, 2, 3]) 6 3,
        Event.select (some [1, 2, 3]) (some [1, 2, 0]) 6 3, Event.crossover 3 3] := by
  refine ⟨by decide, by decide!, by decide!, by decide!, by decide!, by decide!⟩

/-! ### The calls of the selector -/

theorem rd_ok_inv {β : Type} {l : List β} {i : Int} {v : β} (h : rd (some l) i = .ok v) :
    0 ≤ i ∧ i.toNat < l.length ∧ l[i.toNat]? = some v := by
  unfold rd at h
  simp only at h
  by_cases hc : 0 ≤ i
  · rw [if_pos hc] at h
    cases hv : l[i.toNat]? with
    | none => rw [hv] at h; exact Except.noConfusion h
    | some u =>
      rw [hv] at h
      injection h with h
      subst h
      exact ⟨hc, (List.getElem?_eq_some_iff.1 hv).1, rfl⟩
  · rw [if_neg hc] at h
    exact Except.noConfusion h

theorem set_zero_set_back (arr : List ℚ) (k : Nat) (v : ℚ) (hv : arr[k]? = some v) :
    (arr.set k 0).set k v = arr := by
  rw [List.set_set]
  apply List.ext_getElem?
  intro j
  rw [List.getElem?_set]
  split_ifs with h1 h2
  · subst h1; exact hv.symm
  · subst h1
    rw [List.getElem?_eq_none (by omega)]
  · rfl

/-- One slot, whenever it is completed: the fitness array is handed back as it was received,
and the calls made are those of `SlotCalls`. -/
theorem nextSlot_calls {σ : Type} (env : Env σ) (pop : Population) (n : Int)
    (crossover : Option (GACrossoverFnc σ)) (mutate : Option (GAMutateFnc σ))
    (select : GASelectionFnc σ) (arr : List ℚ) (T : ℚ) (w w1 : World σ)
    (p : Individual × Ptr ℚ)
    (h : nextSlot env pop n crossover mutate select (some arr) T w = (.ok p, w1)) :
    p.2 = some arr ∧ ∃ es, w1.log = w.log ++ es ∧ SlotCalls pop arr T n es := by
  cases hs : (select pop (some arr) T n w.user).1 with
  | error e => simp [nextSlot, bind_run, callSelect_run, hs] at h
  | ok k =>
    cases hr : rd pop k with
    | error e => simp [nextSlot, bind_run, callSelect_run, hs, liftE_run, hr] at h
    | ok x1 =>
      cases crossover with
      | none =>
        cases mutate with
        | none =>
          simp only [nextSlot, bind_run, callSelect_run, hs, liftE_run, hr, callClone_run,
            pure_run] at h
          injection h with h1 h2
          injection h1 with h1
          subst h1; subst h2
          exact ⟨rfl, [Event.select pop (some arr) T n, Event.clone x1], by simp,
            [Event.clone x1], rfl, Or.inl (by simp [Event.isSelect])⟩
        | some mu =>
          simp only [nextSlot, bind_run, callSelect_run, hs, liftE_run, hr, callClone_run,
            pure_run, callMutate_run] at h
          injection h with h1 h2
          injection h1 with h1
          subst h1; subst h2
          exact ⟨rfl, [Event.select pop (some arr) T n, Event.clone x1,
            Event.mutate (env.clone x1 (select pop (some arr) T n w.user).2).1], by simp,
            _, rfl, Or.inl (by simp [Event.isSelect])⟩
      | some co =>
        cases ht : rd (some arr) k with
        | error e =>
          simp [nextSlot, bind_run, callSelect_run, hs, liftE_run, hr, ht] at h
        | ok temp =>
          obtain ⟨hk0, hk1, hk2⟩ := rd_ok_inv ht
          have hw := wr_some arr k 0 hk0 (by omega)
          have hw2 : wr (some (arr.set k.toNat 0)) k temp = .ok (some arr) := by
            rw [wr_some _ _ _ hk0 (by rw [List.length_set]; omega),
              set_zero_set_back arr _ _ hk2]
          cases hs2 : (select pop (some (arr.set k.toNat 0)) T n
              (select pop (some arr) T n w.user).2).1 with
          | error e =>
            simp [nextSlot, bind_run, callSelect_run, hs, liftE_run, hr, ht, hw, hs2] at h
          | ok k2 =>
            cases hr2 : rd pop k2 with
            | error e =>
              simp [nextSlot, bind_run, callSelect_run, hs, liftE_run, hr, ht, hw, hs2, hw2,
                hr2] at h
            | ok x2 =>
              cases mutate with
              | none =>
                simp only [nextSlot, bind_run, callSelect_run, hs, liftE_run, hr, ht, hw, hs2,
                  hw2, hr2, callCrossover_run, pure_run] at h
                injection h with h1 h2
                injection h1 with h1
                subst h1; subst h2
                exact ⟨rfl, [Event.select pop (some arr) T n,
                  Event.select pop (some (arr.set k.toNat 0)) T n, Event.crossover x1 x2],
                  by simp, _, rfl,
                  Or.inr ⟨k.toNat, [Event.crossover x1 x2], rfl, by simp [Event.isSelect]⟩⟩
              | some mu =>
                simp only [nextSlot, bind_run, callSelect_run, hs, liftE_run, hr, ht, hw, hs2,
                  hw2, hr2, callCrossover_run, pure_run, callMutate_run] at h
                injection h with h1 h2
                injection h1 with h1
                subst h1; subst h2
                exact ⟨rfl, [Event.select pop (some arr) T n,
                  Event.select pop (some (arr.set k.toNat 0)) T n, Event.crossover x1 x2,
                  Event.mutate (co x1 x2 (select pop (some (arr.set k.toNat 0)) T n
                    (select pop (some arr) T n w.user).2).2).1],
                  by simp, _, rfl,
                  Or.inr ⟨k.toNat, _, rfl, by simp [Event.isSelect]⟩⟩

theorem slotLoop_calls {σ : Type} (env : Env σ) (pop : Population) (sz : Int)
    (crossover : Option (GACrossoverFnc σ)) (mutate : Option (GAMutateFnc σ))
    (select : GASelectionFnc σ) (T : ℚ) (arr : List ℚ) :
    ∀ (n : Nat) (i : Int) (np : Population) (w w1 : World σ) (r : Population),
    slotLoop env pop sz crossover mutate select T n i (some arr) np w = (.ok r, w1) →
    ∃ slots : List (List Event), w1.log = w.log ++ slots.flatten ∧ slots.length = n ∧
      ∀ es ∈ slots, SlotCalls pop arr T sz es := by
  intro n
  induction n with
  | zero =>
    intro i np w w1 r h
    simp only [slotLoop, pure_run] at h
    injection h with _ h2
    subst h2
    exact ⟨[], by simp, rfl, by simp⟩
  | succ n ih =>
    intro i np w w1 r h
    rw [slotLoop] at h
    obtain ⟨⟨x1, fa1⟩, wa, h1, h2⟩ := bind_ok_inv h
    obtain ⟨hfa, es, hlog, hsc⟩ := nextSlot_calls env pop sz crossover mutate select arr T w wa
      (x1, fa1) h1
    simp only at hfa h2
    subst hfa
    obtain ⟨np1, wb, h3, h4⟩ := bind_ok_inv h2
    obtain ⟨_, hwb⟩ := liftE_ok_inv h3
    subst hwb
    obtain ⟨slots, q1, q2, q3⟩ := ih _ _ _ _ _ h4
    refine ⟨es :: slots, ?_, by simp [q2], ?_⟩
    · rw [q1, hlog, List.flatten_cons, List.append_assoc]
    · intro es1 hes1
      rcases List.mem_cons.1 hes1 with e | e
      · subst e; exact hsc
      · exact q3 es1 e

theorem deleteLoop_emits_of {σ : Type} (P : Event → Prop)
    (hP : ∀ x, P (Event.deleteIndividual x)) (env : Env σ) (currentPopulation : Population) :
    ∀ (n : Nat) (i : Int), Emits P (deleteLoop env currentPopulation n i) := by
  intro n
  induction n with
  | zero => intro i; exact Emits.emits_pure _ _
  | succ n ih =>
    intro i
    rw [deleteLoop]
    refine Emits.emits_bind (Emits.emits_liftE _ _) (fun x => ?_)
    split_ifs
    · exact Emits.emits_bind
        (Emits.emits_bind (Emits.emits_logEvent (hP x)) (fun _ => Emits.emits_call _ _))
        (fun _ => ih _)
    · exact Emits.emits_bind (Emits.emits_pure _ _) (fun _ => ih _)

theorem Emits.emits_ensures {σ β : Type} {P : Event → Prop} {m : M σ β} (h : Emits P m)
    (w : World σ) : Ensures m w (fun _ w1 => ∃ es, w1.log = w.log ++ es ∧ ∀ e ∈ es, P e) :=
  Ensures.ensures_of_world (h w)

theorem GAnextGen_selects {σ : Type} (env : Env σ) (l : List Individual) (newPopSz : Int)
    (fitness : GAFitnessFnc) (crossover : Option (GACrossoverFnc σ))
    (mutate : Option (GAMutateFnc σ)) (select : GASelectionFnc σ) (keepOldPopulation : Int)
    (w : World σ) (hl : 1 ≤ l.length) :
    Ensures (GAnextGen env (some l) l.length newPopSz fitness crossover mutate select
      keepOldPopulation) w
      (fun r w1 => r = none ∨ ∃ (pre : List Event) (slots : List (List Event))
        (post : List Event),
        w1.log = w.log ++ pre ++ slots.flatten ++ post ∧
        (∀ e ∈ pre, e.isSelect = false) ∧ (∀ e ∈ post, e.isSelect = false) ∧
        slots.length = (newPopSz - 1).toNat ∧
        ∀ es ∈ slots, SlotCalls (some l) (l.map (clamped fitness))
          (l.map (clamped fitness)).sum l.length es) := by
  unfold GAnextGen
  refine Ensures.ensures_bind
    (Q := fun _ w1 => w1.log = w.log ++ [Event.GAnextGen (some l) l.length newPopSz
      keepOldPopulation])
    (Ensures.ensures_of_eq (logEvent_run _ _) rfl) ?_
  intro _ w1 hw1
  refine Ensures.ensures_bind (Q := fun _ w2 => w2.log = w1.log)
    (Ensures.ensures_of_eq (malloc_run env NULL newPopSz w1) rfl) ?_
  intro np w2 hw2
  by_cases hnp : np = none
  · rw [if_pos hnp]
    exact Ensures.ensures_of_eq rfl (Or.inl rfl)
  rw [if_neg hnp]
  refine Ensures.ensures_bind (Q := fun fa w3 => w3.log = w2.log ∧ (fa = none ∨
    fa = some (List.replicate l.length (0 : ℚ)))) ?_ ?_
  · refine Ensures.ensures_of_eq (malloc_run env (0 : ℚ) l.length w2) ⟨rfl, ?_⟩
    split_ifs
    · exact Or.inr (by simp)
    · exact Or.inl rfl
  rintro fa w3 ⟨hw3, hfa⟩
  obtain ⟨n, hn⟩ : ∃ n, l.length = n + 1 := ⟨l.length - 1, by omega⟩
  rcases hfa with hfa | hfa
  · subst hfa
    obtain ⟨e, w4, h⟩ := fitnessLoop_null fitness (some l) n 0 0 0 w3
    simp only [Int.toNat_ofNat, hn]
    exact Ensures.ensures_bind (Q := fun _ _ => False) (Ensures.ensures_of_error h)
      (fun _ _ hf => False.elim hf)
  subst hfa
  obtain ⟨b, hb1, _⟩ := fitnessLoop_spec fitness l l.length 0 0
    (List.replicate l.length (0 : ℚ)) 0 w3 (by omega) (by simp) (fun k hk => by omega)
    (Or.inl ⟨rfl, rfl⟩)
  simp only [Int.toNat_ofNat]
  refine Ensures.ensures_bind
    (Q := fun p w4 => p.1 = some (l.map (clamped fitness)) ∧
      p.2.1 = (l.map (clamped fitness)).sum ∧ w4.log = w3.log ++ l.map Event.fitness)
    (Ensures.ensures_of_eq hb1 ⟨rfl, by simp, by simp⟩) ?_
  rintro ⟨fa, tot, best⟩ w4 ⟨hfa, htot, hw4⟩
  simp only at hfa htot
  subst hfa; subst htot
  simp only
  refine Ensures.ensures_bind (Q := fun _ w5 => w5.log = w4.log)
    (Ensures.ensures_liftE _ _ _ (fun _ _ => rfl)) ?_
  intro x w5 hw5
  refine Ensures.ensures_bind (Q := fun _ w6 => w6.log = w5.log ++ [Event.clone x])
    (Ensures.ensures_of_eq (callClone_run env _ w5) rfl) ?_
  intro c w6 hw6
  refine Ensures.ensures_bind (Q := fun _ w7 => w7.log = w6.log)
    (Ensures.ensures_liftE _ _ _ (fun _ _ => rfl)) ?_
  intro np1 w7 hw7
  refine Ensures.ensures_bind (Q := fun _ w8 => ∃ slots : List (List Event),
    w8.log = w7.log ++ slots.flatten ∧ slots.length = (newPopSz - 1).toNat ∧
    ∀ es ∈ slots, SlotCalls (some l) (l.map (clamped fitness))
      (l.map (clamped fitness)).sum l.length es) ?_ ?_
  · intro r w8 hr
    exact slotLoop_calls env (some l) l.length crossover mutate select _ _ _ 1 np1 w7 w8 r hr
  rintro np2 w8 ⟨slots, hw8, hlen, hslots⟩
  have hpre : w8.log = w.log ++ (Event.GAnextGen (some l) l.length newPopSz
      keepOldPopulation :: (l.map Event.fitness ++ [Event.clone x])) ++ slots.flatten := by
    rw [hw8, hw7, hw6, hw5, hw4, hw3, hw2, hw1]
    simp
  have hfin : ∀ m : M σ Population, Emits (fun e => e.isSelect = false) m →
      Ensures m w8 (fun r w1 => r = none ∨ ∃ (pre : List Event) (slots : List (List Event))
        (post : List Event),
        w1.log = w.log ++ pre ++ slots.flatten ++ post ∧
        (∀ e ∈ pre, e.isSelect = false) ∧ (∀ e ∈ post, e.isSelect = false) ∧
        slots.length = (newPopSz - 1).toNat ∧
        ∀ es ∈ slots, SlotCalls (some l) (l.map (clamped fitness))
          (l.map (clamped fitness)).sum l.length es) := by
    intro m hm
    refine Ensures.ensures_mono (hm.emits_ensures w8) ?_
    rintro r w9 ⟨post, hw9, hpost⟩
    refine Or.inr ⟨_, slots, post, by rw [hw9, hpre], ?_, hpost, hlen, hslots⟩
    intro e he
    rcases List.mem_cons.1 he with e1 | e1
    · subst e1; rfl
    · rcases List.mem_append.1 e1 with e2 | e2
      · obtain ⟨y, _, hy⟩ := List.mem_map.1 e2
        subst hy; rfl
      · rw [List.mem_singleton.1 e2]; rfl
  apply hfin
  split_ifs
  · exact Emits.emits_bind
      (deleteLoop_emits_of (fun e => e.isSelect = false) (fun _ => rfl) env _ _ _)
      (fun _ => Emits.emits_bind (Emits.emits_logEvent rfl) (fun _ => Emits.emits_pure _ _))
  · exact Emits.emits_bind (Emits.emits_pure _ _) (fun _ => Emits.emits_pure _ _)

/-- On an empty old population `GAnextGen` returns no population: it reads
`currentPopulation[0]`. -/
theorem GAnextGen_empty {σ : Type} (env : Env σ) (newPopSz : Int)
    (fitness : GAFitnessFnc) (crossover : Option (GACrossoverFnc σ))
    (mutate : Option (GAMutateFnc σ)) (select : GASelectionFnc σ) (keepOldPopulation : Int)
    (w : World σ) :
    Ensures (GAnextGen env (some []) 0 newPopSz fitness crossover mutate select
      keepOldPopulation) w (fun r _ => r = none) := by
  unfold GAnextGen
  refine Ensures.ensures_bind (Q := fun _ _ => True) (fun _ _ _ => trivial) ?_
  intro _ w1 _
  refine Ensures.ensures_bind (Q := fun _ _ => True) (fun _ _ _ => trivial) ?_
  intro np w2 _
  by_cases hnp : np = none
  · rw [if_pos hnp]
    exact Ensures.ensures_of_eq rfl rfl
  rw [if_neg hnp]
  refine Ensures.ensures_bind (Q := fun _ _ => True) (fun _ _ _ => trivial) ?_
  intro fa w3 _
  refine Ensures.ensures_bind (Q := fun p _ => p.2.2 = 0)
    (Ensures.ensures_of_eq (pure_run _ _) rfl) ?_
  rintro ⟨fa1, tot, best⟩ w4 hbest
  simp only at hbest
  subst hbest
  exact Ensures.ensures_bind (Q := fun _ _ => False)
    (Ensures.ensures_liftE _ _ _ (fun x hx => by simp [rd] at hx))
    (fun _ _ hf => False.elim hf)

/-- C14: the weights of the first-parent selections. Whenever `GAnextGen`, run on the old
population `l` with any fitness function, any selector and any operators, returns a new
population, the calls it has made are: calls that are not selector calls, then the calls of
the `newPopSz - 1` slots one slot after the other, then calls that are not selector calls; and
in every slot the first call of the selector (the selection of the first parent) is made with
the weights `w_i = max(0, fitness(l[i]))` (the list `l.map (clamped fitness)`) and with their
sum as total, also in the slots that follow a slot with a second-parent selection. With
successful allocations, a selector that returns valid indices, `1 ≤ l.length` and
`1 ≤ newPopSz`, `GAnextGen` does return a new population. -/
theorem C14_first_parent_weights {σ : Type} (env : Env σ) (l : List Individual)
    (newPopSz : Int) (fitness : GAFitnessFnc) (crossover : Option (GACrossoverFnc σ))
    (mutate : Option (GAMutateFnc σ)) (select : GASelectionFnc σ) (keepOldPopulation : Int)
    (w : World σ) :
    (∀ (l1 : List Individual) (w1 : World σ),
      GAnextGen env (some l) l.length newPopSz fitness crossover mutate select
        keepOldPopulation w = (.ok (some l1), w1) →
      ∃ (pre : List Event) (slots : List (List Event)) (post : List Event),
        w1.log = w.log ++ pre ++ slots.flatten ++ post ∧
        (∀ e ∈ pre, e.isSelect = false) ∧ (∀ e ∈ post, e.isSelect = false) ∧
        slots.length = (newPopSz - 1).toNat ∧
        ∀ es ∈ slots, SlotCalls (some l) (l.map (clamped fitness))
          (l.map (clamped fitness)).sum l.length es) ∧
    (AllocOk env → SelectorOk select l.length → 1 ≤ l.length → 1 ≤ newPopSz →
      ∃ (l1 : List Individual) (w1 : World σ),
        GAnextGen env (some l) l.length newPopSz fitness crossover mutate select
          keepOldPopulation w = (.ok (some l1), w1)) := by
  constructor
  · intro l1 w1 h
    by_cases hl : 1 ≤ l.length
    · rcases GAnextGen_selects env l newPopSz fitness crossover mutate select
        keepOldPopulation w hl _ _ h with h1 | h1
      · exact Option.noConfusion h1
      · exact h1
    · have e : l = [] := List.length_eq_zero.1 (by omega)
      subst e
      exact Option.noConfusion
        (GAnextGen_empty env newPopSz fitness crossover mutate select keepOldPopulation w
          _ _ h)
  · intro halloc hsel hl hm
    obtain ⟨r, w1, h1, l1, h2⟩ := GAnextGen_returns env l newPopSz fitness crossover mutate
      select keepOldPopulation w hl hm halloc hsel
    subst h2
    exact ⟨l1, w1, h1⟩

/-- Witness of C14: the old population `[1, 2, 3]` with crossover `blend`, a new population of
size `3` and the random values `3/4, 1/4, 1/2, 1/4`; the run returns `[103, 205, 205]`. -/
theorem C14_first_parent_weights_witness :
    (GAnextGen sampleEnv (some [1, 2, 3]) ([1, 2, 3] : List Individual).length 3
      sampleFitness (some blend) none (GAselect sampleEnv) 0
      ⟨[3 / 4, 1 / 4, 1 / 2, 1 / 4], []⟩).1 = .ok (some [103, 205, 205]) ∧
    (∃ (pre : List Event) (slots : List (List Event)) (post : List Event),
      (GAnextGen sampleEnv (some [1, 2, 3]) ([1, 2, 3] : List Individual).length 3
        sampleFitness (some blend) none (GAselect sampleEnv) 0
        ⟨[3 / 4, 1 / 4, 1 / 2, 1 / 4], []⟩).2.log = [] ++ pre ++ slots.flatten ++ post ∧
      (∀ e ∈ pre, e.isSelect = false) ∧ (∀ e ∈ post, e.isSelect = false) ∧
      slots.length = ((3 : Int) - 1).toNat ∧
      ∀ es ∈ slots, SlotCalls (some [1, 2, 3])
        (([1, 2, 3] : List Individual).map (clamped sampleFitness))
        (([1, 2, 3] : List Individual).map (clamped sampleFitness)).sum
        ([1, 2, 3] : List Individual).length es) ∧
    AllocOk sampleEnv ∧ SelectorOk (GAselect sampleEnv) ([1, 2, 3] : List Individual).length ∧
    1 ≤ ([1, 2, 3] : List Individual).length ∧ (1 : Int) ≤ 3 ∧
    ∃ (l1 : List Individual) (w1 : World (List ℚ)),
      GAnextGen sampleEnv (some [1, 2, 3]) ([1, 2, 3] : List Individual).length 3
        sampleFitness (some blend) none (GAselect sampleEnv) 0
        ⟨[3 / 4, 1 / 4, 1 / 2, 1 / 4], []⟩ = (.ok (some l1), w1) :=
  have ha : AllocOk sampleEnv := fun _ _ => rfl
  have hs : SelectorOk (GAselect sampleEnv) ([1, 2, 3] : List Individual).length :=
    GAselect_selectorOk sampleEnv 3 (by decide)
  have hr : (GAnextGen sampleEnv (some [1, 2, 3]) ([1, 2, 3] : List Individual).length 3
      sampleFitness (some blend) none (GAselect sampleEnv) 0
      ⟨[3 / 4, 1 / 4, 1 / 2, 1 / 4], []⟩).1 = .ok (some [103, 205, 205]) := by decide!
  ⟨hr,
    (C14_first_parent_weights sampleEnv [1, 2, 3] 3 sampleFitness (some blend) none
      (GAselect sampleEnv) 0 ⟨[3 / 4, 1 / 4, 1 / 2, 1 / 4], []⟩).1 _ _ (run_eq_of_fst hr),
    ha, hs, by decide, by decide,
    (C14_first_parent_weights sampleEnv [1, 2, 3] 3 sampleFitness (some blend) none
      (GAselect sampleEnv) 0 ⟨[3 / 4, 1 / 4, 1 / 2, 1 / 4], []⟩).2 ha hs (by decide)
      (by decide)⟩

/-- C15 fails on the code: the total handed to the selector for the second parent is not the
sum of the weights handed to it. The old population `[1, 2, 3]` has the fitness values
`1, 2, 3` and the random values are `3/4, 1/4`. The first selection is made with the weights
`[1, 2, 3]` and the total `6`, their sum; it returns index `2`. The second selection is made
with the weights `[1, 2, 0]`, whose sum is `3`, and with the total `6`. -/
theorem C15_second_parent_total :
    (GAnextGen sampleEnv (some [1, 2, 3]) 3 2 sampleFitness (some blend) none
      (GAselect sampleEnv) 1 ⟨[3 / 4, 1 / 4], []⟩).1 = .ok (some [103, 205]) ∧
    (GAnextGen sampleEnv (some [1, 2, 3]) 3 2 sampleFitness (some blend) none
      (GAselect sampleEnv) 1 ⟨[3 / 4, 1 / 4], []⟩).2.log =
      [Event.GAnextGen (some [1, 2, 3]) 3 2 1, Event.fitness 1, Event.fitness 2,
        Event.fitness 3, Event.clone 3,
        Event.select (some [1, 2, 3]) (some [1, 2, 3]) 6 3,
        Event.select (some [1, 2, 3]) (some [1, 2, 0]) 6 3, Event.crossover 3 2] ∧
    ([1, 2, 3] : List ℚ).sum = 6 ∧ ([1, 2, 0] : List ℚ).sum = 3 := by
  refine ⟨by decide!, by decide!, by norm_num, by norm_num⟩

/-! ### Allocation failures -/

/-- C16: when the allocation of the new population fails, `GAnextGen` returns the null
population, whatever the old population, the sizes, the operators and `keepOldPopulation`
are; the only entry it adds to the log is the record of its own call, so that it has called
none of `fitness`, `clone`, `crossover`, `mutate`, the selector, `deleteIndividual` and `free`;
and the state of the outside world is the one left by the failed allocation. -/
theorem C16_container_allocation_failure {σ : Type} (env : Env σ)
    (currentPopulation : Population) (oldPopSz newPopSz : Int) (fitness : GAFitnessFnc)
    (crossover : Option (GACrossoverFnc σ)) (mutate : Option (GAMutateFnc σ))
    (select : GASelectionFnc σ) (keepOldPopulation : Int) (w : World σ)
    (hfail : (env.malloc newPopSz w.user).1 = false) :
    GAnextGen env currentPopulation oldPopSz newPopSz fitness crossover mutate select
        keepOldPopulation w =
      (.ok none, ⟨(env.malloc newPopSz w.user).2,
        w.log ++ [Event.GAnextGen currentPopulation oldPopSz newPopSz keepOldPopulation]⟩) := by
  simp only [GAnextGen, bind_run, logEvent_run, malloc_run, hfail]
  rfl

/-- Witness of C16: the first allocation of `scriptedEnv` fails, with `keepOldPopulation = 0`. -/
theorem C16_container_allocation_failure_witness :
    (scriptedEnv.malloc 2 [false]).1 = false ∧
    GAnextGen scriptedEnv (some [1, 2]) 2 2 sampleFitness (some blend) none
        (GAselect scriptedEnv) 0 ⟨[false], []⟩ =
      (.ok none, ⟨(scriptedEnv.malloc 2 [false]).2,
        [] ++ [Event.GAnextGen (some [1, 2]) 2 2 0]⟩) :=
  ⟨rfl, C16_container_allocation_failure scriptedEnv (some [1, 2]) 2 2 sampleFitness
    (some blend) none (GAselect scriptedEnv) 0 ⟨[false], []⟩ rfl⟩

/-- When the new population is allocated and the fitness buffer is not, `GAnextGen` on an old
population of size at least `1` does not return: it writes `fitnessArray[0]` through the null
pointer. -/
theorem GAnextGen_buffer_fail {σ : Type} (env : Env σ) (currentPopulation : Population)
    (oldPopSz newPopSz : Int) (fitness : GAFitnessFnc)
    (crossover : Option (GACrossoverFnc σ)) (mutate : Option (GAMutateFnc σ))
    (select : GASelectionFnc σ) (keepOldPopulation : Int) (w : World σ)
    (h1 : (env.malloc newPopSz w.user).1 = true)
    (h2 : (env.malloc oldPopSz (env.malloc newPopSz w.user).2).1 = false)
    (hold : 1 ≤ oldPopSz) :
    ∃ e w1, GAnextGen env currentPopulation oldPopSz newPopSz fitness crossover mutate select
      keepOldPopulation w = (.error e, w1) := by
  obtain ⟨n, hn⟩ : ∃ n : Nat, oldPopSz.toNat = n + 1 := ⟨oldPopSz.toNat - 1, by omega⟩
  obtain ⟨e, w1, h⟩ := fitnessLoop_null fitness currentPopulation n 0 0 0
    (⟨(env.malloc oldPopSz (env.malloc newPopSz w.user).2).2,
      w.log ++ [Event.GAnextGen currentPopulation oldPopSz newPopSz keepOldPopulation]⟩ :
      World σ)
  refine ⟨e, w1, ?_⟩
  unfold GAnextGen
  rw [bind_ok (logEvent_run _ _), bind_ok (malloc_run env NULL newPopSz _)]
  simp only [h1, if_true]
  rw [if_neg (by simp), bind_ok (malloc_run env (0 : ℚ) oldPopSz _)]
  simp only [h2, hn, Bool.false_eq_true, if_false]
  exact bind_error h

/-- C17 fails on the code: `GArun` goes on after a failed generation advance. The first
allocation fails, so that the first `GAnextGen` call returns the null population. With
`numGenerations = 3`, `GArun` then calls the callback on the null population and calls
`GAnextGen` on the null population, which reads through the null pointer. With
`numGenerations = 1`, `GArun` calls the callback on the null population and then `GAsort` on
the null population, which reads through the null pointer. In neither run does `GArun`
return. -/
theorem C17_run_continues_after_failed_advance :
    GAnextGen scriptedEnv (some [1, 2]) 2 2 sampleFitness none none (GAselect scriptedEnv) 0
      ⟨[false], []⟩ = (.ok none, ⟨[], [Event.GAnextGen (some [1, 2]) 2 2 0]⟩) ∧
    (GArun scriptedEnv (some [1, 2]) 2 2 3 sampleFitness none none (some (stopAt 5))
      ⟨[false], []⟩).1 = .error .fault ∧
    (GArun scriptedEnv (some [1, 2]) 2 2 3 sampleFitness none none (some (stopAt 5))
      ⟨[false], []⟩).2.log =
      [Event.GAnextGen (some [1, 2]) 2 2 0, Event.callback 0 none 2,
        Event.GAnextGen none 2 2 0] ∧
    (GArun scriptedEnv (some [1, 2]) 2 2 1 sampleFitness none none (some (stopAt 5))
      ⟨[false], []⟩).1 = .error .fault ∧
    (GArun scriptedEnv (some [1, 2]) 2 2 1 sampleFitness none none (some (stopAt 5))
      ⟨[false], []⟩).2.log =
      [Event.GAnextGen (some [1, 2]) 2 2 0, Event.callback 0 none 2, Event.GAsort none 2] := by
  refine ⟨rfl, by decide!, by decide!, by decide!, by decide!⟩

/-- C18 fails on the code: neither function checks the fitness buffer before it writes to it.
In `GAnextGen` the new population is allocated and the fitness buffer is not: the call does
not return the null population; it calls `fitness` on the first individual and writes the
value through the null pointer. In `GAsort` the fitness buffer is not allocated: the call
does not return; it calls `fitness` on the first individual and writes the value through the
null pointer, before it tests the pointer. -/
theorem C18_fitness_buffer_allocation_failure :
    (GAnextGen scriptedEnv (some [1, 2]) 2 2 sampleFitness none none (GAselect scriptedEnv) 0
      ⟨[true, false], []⟩).1 = .error .fault ∧
    (GAnextGen scriptedEnv (some [1, 2]) 2 2 sampleFitness none none (GAselect scriptedEnv) 0
      ⟨[true, false], []⟩).2.log = [Event.GAnextGen (some [1, 2]) 2 2 0, Event.fitness 1] ∧
    (GAsort scriptedEnv (some [1, 2]) sampleFitness 2 ⟨[false], []⟩).1 = .error .fault ∧
    (GAsort scriptedEnv (some [1, 2]) sampleFitness 2 ⟨[false], []⟩).2.log =
      [Event.GAsort (some [1, 2]) 2, Event.fitness 1] := by
  refine ⟨by decide!, by decide!, by decide!, by decide!⟩

/-! ### The generations of a run -/

theorem callback_quiet {σ : Type} (callback : Option (GACallbackFnc σ)) (i : Int)
    (pop1 : Population) (popSz : Int) (w1 : World σ) :
    0 ≤ i → (∀ cb, callback = some cb → ∀ i : Int, 0 ≤ i → ∀ pop sz s, (cb i pop sz s).1 = 0) →
    Ensures ((match callback with
      | some callback => callCallback callback i pop1 popSz
      | none => pure 0) : M σ Int) w1
      (fun stop w2 => stop = 0 ∧ ∃ es, w2.log = w1.log ++ es ∧ nextGenCalls es = 0) := by
  intro hi hcb
  cases callback with
  | none => exact Ensures.ensures_of_eq (pure_run _ _) ⟨rfl, [], by simp, rfl⟩
  | some cb =>
    exact Ensures.ensures_of_eq (callCallback_run cb i pop1 popSz w1)
      ⟨hcb cb rfl i hi _ _ _, [Event.callback i pop1 popSz], rfl, rfl⟩

theorem GArunLoop_full_count {σ : Type} (env : Env σ) (initPopSz popSz numGenerations : Int)
    (fitness : GAFitnessFnc) (crossover : Option (GACrossoverFnc σ))
    (mutate : Option (GAMutateFnc σ)) (callback : Option (GACallbackFnc σ))
    (hcb : ∀ cb, callback = some cb → ∀ i : Int, 0 ≤ i → ∀ pop sz s, (cb i pop sz s).1 = 0) :
    ∀ (k fuel : Nat) (i : Int) (pop : Population) (w : World σ), 0 ≤ i →
    i + k + 1 = numGenerations →
    Ensures (GArunLoop env initPopSz popSz numGenerations fitness crossover mutate callback
      fuel i pop) w
      (fun _ w1 => ∃ es, w1.log = w.log ++ es ∧ nextGenCalls es = k + 1) := by
  intro k
  induction k with
  | zero =>
    intro fuel i pop w hi hik
    cases fuel with
    | zero => exact Ensures.ensures_of_error (liftE_run (Except.error Err.fuel) w)
    | succ n =>
      rw [GArunLoop_succ]
      refine Ensures.ensures_bind (Ensures.ensures_of_world
        (P := fun w1 => ∃ es, w1.log = w.log ++ es ∧ nextGenCalls es = 1) ?_) ?_
      · obtain ⟨es, e1, p1⟩ := GAnextGen_log env pop (if i = 0 then initPopSz else popSz) popSz
          fitness crossover mutate (GAselect env) 0 w
        refine ⟨_, e1, ?_⟩
        rw [← List.singleton_append, nextGenCalls_append, nextGenCalls_inner es p1]
        rfl
      · rintro pop1 w1 ⟨es1, e1, c1⟩
        refine Ensures.ensures_bind (callback_quiet callback i pop1 popSz w1 hi hcb) ?_
        rintro stop w2 ⟨_, es2, e2, c2⟩
        have hc : ¬ (if i + 1 ≥ numGenerations then (1 : Int) else stop) = 0 := by
          rw [if_pos (by push_cast at hik; omega)]
          decide
        rw [if_neg hc]
        refine Ensures.ensures_of_eq rfl ⟨es1 ++ es2, ?_, ?_⟩
        · rw [e2, e1, List.append_assoc]
        · rw [nextGenCalls_append, c1, c2]
  | succ k ih =>
    intro fuel i pop w hi hik
    cases fuel with
    | zero => exact Ensures.ensures_of_error (liftE_run (Except.error Err.fuel) w)
    | succ n =>
      rw [GArunLoop_succ]
      refine Ensures.ensures_bind (Ensures.ensures_of_world
        (P := fun w1 => ∃ es, w1.log = w.log ++ es ∧ nextGenCalls es = 1) ?_) ?_
      · obtain ⟨es, e1, p1⟩ := GAnextGen_log env pop (if i = 0 then initPopSz else popSz) popSz
          fitness crossover mutate (GAselect env) 0 w
        refine ⟨_, e1, ?_⟩
        rw [← List.singleton_append, nextGenCalls_append, nextGenCalls_inner es p1]
        rfl
      · rintro pop1 w1 ⟨es1, e1, c1⟩
        refine Ensures.ensures_bind (callback_quiet callback i pop1 popSz w1 hi hcb) ?_
        rintro stop w2 ⟨hs, es2, e2, c2⟩
        have hc : (if i + 1 ≥ numGenerations then (1 : Int) else stop) = 0 := by
          rw [if_neg (by push_cast at hik; omega)]
          exact hs
        rw [if_pos hc]
        refine (ih n (i + 1) pop1 w2 (by omega) (by push_cast at hik ⊢; omega)).ensures_mono ?_
        rintro r w3 ⟨es3, e3, c3⟩
        refine ⟨es1 ++ es2 ++ es3, ?_, ?_⟩
        · rw [e3, e2, e1]; simp only [List.append_assoc]
        · rw [nextGenCalls_append, nextGenCalls_append, c1, c2, c3]
          omega

/-- C20: the run stops at the configured maximum. Let `numGenerations ≥ 1` and let the
callback be absent or return `0` at every generation. Whenever `GArun` returns, its log
consists of a part with exactly `numGenerations` calls of `GAnextGen`, followed by the call of
`GAsort` and the calls made by that ranking. With successful allocations, a non-empty initial
population and `1 ≤ popSz`, `GArun` does return a population. -/
theorem C20_stops_at_maximum {σ : Type} (env : Env σ) (l0 : List Individual)
    (popSz numGenerations : Int) (fitness : GAFitnessFnc)
    (crossover : Option (GACrossoverFnc σ)) (mutate : Option (GAMutateFnc σ))
    (callback : Option (GACallbackFnc σ)) (w : World σ)
    (hnum : 1 ≤ numGenerations)
    (hcb : ∀ cb, callback = some cb → ∀ i : Int, 0 ≤ i → ∀ pop sz s, (cb i pop sz s).1 = 0) :
    (∀ r, (GArun env (some l0) l0.length popSz numGenerations fitness crossover mutate
        callback w).1 = .ok r →
      ∃ (es : List Event) (pop : Population) (es2 : List Event),
        (GArun env (some l0) l0.length popSz numGenerations fitness crossover mutate callback
          w).2.log = w.log ++ es ++ Event.GAsort pop popSz :: es2 ∧
        (nextGenCalls es : Int) = numGenerations ∧ ∀ e ∈ es2, e.inner = true) ∧
    (AllocOk env → 1 ≤ l0.length → 1 ≤ popSz →
      ∃ l1 : List Individual,
        (GArun env (some l0) l0.length popSz numGenerations fitness crossover mutate callback
          w).1 = .ok (some l1)) := by
  constructor
  · have h : Ensures (GArun env (some l0) l0.length popSz numGenerations fitness crossover
        mutate callback) w
        (fun _ w1 => ∃ (es : List Event) (pop : Population) (es2 : List Event),
          w1.log = w.log ++ es ++ Event.GAsort pop popSz :: es2 ∧
          (nextGenCalls es : Int) = numGenerations ∧ ∀ e ∈ es2, e.inner = true) := by
      unfold GArun
      refine Ensures.ensures_bind (Q := fun _ w1 => w1.log = w.log)
        (Ensures.ensures_of_eq (call_run _ _) rfl) ?_
      intro _ w1 hw1
      refine Ensures.ensures_bind (GArunLoop_full_count env l0.length popSz numGenerations
        fitness crossover mutate callback hcb (numGenerations.toNat - 1) _ 0 (some l0) w1
        (le_refl _) (by omega)) ?_
      rintro pop w2 ⟨es, e2, c2⟩
      refine Ensures.ensures_of_world ?_
      obtain ⟨es2, e3, p3⟩ := GAsort_log env pop fitness popSz w2
      exact ⟨es, pop, es2, by rw [e3, e2, hw1], by omega, p3⟩
    intro r hr
    exact h r _ (run_eq_of_fst hr)
  · intro halloc hl0 hp
    obtain ⟨r, w1, h1, l1, h2⟩ := GArun_returns env l0 popSz numGenerations fitness crossover
      mutate callback w halloc hl0 hp
    exact ⟨l1, by rw [h1, h2]⟩

/-- Witness of C20: a run of `3` generations whose callback `stopAt (-1)` returns `0` at every
generation. -/
theorem C20_stops_at_maximum_witness :
    (1 : Int) ≤ 3 ∧
    (∀ cb, some (stopAt (-1) : GACallbackFnc (List ℚ)) = some cb →
      ∀ i : Int, 0 ≤ i → ∀ pop sz s, (cb i pop sz s).1 = 0) ∧
    AllocOk sampleEnv ∧ 1 ≤ ([1, 2, 3] : List Individual).length ∧ (1 : Int) ≤ 4 ∧
    (∃ l1 : List Individual,
      (GArun sampleEnv (some [1, 2, 3]) (([1, 2, 3] : List Individual).length : Int) 4 3
        sampleFitness none none (some (stopAt (-1))) ⟨[], []⟩).1 = .ok (some l1)) ∧
    ∃ (es : List Event) (pop : Population) (es2 : List Event),
      (GArun sampleEnv (some [1, 2, 3]) (([1, 2, 3] : List Individual).length : Int) 4 3
        sampleFitness none none (some (stopAt (-1))) ⟨[], []⟩).2.log =
        [] ++ es ++ Event.GAsort pop 4 :: es2 ∧
      (nextGenCalls es : Int) = 3 ∧ ∀ e ∈ es2, e.inner = true :=
  have h1 : AllocOk sampleEnv := fun _ _ => rfl
  have h2 : ∀ cb, some (stopAt (-1) : GACallbackFnc (List ℚ)) = some cb →
      ∀ i : Int, 0 ≤ i → ∀ pop sz s, (cb i pop sz s).1 = 0 := by
    intro cb hcb i hi pop sz s
    injection hcb with hcb
    subst hcb
    have : i ≠ -1 := by omega
    simp [stopAt, this]
  have t := C20_stops_at_maximum sampleEnv [1, 2, 3] 4 3 sampleFitness none none
    (some (stopAt (-1))) ⟨[], []⟩ (by decide) h2
  have h3 := t.2 h1 (by decide) (by decide)
  ⟨by decide, h2, h1, by decide, by decide, h3, h3.elim (fun _ h => t.1 _ h)⟩

theorem Advances_log {σ : Type} (env : Env σ) (initPopSz popSz : Int) (fitness : GAFitnessFnc)
    (crossover : Option (GACrossoverFnc σ)) (mutate : Option (GAMutateFnc σ))
    (cb : GACallbackFnc σ) (pop1 : Population) (w1 : World σ) :
    ∀ (gs : List Generation) (j : Int) (pop : Population) (w : World σ),
    Advances env initPopSz popSz fitness crossover mutate cb j pop w gs pop1 w1 →
    w1.log = w.log ++ runEvents initPopSz popSz j gs ∧
      ∀ g ∈ gs, ∀ e ∈ g.calls, e.inner = true := by
  intro gs
  induction gs with
  | nil =>
    intro j pop w h
    obtain ⟨_, h2⟩ := h
    subst h2
    exact ⟨by simp [runEvents], by simp⟩
  | cons g gs ih =>
    intro j pop w h
    obtain ⟨hin, hcalls, wg, _, hlog, hrest⟩ := h
    obtain ⟨q1, q2⟩ := ih _ _ _ hrest
    refine ⟨?_, ?_⟩
    · rw [q1, hlog, runEvents, Generation.events, hin]
      simp only [List.append_assoc, List.cons_append]
    · intro g1 hg1
      rcases List.mem_cons.1 hg1 with e | e
      · subst e; exact hcalls
      · exact q2 g1 e

theorem callbacksOf_append (a b : List Event) :
    callbacksOf (a ++ b) = callbacksOf a ++ callbacksOf b := by
  simp [callbacksOf, List.filterMap_append]

theorem callbacksOf_inner (es : List Event) (h : ∀ e ∈ es, e.inner = true) :
    callbacksOf es = [] := by
  rw [callbacksOf, List.filterMap_eq_nil_iff]
  intro e he
  have := h e he
  cases e <;> simp_all [Event.inner]

theorem runEvents_counts (initPopSz popSz : Int) :
    ∀ (gs : List Generation) (j : Int), (∀ g ∈ gs, ∀ e ∈ g.calls, e.inner = true) →
    nextGenCalls (runEvents initPopSz popSz j gs) = gs.length ∧
      callbacksOf (runEvents initPopSz popSz j gs) = expectedCallbacks popSz j gs := by
  intro gs
  induction gs with
  | nil => intro j _; exact ⟨rfl, rfl⟩
  | cons g gs ih =>
    intro j h
    obtain ⟨q1, q2⟩ := ih (j + 1) (fun g1 hg1 => h g1 (List.mem_cons_of_mem _ hg1))
    have hg := h g (List.mem_cons_self _ _)
    constructor
    · rw [runEvents, Generation.events, nextGenCalls_append, q1, ← List.singleton_append,
        nextGenCalls_append, nextGenCalls_append, nextGenCalls_inner _ hg]
      simp only [List.length_cons]
      have e1 : nextGenCalls [Event.GAnextGen g.input (if j = 0 then initPopSz else popSz)
          popSz 0] = 1 := rfl
      have e2 : nextGenCalls [Event.callback j g.output popSz] = 0 := rfl
      omega
    · rw [runEvents, Generation.events, callbacksOf_append, q2, ← List.singleton_append,
        callbacksOf_append, callbacksOf_append, callbacksOf_inner _ hg]
      rfl

/-- Whenever the loop of `GArun` with a callback finishes, it has gone through at least one
generation, and its generations are those of `Advances`. -/
theorem GArunLoop_generations {σ : Type} (env : Env σ) (initPopSz popSz numGenerations : Int)
    (fitness : GAFitnessFnc) (crossover : Option (GACrossoverFnc σ))
    (mutate : Option (GAMutateFnc σ)) (cb : GACallbackFnc σ) :
    ∀ (fuel : Nat) (i : Int) (pop : Population) (w : World σ) (r : Population) (w1 : World σ),
    GArunLoop env initPopSz popSz numGenerations fitness crossover mutate (some cb) fuel i pop
      w = (.ok r, w1) →
    ∃ gs : List Generation, gs ≠ [] ∧
      Advances env initPopSz popSz fitness crossover mutate cb i pop w gs r w1 := by
  intro fuel
  induction fuel with
  | zero =>
    intro i pop w r w1 h
    rw [GArunLoop, liftE_run] at h
    injection h with h _
    exact Except.noConfusion h
  | succ n ih =>
    intro i pop w r w1 h
    rw [GArunLoop_succ] at h
    obtain ⟨pop1, wg, h1, h2⟩ := bind_ok_inv h
    obtain ⟨es, e1, p1⟩ := GAnextGen_log env pop (if i = 0 then initPopSz else popSz) popSz
      fitness crossover mutate (GAselect env) 0 w
    rw [h1] at e1
    simp only at h2
    obtain ⟨stop, wc, h3, h4⟩ := bind_ok_inv h2
    rw [callCallback_run] at h3
    injection h3 with h3a h3b
    injection h3a with h3a
    subst h3a; subst h3b
    by_cases hc : (if i + 1 ≥ numGenerations then (1 : Int)
        else (cb i pop1 popSz wg.user).1) = 0
    · rw [if_pos hc] at h4
      obtain ⟨gs, _, hgs⟩ := ih _ _ _ _ _ h4
      exact ⟨⟨pop, pop1, es⟩ :: gs, List.cons_ne_nil _ _, rfl, p1, wg, h1, e1, hgs⟩
    · rw [if_neg hc, pure_run] at h4
      injection h4 with h4a h4b
      injection h4a with h4a
      subst h4a; subst h4b
      exact ⟨[⟨pop, pop1, es⟩], List.cons_ne_nil _ _, rfl, p1, wg, h1, e1, rfl, rfl⟩

/-- C19: the callback is called once per completed generation, in order. Whenever `GArun`,
run with a callback `cb`, returns, it has gone through a non-empty sequence `gs` of
generations (`Advances`): in generation `j = 0, 1, ...` it has run `GAnextGen` on the
population returned by the previous generation and then called the callback with the index
`j`, the population just returned by that `GAnextGen` call, and the size `popSz`. Its log is
made of the entries of the generations one after the other (`runEvents`: for each generation
the call of `GAnextGen`, the calls made from inside it, and the call of the callback at the
end), then the call of `GAsort` on the last population and the calls made from inside it.
Hence the log holds as many callback calls as `GAnextGen` calls, the `j`-th with the arguments
stated, and no callback call before the first `GAnextGen` call or among the calls made from
inside a generation advance. With successful allocations, a non-empty initial population and
`1 ≤ popSz`, `GArun` does return. -/
theorem C19_callback_once_per_generation {σ : Type} (env : Env σ) (l0 : List Individual)
    (popSz numGenerations : Int) (fitness : GAFitnessFnc)
    (crossover : Option (GACrossoverFnc σ)) (mutate : Option (GAMutateFnc σ))
    (cb : GACallbackFnc σ) (w : World σ) :
    (∀ (r : Population) (w1 : World σ),
      GArun env (some l0) l0.length popSz numGenerations fitness crossover mutate (some cb) w =
        (.ok r, w1) →
      ∃ (gs : List Generation) (pop : Population) (w2 : World σ) (es2 : List Event),
        gs ≠ [] ∧
        Advances env l0.length popSz fitness crossover mutate cb 0 (some l0)
          ⟨env.initMTrand w.user, w.log⟩ gs pop w2 ∧
        w1.log = w.log ++ runEvents l0.length popSz 0 gs ++ Event.GAsort pop popSz :: es2 ∧
        (∀ g ∈ gs, ∀ e ∈ g.calls, e.inner = true) ∧ (∀ e ∈ es2, e.inner = true) ∧
        nextGenCalls (runEvents l0.length popSz 0 gs ++ Event.GAsort pop popSz :: es2) =
          gs.length ∧
        callbacksOf (runEvents l0.length popSz 0 gs ++ Event.GAsort pop popSz :: es2) =
          expectedCallbacks popSz 0 gs) ∧
    (AllocOk env → 1 ≤ l0.length → 1 ≤ popSz →
      ∃ (l1 : List Individual) (w1 : World σ),
        GArun env (some l0) l0.length popSz numGenerations fitness crossover mutate (some cb)
          w = (.ok (some l1), w1)) := by
  constructor
  · intro r w1 h
    unfold GArun at h
    obtain ⟨_, wa, h1, h2⟩ := bind_ok_inv h
    rw [call_run] at h1
    injection h1 with _ h1
    subst h1
    obtain ⟨pop, w2, h3, h4⟩ := bind_ok_inv h2
    obtain ⟨gs, hne, hadv⟩ := GArunLoop_generations env l0.length popSz numGenerations fitness
      crossover mutate cb _ _ _ _ _ _ h3
    obtain ⟨q1, q2⟩ := Advances_log env l0.length popSz fitness crossover mutate cb pop w2 gs
      _ _ _ hadv
    obtain ⟨es2, e3, p3⟩ := GAsort_log env pop fitness popSz w2
    rw [h4] at e3
    obtain ⟨c1, c2⟩ := runEvents_counts l0.length popSz gs 0 q2
    have hs1 : nextGenCalls (Event.GAsort pop popSz :: es2) = 0 := by
      rw [← List.singleton_append, nextGenCalls_append, nextGenCalls_inner _ p3]
      rfl
    have hs2 : callbacksOf (Event.GAsort pop popSz :: es2) = [] := by
      rw [← List.singleton_append, callbacksOf_append, callbacksOf_inner _ p3]
      rfl
    refine ⟨gs, pop, w2, es2, hne, hadv, ?_, q2, p3, ?_, ?_⟩
    · rw [e3, q1]
    · rw [nextGenCalls_append, c1, hs1, Nat.add_zero]
    · rw [callbacksOf_append, c2, hs2, List.append_nil]
  · intro halloc hl0 hp
    obtain ⟨r, w1, h1, l1, h2⟩ := GArun_returns env l0 popSz numGenerations fitness crossover
      mutate (some cb) w halloc hl0 hp
    subst h2
    exact ⟨l1, w1, h1⟩

/-- Witness of C19: a run of `2` generations with the callback `stopAt 5`, which never asks to
stop. -/
theorem C19_callback_once_per_generation_witness :
    AllocOk sampleEnv ∧ 1 ≤ ([1, 2, 3] : List Individual).length ∧ (1 : Int) ≤ 4 ∧
    ∃ (l1 : List Individual) (w1 : World (List ℚ)),
      GArun sampleEnv (some [1, 2, 3]) ([1, 2, 3] : List Individual).length 4 2 sampleFitness
        none none (some (stopAt 5)) ⟨[], []⟩ = (.ok (some l1), w1) ∧
      ∃ (gs : List Generation) (pop : Population) (w2 : World (List ℚ)) (es2 : List Event),
        gs ≠ [] ∧
        Advances sampleEnv ([1, 2, 3] : List Individual).length 4 sampleFitness none none
          (stopAt 5) 0 (some [1, 2, 3]) ⟨sampleEnv.initMTrand [], []⟩ gs pop w2 ∧
        w1.log = [] ++ runEvents ([1, 2, 3] : List Individual).length 4 0 gs ++
          Event.GAsort pop 4 :: es2 ∧
        (∀ g ∈ gs, ∀ e ∈ g.calls, e.inner = true) ∧ (∀ e ∈ es2, e.inner = true) ∧
        nextGenCalls (runEvents ([1, 2, 3] : List Individual).length 4 0 gs ++
          Event.GAsort pop 4 :: es2) = gs.length ∧
        callbacksOf (runEvents ([1, 2, 3] : List Individual).length 4 0 gs ++
          Event.GAsort pop 4 :: es2) = expectedCallbacks 4 0 gs := by
  have ha : AllocOk sampleEnv := fun _ _ => rfl
  have t := C19_callback_once_per_generation sampleEnv [1, 2, 3] 4 2 sampleFitness none none
    (stopAt 5) ⟨[], []⟩
  obtain ⟨l1, w1, h⟩ := t.2 ha (by decide) (by decide)
  exact ⟨ha, by decide, by decide, l1, w1, h, t.1 _ _ h⟩

/-! ## Properties of the specification (C21 to C26) -/

/-- C25 as stated fails at the least `int`: for `popSz = INT_MIN`, which is `≤ 0`, the
expression `popSz-1` of the loop test overflows, and `GAselect` does not return `0`: its
behaviour is undefined in C, the error `Err.fault` here. -/
theorem C25_counterexample :
    INT_MIN ≤ 0 ∧
    (GAselect sampleEnv (some []) (some []) 0 INT_MIN [1 / 2]).1 = .error .fault ∧
    (GAselect sampleEnv (some []) (some []) 0 INT_MIN [1 / 2]).1 ≠ .ok 0 := by
  refine ⟨by decide, by decide!, by decide!⟩

/-- C25, amended: `GAselect` returns a valid index of a non-empty population. For every block
`fv` of `popSz ≥ 1` fitness values of any sign, every `sumOfFitness` and every random value
(every generator `env.mtrand` and state `s`), `GAselect` returns an index `r` with
`0 ≤ r ≤ popSz - 1`, so that reading `fitnessArray[r]`, and reading `old[r]` in any population
of `popSz` individuals, is inside the block. For `INT_MIN < popSz ≤ 0` it returns `0`, which is
not an index of a population of that size. For `popSz = INT_MIN` the subtraction `popSz-1`
overflows and there is no result. -/
theorem C25_GAselect_valid_index {σ : Type} (env : Env σ) (population : Population)
    (sumOfFitness : ℚ) (s : σ) :
    (∀ fv : List ℚ, 1 ≤ fv.length →
      ∃ r : Nat, (GAselect env population (some fv) sumOfFitness fv.length s).1 = .ok (r : Int) ∧
        r ≤ fv.length - 1 ∧ (∃ v, rd (some fv) (r : Int) = .ok v) ∧
        ∀ l : List Individual, l.length = fv.length → ∃ x, rd (some l) (r : Int) = .ok x) ∧
    (∀ (fitnessValues : Ptr ℚ) (popSz : Int), INT_MIN < popSz → popSz ≤ 0 →
      (GAselect env population fitnessValues sumOfFitness popSz s).1 = .ok 0 ∧
      ∀ l : List Individual, (l.length : Int) = popSz → rd (some l) 0 = .error .fault) ∧
    (∀ (fitnessValues : Ptr ℚ),
      (GAselect env population fitnessValues sumOfFitness INT_MIN s).1 = .error .fault) := by
  refine ⟨?_, ?_, ?_⟩
  · intro fv hn
    obtain ⟨r, h1, h2, _⟩ := GAselect_spec env population fv sumOfFitness s hn
    refine ⟨r, h1, by omega, ⟨_, rd_nat fv r 0 h2⟩, ?_⟩
    intro l hl
    exact ⟨_, rd_nat l r NULL (by omega)⟩
  · intro fitnessValues popSz hmin hp
    have e : (popSz - 1).toNat = 0 := by omega
    refine ⟨?_, ?_⟩
    · simp only [GAselect, decr_ok popSz hmin, bind, Except.bind, e]
      rfl
    · intro l hl
      have hl0 : l = [] := List.length_eq_zero.1 (by omega)
      subst hl0
      rfl
  · intro fitnessValues
    simp only [GAselect, decr_overflow INT_MIN (le_refl _), bind, Except.bind]

/-- Witness of C25: three fitness values of mixed sign, and the size `0`. -/
theorem C25_GAselect_valid_index_witness :
    (1 ≤ ([-1, 2, 0] : List ℚ).length ∧
      ∃ r : Nat, (GAselect sampleEnv none (some [-1, 2, 0]) 1
          (([-1, 2, 0] : List ℚ).length : Int) [1 / 2]).1 = .ok (r : Int) ∧
        r ≤ ([-1, 2, 0] : List ℚ).length - 1 ∧
        (∃ v, rd (some ([-1, 2, 0] : List ℚ)) (r : Int) = .ok v) ∧
        ∀ l : List Individual, l.length = ([-1, 2, 0] : List ℚ).length →
          ∃ x, rd (some l) (r : Int) = .ok x) ∧
    (INT_MIN < 0 ∧ (0 : Int) ≤ 0 ∧ (GAselect sampleEnv none (some []) 1 0 [1 / 2]).1 = .ok 0 ∧
      ∀ l : List Individual, (l.length : Int) = 0 → rd (some l) 0 = .error .fault) :=
  ⟨⟨by decide, (C25_GAselect_valid_index sampleEnv none 1 [1 / 2]).1 [-1, 2, 0] (by decide)⟩,
    ⟨by decide, le_refl _,
      (C25_GAselect_valid_index sampleEnv none 1 [1 / 2]).2.1 (some []) 0 (by decide)
        (le_refl _)⟩⟩

/-- C23: the postcondition of `partition`. Let the population and the fitness buffer be the two
columns of the list `z` of (individual, fitness) cells, and let `0 ≤ left < right < n`. With a
step budget of at least `right - left + 2`, `partition` returns an index `p` and the two
columns of a list `z1` such that `left ≤ p ≤ right`; `a[p]` is the old pivot `a[right]`;
`a[m] ≥ a[p]` for `left ≤ m < p`; `a[m] ≤ a[p]` for `p < m ≤ right`; the cells outside
`[left, right]` are unchanged; and `z1` is a rearrangement of the cells of `z`, so that the
individuals and the fitness values have moved together: if every `a[m]` was the fitness of
`population[m]` before, it is afterwards. -/
theorem C23_partition_postcondition (z : List (Individual × ℚ)) (left right : Int)
    (fuel : Nat) (hl : 0 ≤ left) (hlr : left < right) (hr : right < z.length)
    (hf : right - left + 2 ≤ fuel) :
    ∃ (z1 : List (Individual × ℚ)) (p : Int),
      partition fuel (some (z.map Prod.fst)) (some (z.map Prod.snd)) left right =
        .ok (some (z1.map Prod.fst), some (z1.map Prod.snd), p) ∧
      left ≤ p ∧ p ≤ right ∧ keyAt z1 p = keyAt z right ∧
      (∀ m, left ≤ m → m < p → keyAt z1 m ≥ keyAt z1 p) ∧
      (∀ m, p < m → m ≤ right → keyAt z1 m ≤ keyAt z1 p) ∧
      (∀ m, (m < left ∨ right < m) → cellAt z1 m = cellAt z m) ∧
      z1.length = z.length ∧ z1.Perm z ∧
      ∀ fitness : GAFitnessFnc, (∀ c ∈ z, c.2 = fitness c.1) → ∀ c ∈ z1, c.2 = fitness c.1 := by
  obtain ⟨z1, p, h1, h2, h3, h4, h5, h6, h7⟩ := partition_spec z left right fuel hl hlr hr hf
  refine ⟨z1, p, h1, h3, h4, h5, fun m a b => h6 m a b, h7, h2.2.2.1, h2.1, h2.2.1, ?_⟩
  intro fitness hz c hc
  exact hz c ((h2.2.1.mem_iff).1 hc)

/-- Witness of C23: three cells, partitioned around the last one. -/
theorem C23_partition_postcondition_witness :
    (0 : Int) ≤ 0 ∧ (0 : Int) < 2 ∧
    (2 : Int) < ([(1, 1), (2, 3), (3, 2)] : List (Individual × ℚ)).length ∧
    (2 : Int) - 0 + 2 ≤ (4 : Nat) ∧
    ∃ (z1 : List (Individual × ℚ)) (p : Int),
      partition 4 (some (([(1, 1), (2, 3), (3, 2)] : List (Individual × ℚ)).map Prod.fst))
          (some (([(1, 1), (2, 3), (3, 2)] : List (Individual × ℚ)).map Prod.snd)) 0 2 =
        .ok (some (z1.map Prod.fst), some (z1.map Prod.snd), p) ∧
      0 ≤ p ∧ p ≤ 2 ∧ keyAt z1 p = keyAt [(1, 1), (2, 3), (3, 2)] 2 ∧
      (∀ m, 0 ≤ m → m < p → keyAt z1 m ≥ keyAt z1 p) ∧
      (∀ m, p < m → m ≤ 2 → keyAt z1 m ≤ keyAt z1 p) ∧
      (∀ m, (m < 0 ∨ 2 < m) → cellAt z1 m = cellAt [(1, 1), (2, 3), (3, 2)] m) ∧
      z1.length = ([(1, 1), (2, 3), (3, 2)] : List (Individual × ℚ)).length ∧
      z1.Perm [(1, 1), (2, 3), (3, 2)] ∧
      ∀ fitness : GAFitnessFnc,
        (∀ c ∈ ([(1, 1), (2, 3), (3, 2)] : List (Individual × ℚ)), c.2 = fitness c.1) →
        ∀ c ∈ z1, c.2 = fitness c.1 :=
  ⟨by decide, by decide, by decide, by decide,
    C23_partition_postcondition [(1, 1), (2, 3), (3, 2)] 0 2 4 (by decide) (by decide)
      (by decide) (by decide)⟩

/-! ### Index safety of the sort -/

theorem rdIn_eq {β : Type} (lo hi : Int) (p : Ptr β) (i : Int) (h1 : lo ≤ i) (h2 : i ≤ hi) :
    rdIn lo hi p i = rd p i := by
  unfold rdIn
  rw [if_pos ⟨h1, h2⟩]

theorem wrIn_eq {β : Type} (lo hi : Int) (p : Ptr β) (i : Int) (v : β) (h1 : lo ≤ i)
    (h2 : i ≤ hi) : wrIn lo hi p i v = wr p i v := by
  unfold wrIn
  rw [if_pos ⟨h1, h2⟩]

theorem exchIn_eq (lo hi : Int) (population : Population) (a : Ptr ℚ) (i j : Int)
    (hi1 : lo ≤ i) (hi2 : i ≤ hi) (hj1 : lo ≤ j) (hj2 : j ≤ hi) :
    exchIn lo hi population a i j = exch population a i j := by
  unfold exchIn exch
  simp only [rdIn_eq lo hi _ i hi1 hi2, rdIn_eq lo hi _ j hj1 hj2, wrIn_eq lo hi _ i _ hi1 hi2,
    wrIn_eq lo hi _ j _ hj1 hj2]

theorem scanUpIn_eq (z : List (Individual × ℚ)) (left right : Int) (hl : 0 ≤ left)
    (hr : right < z.length) :
    ∀ (fuel : Nat) (i : Int), left - 1 ≤ i → i < right →
    scanUpIn fuel (some (z.map Prod.snd)) left right i =
      scanUp fuel (some (z.map Prod.snd)) right i := by
  intro fuel
  induction fuel with
  | zero => intro i _ _; rfl
  | succ n ih =>
    intro i h1 h2
    have e1 := rd_keys z (i + 1) (by omega) (by omega)
    have e2 := rd_keys z right (by omega) hr
    simp only [scanUpIn, scanUp, rdIn_eq left right _ (i + 1) (by omega) (by omega),
      rdIn_eq left right _ right (by omega) (le_refl _), e1, e2, bind, Except.bind, less]
    by_cases hc : keyAt z right < keyAt z (i + 1)
    · have hne : i + 1 ≠ right := by
        intro h; rw [h] at hc; exact lt_irrefl _ hc
      simp only [gt_iff_lt, hc, decide_True, if_true]
      exact ih (i + 1) (by omega) (by omega)
    · simp [hc]

theorem scanDownIn_eq (z : List (Individual × ℚ)) (left right : Int) (hl : 0 ≤ left)
    (hr : right < z.length) :
    ∀ (fuel : Nat) (j : Int), left < j → j ≤ right →
    scanDownIn fuel (some (z.map Prod.snd)) left right j =
      scanDown fuel (some (z.map Prod.snd)) left right j := by
  intro fuel
  induction fuel with
  | zero => intro j _ _; rfl
  | succ n ih =>
    intro j h1 h2
    have e1 := rd_keys z (j - 1) (by omega) (by omega)
    have e2 := rd_keys z right (by omega) hr
    simp only [scanDownIn, scanDown, rdIn_eq left right _ (j - 1) (by omega) (by omega),
      rdIn_eq left right _ right (by omega) (le_refl _), e1, e2, bind, Except.bind, less]
    by_cases hc : keyAt z (j - 1) < keyAt z right
    · by_cases hjl : j - 1 = left
      · simp [hc, hjl]
      · simp only [gt_iff_lt, hc, decide_True, if_true, hjl, if_false]
        exact ih (j - 1) (by omega) (by omega)
    · simp [hc]

theorem partitionLoopIn_eq (left right : Int) (hl : 0 ≤ left) :
    ∀ (fuel : Nat) (z : List (Individual × ℚ)) (i j : Int), right < z.length →
    left - 1 ≤ i → i < j → left < j → j ≤ right →
    right - i + 1 ≤ fuel → j - left + 1 ≤ fuel →
    partitionLoopIn fuel (some (z.map Prod.fst)) (some (z.map Prod.snd)) left right i j =
      partitionLoop fuel (some (z.map Prod.fst)) (some (z.map Prod.snd)) left right i j := by
  intro fuel
  induction fuel with
  | zero => intro z i j _ _ _ _ _ hf1 _; simp at hf1; omega
  | succ n ih =>
    intro z i j hr hi1 hij hlj hj hf1 hf2
    push_cast at hf1 hf2
    obtain ⟨i1, s1, s2, s3, _, _⟩ :=
      scanUp_spec z right hr n i (by omega) (by omega) (by omega)
    obtain ⟨j1, t1, t2, t3, _, _⟩ :=
      scanDown_spec z left right hl hr n j (by omega) hj (by omega)
    simp only [partitionLoopIn, partitionLoop,
      scanUpIn_eq z left right hl hr n i hi1 (by omega),
      scanDownIn_eq z left right hl hr n j hlj hj, s1, t1, bind, Except.bind]
    by_cases hc : i1 ≥ j1
    · rw [if_pos hc, if_pos hc]
    · rw [if_neg hc, if_neg hc]
      have hx := exch_spec z i1 j1 (by omega) (by omega) (by omega) (by omega)
      rw [exchIn_eq left right _ _ i1 j1 (by omega) (by omega) (by omega) (by omega), hx]
      simp only
      exact ih (swapZ z i1 j1) i1 j1 (by rw [length_swapZ]; exact hr) (by omega) (by omega)
        (by omega) (by omega) (by omega) (by omega)

theorem partitionIn_eq (z : List (Individual × ℚ)) (left right : Int) (fuel : Nat)
    (hl : 0 ≤ left) (hlr : left < right) (hr : right < z.length)
    (hf : right - left + 2 ≤ fuel) :
    partitionIn fuel (some (z.map Prod.fst)) (some (z.map Prod.snd)) left right =
      partition fuel (some (z.map Prod.fst)) (some (z.map Prod.snd)) left right := by
  obtain ⟨z1, p, r1, _, r3, r4, _, _⟩ := partitionLoop_spec left right hl fuel z
    (left - 1) right hr (by omega) (by omega) (by omega) (by omega) (by intro k h1 h2; omega)
    (by intro k h1 h2; omega) (by omega) (by omega)
  simp only [partitionIn, partition,
    partitionLoopIn_eq left right hl fuel z (left - 1) right hr (le_refl _) (by omega) hlr
      (le_refl _) (by omega) (by omega), r1, bind, Except.bind]
  rw [exchIn_eq left right _ _ p right r3 r4 (by omega) (le_refl _)]

theorem quicksortIn_eq :
    ∀ (fuel : Nat) (z : List (Individual × ℚ)) (left right : Int), 0 ≤ left →
    right < z.length → right - left + 3 ≤ fuel →
    quicksortIn fuel (some (z.map Prod.fst)) (some (z.map Prod.snd)) left right =
      quicksort fuel (some (z.map Prod.fst)) (some (z.map Prod.snd)) left right := by
  intro fuel
  induction fuel with
  | zero => intro z left right _ _ _; rfl
  | succ n ih =>
    intro z left right hl hr hf
    push_cast at hf
    by_cases hrl : right ≤ left
    · simp only [quicksortIn, quicksort, if_pos hrl]
    · obtain ⟨z1, p, p1, p2, p3, p4, _, _, _⟩ :=
        partition_spec z left right n hl (by omega) hr (by omega)
      have hlen1 : z1.length = z.length := p2.1
      obtain ⟨z2, q1, q2, _⟩ := quicksort_spec n z1 left (p - 1) hl (by omega) (by omega)
      have hlen2 : z2.length = z1.length := q2.1
      simp only [quicksortIn, quicksort, if_neg hrl,
        partitionIn_eq z left right n hl (by omega) hr (by omega), p1, bind, Except.bind,
        ih z1 left (p - 1) hl (by omega) (by omega), q1]
      exact ih z2 (p + 1) right (by omega) (by omega) (by omega)

/-- C24: index safety and termination of the sort. Let the population and the fitness buffer
be the two columns of a list `z` of `n` cells and let `0 ≤ left` and `right < n`. Each function
below returns a result (neither an access outside the block nor an exhausted budget), and it
returns the same result when every one of its reads and writes is checked to lie in
`[left, right]` (the functions `scanUpIn`, `scanDownIn`, `partitionIn`, `quicksortIn`), so that
all its accesses lie in `[left, right]`, inside `[0, n - 1]`:
the scan `while (less(a[++i], a[right]))`, started at `left - 1 ≤ i < right`, stops at an index
`i1` with `i < i1 ≤ right` within `right - i` steps;
the scan `while (less(a[right], a[--j]))`, started at `left < j ≤ right`, stops at an index
`j1` with `left ≤ j1 < j` within `j - left` steps;
`partition`, for `left < right`, returns an index `p` with `left ≤ p ≤ right`, so that the two
recursive calls of `quicksort`, on `[left, p - 1]` and `[p + 1, right]`, are on strictly shorter
ranges;
`quicksort` returns within a budget of `right - left + 3` nested calls and leaves the cells
outside `[left, right]` unchanged.
And for every population `l` of size `n ≥ 0` and every fitness function, `GAsort` returns
when its buffer is allocated, the call of `quicksort` that it makes having all its accesses in
`[0, n - 1]`. -/
theorem C24_sort_index_safety {σ : Type} (env : Env σ) (fitness : GAFitnessFnc)
    (l : List Individual) (w : World σ) (z : List (Individual × ℚ)) (left right : Int)
    (hl : 0 ≤ left) (hr : right < z.length) :
    (∀ (fuel : Nat) (i : Int), left - 1 ≤ i → i < right → right - i ≤ fuel →
      ∃ i1, scanUp fuel (some (z.map Prod.snd)) right i = .ok i1 ∧
        scanUpIn fuel (some (z.map Prod.snd)) left right i = .ok i1 ∧ i < i1 ∧ i1 ≤ right) ∧
    (∀ (fuel : Nat) (j : Int), left < j → j ≤ right → j - left ≤ fuel →
      ∃ j1, scanDown fuel (some (z.map Prod.snd)) left right j = .ok j1 ∧
        scanDownIn fuel (some (z.map Prod.snd)) left right j = .ok j1 ∧ left ≤ j1 ∧ j1 < j) ∧
    (left < right → ∀ fuel : Nat, right - left + 2 ≤ fuel →
      ∃ (z1 : List (Individual × ℚ)) (p : Int),
        partition fuel (some (z.map Prod.fst)) (some (z.map Prod.snd)) left right =
          .ok (some (z1.map Prod.fst), some (z1.map Prod.snd), p) ∧
        partitionIn fuel (some (z.map Prod.fst)) (some (z.map Prod.snd)) left right =
          .ok (some (z1.map Prod.fst), some (z1.map Prod.snd), p) ∧
        z1.length = z.length ∧ left ≤ p ∧ p ≤ right ∧
        (p - 1) - left < right - left ∧ right - (p + 1) < right - left) ∧
    (∀ fuel : Nat, right - left + 3 ≤ fuel →
      ∃ z1 : List (Individual × ℚ),
        quicksort fuel (some (z.map Prod.fst)) (some (z.map Prod.snd)) left right =
          .ok (some (z1.map Prod.fst), some (z1.map Prod.snd)) ∧
        quicksortIn fuel (some (z.map Prod.fst)) (some (z.map Prod.snd)) left right =
          .ok (some (z1.map Prod.fst), some (z1.map Prod.snd)) ∧
        z1.length = z.length ∧
        ∀ m, (m < left ∨ right < m) → cellAt z1 m = cellAt z m) ∧
    ((env.malloc l.length w.user).1 = true →
      (∃ l1 : List Individual,
        (GAsort env (some l) fitness l.length w).1 = .ok (some l1) ∧ l1.length = l.length) ∧
      quicksortIn (l.length + 2) (some l) (some (l.map fitness)) 0 ((l.length : Int) - 1) =
        quicksort (l.length + 2) (some l) (some (l.map fitness)) 0 ((l.length : Int) - 1)) := by
  refine ⟨?_, ?_, ?_, ?_, ?_⟩
  · intro fuel i h1 h2 h3
    obtain ⟨i1, s1, s2, s3, _, _⟩ :=
      scanUp_spec z right hr fuel i (by omega) h2 h3
    exact ⟨i1, s1, by rw [scanUpIn_eq z left right hl hr fuel i h1 h2, s1], s2, s3⟩
  · intro fuel j h1 h2 h3
    obtain ⟨j1, t1, t2, t3, _, _⟩ := scanDown_spec z left right hl hr fuel j h1 h2 h3
    exact ⟨j1, t1, by rw [scanDownIn_eq z left right hl hr fuel j h1 h2, t1], t2, t3⟩
  · intro hlr fuel hf
    obtain ⟨z1, p, p1, p2, p3, p4, _, _, _⟩ := partition_spec z left right fuel hl hlr hr hf
    exact ⟨z1, p, p1, by rw [partitionIn_eq z left right fuel hl hlr hr hf, p1], p2.1, p3, p4,
      by omega, by omega⟩
  · intro fuel hf
    obtain ⟨z1, q1, q2, _⟩ := quicksort_spec fuel z left right hl hr hf
    exact ⟨z1, q1, by rw [quicksortIn_eq fuel z left right hl hr hf, q1], q2.1, q2.2.2.1⟩
  · intro halloc
    obtain ⟨l1, h1, h2, _⟩ := GAsort_ok env fitness l w halloc
    refine ⟨⟨l1, by rw [h1], h2.length_eq⟩, ?_⟩
    have e := quicksortIn_eq (l.length + 2) (l.map (fun x => (x, fitness x))) 0
      ((l.length : Int) - 1) (le_refl _) (by simp) (by push_cast; omega)
    simpa [List.map_map, Function.comp_def] using e

/-- Witness of C24: three cells sorted on the whole range, and `GAsort` on a population of
three individuals. -/
theorem C24_sort_index_safety_witness :
    (0 : Int) ≤ 0 ∧ (2 : Int) < ([(1, 1), (2, 3), (3, 2)] : List (Individual × ℚ)).length ∧
    (0 : Int) < 2 ∧ (2 : Int) - 0 + 2 ≤ (4 : Nat) ∧ (2 : Int) - 0 + 3 ≤ (5 : Nat) ∧
    (sampleEnv.malloc ([1, 2, 3] : List Individual).length []).1 = true ∧
    (∃ (z1 : List (Individual × ℚ)) (p : Int),
      partition 4 (some (([(1, 1), (2, 3), (3, 2)] : List (Individual × ℚ)).map Prod.fst))
          (some (([(1, 1), (2, 3), (3, 2)] : List (Individual × ℚ)).map Prod.snd)) 0 2 =
        .ok (some (z1.map Prod.fst), some (z1.map Prod.snd), p) ∧
      partitionIn 4 (some (([(1, 1), (2, 3), (3, 2)] : List (Individual × ℚ)).map Prod.fst))
          (some (([(1, 1), (2, 3), (3, 2)] : List (Individual × ℚ)).map Prod.snd)) 0 2 =
        .ok (some (z1.map Prod.fst), some (z1.map Prod.snd), p) ∧
      z1.length = ([(1, 1), (2, 3), (3, 2)] : List (Individual × ℚ)).length ∧ 0 ≤ p ∧ p ≤ 2 ∧
      (p - 1) - 0 < 2 - 0 ∧ 2 - (p + 1) < 2 - 0) ∧
    (∃ z1 : List (Individual × ℚ),
      quicksort 5 (some (([(1, 1), (2, 3), (3, 2)] : List (Individual × ℚ)).map Prod.fst))
          (some (([(1, 1), (2, 3), (3, 2)] : List (Individual × ℚ)).map Prod.snd)) 0 2 =
        .ok (some (z1.map Prod.fst), some (z1.map Prod.snd)) ∧
      quicksortIn 5 (some (([(1, 1), (2, 3), (3, 2)] : List (Individual × ℚ)).map Prod.fst))
          (some (([(1, 1), (2, 3), (3, 2)] : List (Individual × ℚ)).map Prod.snd)) 0 2 =
        .ok (some (z1.map Prod.fst), some (z1.map Prod.snd)) ∧
      z1.length = ([(1, 1), (2, 3), (3, 2)] : List (Individual × ℚ)).length ∧
      ∀ m, (m < 0 ∨ 2 < m) → cellAt z1 m = cellAt [(1, 1), (2, 3), (3, 2)] m) ∧
    ∃ l1 : List Individual,
      (GAsort sampleEnv (some [1, 2, 3]) sampleFitness
        (([1, 2, 3] : List Individual).length : Int) ⟨[], []⟩).1 = .ok (some l1) ∧
      l1.length = ([1, 2, 3] : List Individual).length :=
  have t := C24_sort_index_safety sampleEnv sampleFitness [1, 2, 3] ⟨[], []⟩
    [(1, 1), (2, 3), (3, 2)] 0 2 (by decide) (by decide)
  ⟨by decide, by decide, by decide, by decide, by decide, rfl,
    t.2.2.1 (by decide) 4 (by decide), t.2.2.2.1 5 (by decide), (t.2.2.2.2 rfl).1⟩

/-! ### The generations of a run with an optional callback -/

theorem afterCallback_log {σ : Type} (callback : Option (GACallbackFnc σ)) (j : Int)
    (population : Population) (popSz : Int) (w : World σ) :
    ∃ cbs : List Event, (afterCallback callback j population popSz w).log = w.log ++ cbs ∧
      (cbs = [] ∨ cbs = [Event.callback j population popSz]) := by
  cases callback with
  | none => exact ⟨[], by simp [afterCallback], Or.inl rfl⟩
  | some cb => exact ⟨[Event.callback j population popSz], rfl, Or.inr rfl⟩

theorem callbackStep_run {σ : Type} (callback : Option (GACallbackFnc σ)) (i : Int)
    (pop1 : Population) (popSz : Int) (w1 : World σ) :
    ∃ stop : Int, ((match callback with
      | some callback => callCallback callback i pop1 popSz
      | none => pure 0) : M σ Int) w1 = (.ok stop, afterCallback callback i pop1 popSz w1) := by
  cases callback with
  | none => exact ⟨0, rfl⟩
  | some cb => exact ⟨_, callCallback_run cb i pop1 popSz w1⟩

/-- Whenever the loop of `GArun` finishes, it has gone through at least one generation, and
its generations are those of `AdvancesWith`; when it is entered with `i + 1 ≥ numGenerations`
it goes through exactly one. -/
theorem GArunLoop_advances {σ : Type} (env : Env σ) (initPopSz popSz numGenerations : Int)
    (fitness : GAFitnessFnc) (crossover : Option (GACrossoverFnc σ))
    (mutate : Option (GAMutateFnc σ)) (callback : Option (GACallbackFnc σ)) :
    ∀ (fuel : Nat) (i : Int) (pop : Population) (w : World σ) (r : Population) (w1 : World σ),
    GArunLoop env initPopSz popSz numGenerations fitness crossover mutate callback fuel i pop
      w = (.ok r, w1) →
    ∃ (g : Generation) (gs : List Generation),
      AdvancesWith env initPopSz popSz fitness crossover mutate callback i pop w (g :: gs) r
        w1 ∧ (i + 1 ≥ numGenerations → gs = []) := by
  intro fuel
  induction fuel with
  | zero =>
    intro i pop w r w1 h
    rw [GArunLoop, liftE_run] at h
    injection h with h _
    exact Except.noConfusion h
  | succ n ih =>
    intro i pop w r w1 h
    rw [GArunLoop_succ] at h
    obtain ⟨pop1, wg, h1, h2⟩ := bind_ok_inv h
    obtain ⟨es, e1, p1⟩ := GAnextGen_log env pop (if i = 0 then initPopSz else popSz) popSz
      fitness crossover mutate (GAselect env) 0 w
    rw [h1] at e1
    obtain ⟨stop, wc, h3, h4⟩ := bind_ok_inv h2
    obtain ⟨stop1, h5⟩ := callbackStep_run callback i pop1 popSz wg
    rw [h5] at h3
    injection h3 with h3a h3b
    injection h3a with h3a
    subst h3a; subst h3b
    by_cases hc : (if i + 1 ≥ numGenerations then (1 : Int) else stop1) = 0
    · rw [if_pos hc] at h4
      obtain ⟨g, gs, hgs, _⟩ := ih _ _ _ _ _ h4
      refine ⟨⟨pop, pop1, es⟩, g :: gs, ⟨rfl, p1, wg, h1, e1, hgs⟩, ?_⟩
      intro hge
      rw [if_pos hge] at hc
      exact absurd hc (by decide)
    · rw [if_neg hc, pure_run] at h4
      injection h4 with h4a h4b
      injection h4a with h4a
      subst h4a; subst h4b
      exact ⟨⟨pop, pop1, es⟩, [], ⟨rfl, p1, wg, h1, e1, rfl, rfl⟩, fun _ => rfl⟩

theorem nextGenArgsOf_append (a b : List Event) :
    nextGenArgsOf (a ++ b) = nextGenArgsOf a ++ nextGenArgsOf b := by
  simp [nextGenArgsOf, List.filterMap_append]

theorem nextGenArgsOf_inner (es : List Event) (h : ∀ e ∈ es, e.inner = true) :
    nextGenArgsOf es = [] := by
  rw [nextGenArgsOf, List.filterMap_eq_nil_iff]
  intro e he
  have := h e he
  cases e <;> simp_all [Event.inner]

/-- The log of a sequence of generations: one `GAnextGen` call per generation, with the
arguments of `expectedNextGens`, and at most one callback call per generation. -/
theorem AdvancesWith_log {σ : Type} (env : Env σ) (initPopSz popSz : Int)
    (fitness : GAFitnessFnc) (crossover : Option (GACrossoverFnc σ))
    (mutate : Option (GAMutateFnc σ)) (callback : Option (GACallbackFnc σ))
    (pop1 : Population) (w1 : World σ) :
    ∀ (gs : List Generation) (j : Int) (pop : Population) (w : World σ),
    AdvancesWith env initPopSz popSz fitness crossover mutate callback j pop w gs pop1 w1 →
    ∃ es : List Event, w1.log = w.log ++ es ∧
      nextGenArgsOf es = expectedNextGens initPopSz popSz j gs ∧
      nextGenCalls es = gs.length ∧ (callbacksOf es).length ≤ gs.length := by
  intro gs
  induction gs with
  | nil =>
    intro j pop w h
    obtain ⟨_, h2⟩ := h
    subst h2
    exact ⟨[], by simp, rfl, rfl, by simp [callbacksOf]⟩
  | cons g gs ih =>
    intro j pop w h
    obtain ⟨hin, hcalls, wg, _, hlog, hrest⟩ := h
    obtain ⟨es, q1, q2, q3, q4⟩ := ih _ _ _ hrest
    obtain ⟨cbs, c1, c2⟩ := afterCallback_log callback j g.output popSz wg
    have hcb1 : nextGenArgsOf cbs = [] := by
      rcases c2 with c2 | c2 <;> rw [c2] <;> rfl
    have hcb2 : nextGenCalls cbs = 0 := by
      rcases c2 with c2 | c2 <;> rw [c2] <;> rfl
    have hcb3 : (callbacksOf cbs).length ≤ 1 := by
      rcases c2 with c2 | c2 <;> rw [c2] <;> simp [callbacksOf]
    refine ⟨Event.GAnextGen pop (if j = 0 then initPopSz else popSz) popSz 0 ::
      (g.calls ++ cbs ++ es), ?_, ?_, ?_, ?_⟩
    · rw [q1, c1, hlog]
      simp only [List.append_assoc, List.cons_append]
    · rw [← List.singleton_append, nextGenArgsOf_append, nextGenArgsOf_append,
        nextGenArgsOf_append, nextGenArgsOf_inner _ hcalls, hcb1, q2, expectedNextGens, hin]
      rfl
    · rw [← List.singleton_append, nextGenCalls_append, nextGenCalls_append,
        nextGenCalls_append, nextGenCalls_inner _ hcalls, hcb2, q3]
      simp only [List.length_cons]
      have e1 : nextGenCalls [Event.GAnextGen pop (if j = 0 then initPopSz else popSz)
          popSz 0] = 1 := rfl
      omega
    · rw [← List.singleton_append, callbacksOf_append, callbacksOf_append,
        callbacksOf_append, callbacksOf_inner _ hcalls]
      simp only [List.length_append, List.length_cons, List.nil_append]
      have e1 : (callbacksOf [Event.GAnextGen pop (if j = 0 then initPopSz else popSz)
          popSz 0]).length = 0 := rfl
      omega

/-- The first generation of a run consumes the initial population: when its `GAnextGen` call
returns a population, the calls made from inside it pass every non-null individual of the
initial population to `deleteIndividual`, once and in order, and free the initial array; when
it returns the null population, they pass nothing to `deleteIndividual` or `free`. -/
theorem AdvancesWith_consume {σ : Type} (env : Env σ) (l0 : List Individual) (popSz : Int)
    (fitness : GAFitnessFnc) (crossover : Option (GACrossoverFnc σ))
    (mutate : Option (GAMutateFnc σ)) (callback : Option (GACallbackFnc σ))
    (g : Generation) (gs : List Generation) (w : World σ) (pop1 : Population) (w1 : World σ)
    (h : AdvancesWith env l0.length popSz fitness crossover mutate callback 0 (some l0) w
      (g :: gs) pop1 w1) :
    g.input = some l0 ∧
    (g.output ≠ none → deletedOf g.calls = l0.filter (fun x => x ≠ NULL) ∧
      freedOf g.calls = [some l0]) ∧
    (g.output = none → deletedOf g.calls = [] ∧ freedOf g.calls = []) := by
  obtain ⟨hin, _, wg, hrun, hlog, _⟩ := h
  rw [if_pos rfl] at hrun hlog
  have hc := GAnextGen_consume env l0 popSz fitness crossover mutate (GAselect env) w _ _ hrun
  have hd : deletedOf wg.log = deletedOf w.log ++ deletedOf g.calls := by
    rw [hlog, deletedOf_append, ← List.singleton_append, deletedOf_append]
    rfl
  have hf : freedOf wg.log = freedOf w.log ++ freedOf g.calls := by
    rw [hlog, freedOf_append, ← List.singleton_append, freedOf_append]
    rfl
  refine ⟨hin, ?_, ?_⟩
  · intro hne
    rcases hc with ⟨h1, _, _⟩ | ⟨l1, _, h2, h3⟩
    · exact absurd h1 hne
    · rw [hd] at h2
      rw [hf] at h3
      exact ⟨List.append_cancel_left h2, List.append_cancel_left h3⟩
  · intro he
    rcases hc with ⟨_, h2, h3⟩ | ⟨l1, h1, _, _⟩
    · rw [hd] at h2
      rw [hf] at h3
      exact ⟨List.append_cancel_left (by rw [h2, List.append_nil]),
        List.append_cancel_left (by rw [h3, List.append_nil])⟩
    · rw [h1] at he
      exact Option.noConfusion he

/-- Every run of the loop of `GArun`, whatever its outcome: the loop goes through a sequence
of completed generations (`AdvancesWith`), after which either it returns, having completed at
least one generation, or it makes one more `GAnextGen` call, with the arguments of the
generation of index `j`, that ends in an error; the loop then ends in that error. -/
theorem GArunLoop_trace {σ : Type} (env : Env σ) (initPopSz popSz numGenerations : Int)
    (fitness : GAFitnessFnc) (crossover : Option (GACrossoverFnc σ))
    (mutate : Option (GAMutateFnc σ)) (callback : Option (GACallbackFnc σ)) :
    ∀ (fuel : Nat) (i : Int) (pop : Population) (w : World σ),
    1 ≤ fuel → numGenerations - i ≤ fuel →
    ∃ (gs : List Generation) (popN : Population) (wN : World σ),
      AdvancesWith env initPopSz popSz fitness crossover mutate callback i pop w gs popN wN ∧
      ((gs ≠ [] ∧
          GArunLoop env initPopSz popSz numGenerations fitness crossover mutate callback fuel i
            pop w = (.ok popN, wN)) ∨
        (∃ (j : Int) (e : Err) (wf : World σ) (es2 : List Event),
          j = i + gs.length ∧
          GArunLoop env initPopSz popSz numGenerations fitness crossover mutate callback fuel i
            pop w = (.error e, wf) ∧
          GAnextGen env popN (if j = 0 then initPopSz else popSz) popSz fitness crossover
            mutate (GAselect env) 0 wN = (.error e, wf) ∧
          wf.log = wN.log ++
            Event.GAnextGen popN (if j = 0 then initPopSz else popSz) popSz 0 :: es2 ∧
          ∀ e ∈ es2, e.inner = true)) := by
  intro fuel
  induction fuel with
  | zero =>
    intro i pop w h1 _
    exact absurd h1 (by decide)
  | succ n ih =>
    intro i pop w _ hfuel
    obtain ⟨es, e1, p1⟩ := GAnextGen_log env pop (if i = 0 then initPopSz else popSz) popSz
      fitness crossover mutate (GAselect env) 0 w
    rcases hg : GAnextGen env pop (if i = 0 then initPopSz else popSz) popSz fitness crossover
      mutate (GAselect env) 0 w with ⟨res, wg⟩
    rw [hg] at e1
    cases res with
    | error e =>
      refine ⟨[], pop, w, ⟨rfl, rfl⟩, Or.inr ⟨i, e, wg, es, by simp, ?_, hg, e1, p1⟩⟩
      rw [GArunLoop_succ]
      exact bind_error hg
    | ok pop1 =>
      obtain ⟨stop1, h5⟩ := callbackStep_run callback i pop1 popSz wg
      by_cases hc : (if i + 1 ≥ numGenerations then (1 : Int) else stop1) = 0
      · have hlt : ¬ (i + 1 ≥ numGenerations) := by
          intro hge
          rw [if_pos hge] at hc
          exact absurd hc (by decide)
        have hloop : GArunLoop env initPopSz popSz numGenerations fitness crossover mutate
            callback (n + 1) i pop w =
            GArunLoop env initPopSz popSz numGenerations fitness crossover mutate callback n
              (i + 1) pop1 (afterCallback callback i pop1 popSz wg) := by
          rw [GArunLoop_succ, bind_ok hg, bind_ok h5, if_pos hc]
        obtain ⟨gs, popN, wN, hadv, hout⟩ := ih (i + 1) pop1
          (afterCallback callback i pop1 popSz wg) (by push_cast at hfuel; omega)
          (by push_cast at hfuel; omega)
        refine ⟨⟨pop, pop1, es⟩ :: gs, popN, wN, ⟨rfl, p1, wg, hg, e1, hadv⟩, ?_⟩
        rcases hout with ⟨_, hok⟩ | ⟨j, e, wf, es2, hj, herr, q1, q2, q3⟩
        · exact Or.inl ⟨List.cons_ne_nil _ _, by rw [hloop, hok]⟩
        · refine Or.inr ⟨j, e, wf, es2, ?_, by rw [hloop, herr], q1, q2, q3⟩
          rw [hj, List.length_cons]
          push_cast
          ring
      · refine ⟨[⟨pop, pop1, es⟩], pop1, afterCallback callback i pop1 popSz wg,
          ⟨rfl, p1, wg, hg, e1, rfl, rfl⟩, Or.inl ⟨List.cons_ne_nil _ _, ?_⟩⟩
        rw [GArunLoop_succ, bind_ok hg, bind_ok h5, if_neg hc]
        rfl

/-- C21 as stated fails: the initial population is not passed to `deleteIndividual` when the
first advance fails. The initial population `[1, 2]` holds two non-null individuals. The
allocation of the new population fails in the first `GAnextGen` call, which `GArun` makes with
`keepOldPopulation = 0`: the call returns the null population and its only log entry is the
record of the call. The log of the `GArun` call holds no `deleteIndividual` call at all. The
`GArun` call itself goes on to rank the null population and ends in an access through the null
pointer. -/
theorem C21_counterexample :
    (∀ x ∈ ([1, 2] : List Individual), x ≠ NULL) ∧
    GAnextGen scriptedEnv (some [1, 2]) 2 2 sampleFitness none none (GAselect scriptedEnv) 0
      ⟨scriptedEnv.initMTrand [false], []⟩ =
      (.ok none, ⟨[], [Event.GAnextGen (some [1, 2]) 2 2 0]⟩) ∧
    (GArun scriptedEnv (some [1, 2]) 2 2 1 sampleFitness none none none ⟨[false], []⟩).2.log =
      [Event.GAnextGen (some [1, 2]) 2 2 0, Event.GAsort none 2] ∧
    deletedOf (GArun scriptedEnv (some [1, 2]) 2 2 1 sampleFitness none none none
      ⟨[false], []⟩).2.log = [] ∧
    (GArun scriptedEnv (some [1, 2]) 2 2 1 sampleFitness none none none ⟨[false], []⟩).1 =
      .error .fault := by
  refine ⟨by decide, rfl, by decide!, by decide!, by decide!⟩

/-- C21, amended: the size and ownership transitions of the driver, in every `GArun` call,
whatever its outcome. The loop of `GArun` goes through a sequence `gs` of generations whose
`GAnextGen` call returned (`AdvancesWith`): the first `GAnextGen` call is made on the initial
population with old size `initPopSz` and new size `popSz`, every later one with old size
`popSz` and new size `popSz` on the population returned by the previous call, and every one
with the selector `GAselect` and `keepOldPopulation = 0`. After these generations, either the
loop is over, at least one generation has been completed and `GAsort` is called on the last
population, or one more `GAnextGen` call is made, with the arguments of the next generation,
which ends in an error, and `GArun` ends in that error. These are all the `GAnextGen` calls in
the log. The first generation is the first `GAnextGen` call whenever that call returns. When
it returns a population, which it does when the initial population is not empty and the new
population is allocated, the calls made from inside it pass every non-null individual of the
initial population to `deleteIndividual`, once and in order, and free the initial array; when
it returns the null population, no individual is passed to `deleteIndividual` and nothing is
freed. With successful allocations, a non-empty initial population and `1 ≤ popSz`, `GArun`
does return. -/
theorem C21_driver_transitions {σ : Type} (env : Env σ) (l0 : List Individual)
    (popSz numGenerations : Int) (fitness : GAFitnessFnc)
    (crossover : Option (GACrossoverFnc σ)) (mutate : Option (GAMutateFnc σ))
    (callback : Option (GACallbackFnc σ)) (w : World σ) :
    (∃ (gs : List Generation) (pop : Population) (w2 : World σ) (es tail : List Event),
      AdvancesWith env l0.length popSz fitness crossover mutate callback 0 (some l0)
        ⟨env.initMTrand w.user, w.log⟩ gs pop w2 ∧
      (GArun env (some l0) l0.length popSz numGenerations fitness crossover mutate callback
        w).2.log = w.log ++ es ++ tail ∧
      w2.log = w.log ++ es ∧
      nextGenArgsOf es = expectedNextGens l0.length popSz 0 gs ∧
      ((gs ≠ [] ∧ ∃ es2 : List Event, tail = Event.GAsort pop popSz :: es2 ∧
          ∀ e ∈ es2, e.inner = true) ∨
        (∃ (e : Err) (es2 : List Event),
          (GArun env (some l0) l0.length popSz numGenerations fitness crossover mutate callback
            w).1 = .error e ∧
          (GAnextGen env pop (if gs.length = 0 then (l0.length : Int) else popSz) popSz fitness
            crossover mutate (GAselect env) 0 w2).1 = .error e ∧
          tail = Event.GAnextGen pop (if gs.length = 0 then (l0.length : Int) else popSz)
            popSz 0 :: es2 ∧
          ∀ e ∈ es2, e.inner = true)) ∧
      (∀ (r : Population) (wg : World σ),
        GAnextGen env (some l0) l0.length popSz fitness crossover mutate (GAselect env) 0
          ⟨env.initMTrand w.user, w.log⟩ = (.ok r, wg) →
        ∃ (g : Generation) (rest : List Generation), gs = g :: rest ∧ g.output = r) ∧
      (∀ (g : Generation) (rest : List Generation), gs = g :: rest →
        g.input = some l0 ∧
        (g.output ≠ none → deletedOf g.calls = l0.filter (fun x => x ≠ NULL) ∧
          freedOf g.calls = [some l0]) ∧
        (g.output = none → deletedOf g.calls = [] ∧ freedOf g.calls = []) ∧
        (1 ≤ l0.length → (env.malloc popSz (env.initMTrand w.user)).1 = true →
          g.output ≠ none))) ∧
    (AllocOk env → 1 ≤ l0.length → 1 ≤ popSz →
      ∃ (l1 : List Individual) (w1 : World σ),
        GArun env (some l0) l0.length popSz numGenerations fitness crossover mutate callback
          w = (.ok (some l1), w1)) := by
  constructor
  · obtain ⟨gs, pop, w2, hadv, hout⟩ := GArunLoop_trace env l0.length popSz numGenerations
      fitness crossover mutate callback (numGenerations.toNat + 1) 0 (some l0)
      ⟨env.initMTrand w.user, w.log⟩ (by omega) (by push_cast; omega)
    obtain ⟨es, q1, q2, _, _⟩ := AdvancesWith_log env l0.length popSz fitness crossover mutate
      callback pop w2 _ _ _ _ hadv
    have q1a : w2.log = w.log ++ es := q1
    have hrun : GArun env (some l0) l0.length popSz numGenerations fitness crossover mutate
        callback w =
        (GArunLoop env l0.length popSz numGenerations fitness crossover mutate callback
          (numGenerations.toNat + 1) 0 (some l0) >>= fun population =>
          GAsort env population fitness popSz) ⟨env.initMTrand w.user, w.log⟩ := by
      unfold GArun
      rw [bind_ok (call_run _ w)]
    have hfirst : ∀ (r : Population) (wg : World σ),
        GAnextGen env (some l0) l0.length popSz fitness crossover mutate (GAselect env) 0
          ⟨env.initMTrand w.user, w.log⟩ = (.ok r, wg) →
        ∃ (g : Generation) (rest : List Generation), gs = g :: rest ∧ g.output = r := by
      intro r wg hr
      cases gs with
      | nil =>
        obtain ⟨hp1, hw1⟩ := hadv
        subst hp1; subst hw1
        rcases hout with ⟨hne, _⟩ | ⟨j, e, wf, es2, hj, _, herr, _, _⟩
        · exact absurd rfl hne
        · simp only [List.length_nil, Nat.cast_zero, add_zero] at hj
          subst hj
          rw [if_pos rfl, hr] at herr
          injection herr with herr _
          exact Except.noConfusion herr
      | cons g rest =>
        obtain ⟨_, _, wg1, hrun1, _, _⟩ := hadv
        rw [if_pos rfl, hr] at hrun1
        injection hrun1 with hrun1 _
        injection hrun1 with hrun1
        exact ⟨g, rest, rfl, hrun1.symm⟩
    have hcons : ∀ (g : Generation) (rest : List Generation), gs = g :: rest →
        g.input = some l0 ∧
        (g.output ≠ none → deletedOf g.calls = l0.filter (fun x => x ≠ NULL) ∧
          freedOf g.calls = [some l0]) ∧
        (g.output = none → deletedOf g.calls = [] ∧ freedOf g.calls = []) ∧
        (1 ≤ l0.length → (env.malloc popSz (env.initMTrand w.user)).1 = true →
          g.output ≠ none) := by
      intro g rest hgs
      subst hgs
      obtain ⟨c1, c2, c3⟩ := AdvancesWith_consume env l0 popSz fitness crossover mutate
        callback g rest _ pop w2 hadv
      refine ⟨c1, c2, c3, ?_⟩
      intro hl0 hm hnone
      obtain ⟨_, _, wg, hrun1, _, _⟩ := hadv
      rw [if_pos rfl] at hrun1
      rcases GAnextGen_ensures env l0 popSz fitness crossover mutate (GAselect env) 0 _ hl0 _
        _ hrun1 with ⟨_, hf⟩ | ⟨l1, _, _, hs, _⟩
      · rw [hm] at hf
        exact Bool.noConfusion hf
      · rw [hs] at hnone
        exact Option.noConfusion hnone
    rcases hout with ⟨hne, hok⟩ | ⟨j, e, wf, es2, hj, herr, hgen, hlog, hin⟩
    · obtain ⟨es2, e3, p3⟩ := GAsort_log env pop fitness popSz w2
      refine ⟨gs, pop, w2, es, Event.GAsort pop popSz :: es2, hadv, ?_, q1a, q2,
        Or.inl ⟨hne, es2, rfl, p3⟩, hfirst, hcons⟩
      rw [hrun, bind_ok hok, e3, q1a]
    · have hj0 : (j = 0) ↔ (gs.length = 0) := by
        rw [hj]
        omega
      have hsz : (if j = 0 then (l0.length : Int) else popSz) =
          (if gs.length = 0 then (l0.length : Int) else popSz) := by
        by_cases h0 : gs.length = 0
        · rw [if_pos h0, if_pos (hj0.2 h0)]
        · rw [if_neg h0, if_neg (fun h => h0 (hj0.1 h))]
      rw [hsz] at hgen hlog
      refine ⟨gs, pop, w2, es, _, hadv, ?_, q1a, q2,
        Or.inr ⟨e, es2, ?_, by rw [hgen], rfl, hin⟩, hfirst, hcons⟩
      · rw [hrun, bind_error herr, hlog, q1a]
      · rw [hrun, bind_error herr]
  · intro halloc hl0 hp
    obtain ⟨r, w1, h1, l1, h2⟩ := GArun_returns env l0 popSz numGenerations fitness crossover
      mutate callback w halloc hl0 hp
    subst h2
    exact ⟨l1, w1, h1⟩

/-- Witness of C21: a run of `2` generations without callback from the initial population
`[1, 2, 3]` to populations of size `4` returns; and in the run of one generation from the
initial population `[1, 2]` in which the allocation of the new population fails, the first
`GAnextGen` call returns the null population, it is the first generation of the run, and the
calls made from inside it pass no individual to `deleteIndividual`. -/
theorem C21_driver_transitions_witness :
    (AllocOk sampleEnv ∧ 1 ≤ ([1, 2, 3] : List Individual).length ∧ (1 : Int) ≤ 4 ∧
      ∃ (l1 : List Individual) (w1 : World (List ℚ)),
        GArun sampleEnv (some [1, 2, 3]) ([1, 2, 3] : List Individual).length 4 2
          sampleFitness none none none ⟨[], []⟩ = (.ok (some l1), w1)) ∧
    (GAnextGen scriptedEnv (some [1, 2]) ([1, 2] : List Individual).length 2 sampleFitness
        none none (GAselect scriptedEnv) 0 ⟨scriptedEnv.initMTrand [false], []⟩ =
        (.ok none, ⟨[], [Event.GAnextGen (some [1, 2]) 2 2 0]⟩) ∧
      ∃ (g : Generation) (rest : List Generation) (pop : Population)
        (w2 : World (List Bool)),
        AdvancesWith scriptedEnv ([1, 2] : List Individual).length 2 sampleFitness none none
          none 0 (some [1, 2]) ⟨scriptedEnv.initMTrand [false], []⟩ (g :: rest) pop w2 ∧
        g.input = some [1, 2] ∧ g.output = none ∧
        deletedOf g.calls = [] ∧ freedOf g.calls = []) := by
  have ha : AllocOk sampleEnv := fun _ _ => rfl
  have hrun : GAnextGen scriptedEnv (some [1, 2]) ([1, 2] : List Individual).length 2
      sampleFitness none none (GAselect scriptedEnv) 0 ⟨scriptedEnv.initMTrand [false], []⟩ =
      (.ok none, ⟨[], [Event.GAnextGen (some [1, 2]) 2 2 0]⟩) := rfl
  refine ⟨⟨ha, by decide, by decide,
    (C21_driver_transitions sampleEnv [1, 2, 3] 4 2 sampleFitness none none none
      ⟨[], []⟩).2 ha (by decide) (by decide)⟩, hrun, ?_⟩
  obtain ⟨gs, pop, w2, es, tail, hadv, _, _, _, _, hfirst, hcons⟩ :=
    (C21_driver_transitions scriptedEnv [1, 2] 2 1 sampleFitness none none none
      ⟨[false], []⟩).1
  obtain ⟨g, rest, hgs, hout⟩ := hfirst _ _ hrun
  obtain ⟨c1, _, c3, _⟩ := hcons g rest hgs
  subst hgs
  exact ⟨g, rest, pop, w2, hadv, c1, hout, (c3 hout).1, (c3 hout).2⟩

/-- A returning `GArun` call is a returning run of its loop followed by the call of `GAsort`
on the population that the loop returned. -/
theorem GArun_split {σ : Type} (env : Env σ) (initialPopulation : Population)
    (initPopSz popSz numGenerations : Int) (fitness : GAFitnessFnc)
    (crossover : Option (GACrossoverFnc σ)) (mutate : Option (GAMutateFnc σ))
    (callback : Option (GACallbackFnc σ)) (w : World σ) (r : Population) (w1 : World σ)
    (h : GArun env initialPopulation initPopSz popSz numGenerations fitness crossover mutate
      callback w = (.ok r, w1)) :
    ∃ (pop : Population) (w2 : World σ) (es2 : List Event),
      GArunLoop env initPopSz popSz numGenerations fitness crossover mutate callback
        (numGenerations.toNat + 1) 0 initialPopulation ⟨env.initMTrand w.user, w.log⟩ =
        (.ok pop, w2) ∧
      w1.log = w2.log ++ Event.GAsort pop popSz :: es2 ∧ ∀ e ∈ es2, e.inner = true := by
  unfold GArun at h
  obtain ⟨_, wa, h1, h2⟩ := bind_ok_inv h
  rw [call_run] at h1
  injection h1 with _ h1
  subst h1
  obtain ⟨pop, w2, h3, h4⟩ := bind_ok_inv h2
  obtain ⟨es2, e3, p3⟩ := GAsort_log env pop fitness popSz w2
  rw [h4] at e3
  exact ⟨pop, w2, es2, h3, e3, p3⟩

/-- C26: `GArun` always performs at least one generation advance. For `numGenerations ≤ 0` and
any callback, whenever `GArun` returns, its loop has gone through exactly one generation: one
`GAnextGen` call, made on the initial population with `keepOldPopulation = 0` (so that the
non-null individuals of the initial population are passed to `deleteIndividual` when the call
returns a population), then at most one callback call, then the call of `GAsort`. For any
`numGenerations` and a callback that is absent or returns `0` at every generation, whenever
`GArun` returns, the number of `GAnextGen` calls before the call of `GAsort` is
`max 1 numGenerations`. With successful allocations, a non-empty initial population and
`1 ≤ popSz`, `GArun` does return, whatever `numGenerations` is. -/
theorem C26_at_least_one_advance {σ : Type} (env : Env σ) (l0 : List Individual)
    (popSz numGenerations : Int) (fitness : GAFitnessFnc)
    (crossover : Option (GACrossoverFnc σ)) (mutate : Option (GAMutateFnc σ))
    (callback : Option (GACallbackFnc σ)) (w : World σ) :
    (numGenerations ≤ 0 → ∀ (r : Population) (w1 : World σ),
      GArun env (some l0) l0.length popSz numGenerations fitness crossover mutate callback w =
        (.ok r, w1) →
      ∃ (g : Generation) (w2 : World σ) (cbs es2 : List Event),
        AdvancesWith env l0.length popSz fitness crossover mutate callback 0 (some l0)
          ⟨env.initMTrand w.user, w.log⟩ [g] g.output w2 ∧
        w1.log = w.log ++ Event.GAnextGen (some l0) l0.length popSz 0 :: (g.calls ++ cbs) ++
          Event.GAsort g.output popSz :: es2 ∧
        (cbs = [] ∨ cbs = [Event.callback 0 g.output popSz]) ∧
        (∀ e ∈ g.calls, e.inner = true) ∧ (∀ e ∈ es2, e.inner = true) ∧
        (g.output ≠ none → deletedOf g.calls = l0.filter (fun x => x ≠ NULL) ∧
          freedOf g.calls = [some l0])) ∧
    ((∀ cb, callback = some cb → ∀ i : Int, 0 ≤ i → ∀ pop sz s, (cb i pop sz s).1 = 0) →
      ∀ (r : Population) (w1 : World σ),
      GArun env (some l0) l0.length popSz numGenerations fitness crossover mutate callback w =
        (.ok r, w1) →
      ∃ (es : List Event) (pop : Population) (es2 : List Event),
        w1.log = w.log ++ es ++ Event.GAsort pop popSz :: es2 ∧
        (nextGenCalls es : Int) = max 1 numGenerations ∧ ∀ e ∈ es2, e.inner = true) ∧
    (AllocOk env → 1 ≤ l0.length → 1 ≤ popSz →
      ∃ (l1 : List Individual) (w1 : World σ),
        GArun env (some l0) l0.length popSz numGenerations fitness crossover mutate callback
          w = (.ok (some l1), w1)) := by
  refine ⟨?_, ?_, ?_⟩
  · intro hnum r w1 h
    obtain ⟨pop, w2, es2, h3, e3, p3⟩ := GArun_split env (some l0) l0.length popSz
      numGenerations fitness crossover mutate callback w r w1 h
    obtain ⟨g, gs, hadv, hgs⟩ := GArunLoop_advances env l0.length popSz numGenerations fitness
      crossover mutate callback _ _ _ _ _ _ h3
    have hnil := hgs (by omega)
    subst hnil
    obtain ⟨_, c2, _⟩ := AdvancesWith_consume env l0 popSz fitness crossover mutate callback
      g [] _ pop w2 hadv
    have hadv1 := hadv
    obtain ⟨_, hcalls, wg, _, hlog, hpop, hw2⟩ := hadv1
    rw [if_pos rfl] at hlog
    subst hpop
    obtain ⟨cbs, b1, b2⟩ := afterCallback_log callback 0 g.output popSz wg
    refine ⟨g, w2, cbs, es2, hadv, ?_, b2, hcalls, p3, c2⟩
    rw [e3, hw2, b1, hlog]
    simp only [List.append_assoc, List.cons_append]
  · intro hcb r w1 h
    obtain ⟨pop, w2, es2, h3, e3, p3⟩ := GArun_split env (some l0) l0.length popSz
      numGenerations fitness crossover mutate callback w r w1 h
    by_cases hnum : numGenerations ≤ 0
    · obtain ⟨g, gs, hadv, hgs⟩ := GArunLoop_advances env l0.length popSz numGenerations
        fitness crossover mutate callback _ _ _ _ _ _ h3
      have hnil := hgs (by omega)
      subst hnil
      obtain ⟨es, q1, _, q3, _⟩ := AdvancesWith_log env l0.length popSz fitness crossover
        mutate callback pop w2 _ _ _ _ hadv
      refine ⟨es, pop, es2, by rw [e3, q1], ?_, p3⟩
      rw [q3, max_eq_left (by omega)]
      rfl
    · obtain ⟨es, q1, q3⟩ := GArunLoop_full_count env l0.length popSz numGenerations fitness
        crossover mutate callback hcb (numGenerations.toNat - 1) _ 0 (some l0) _ (le_refl _)
        (by omega) _ _ h3
      refine ⟨es, pop, es2, by rw [e3, q1], ?_, p3⟩
      rw [q3, max_eq_right (by omega)]
      omega
  · intro halloc hl0 hp
    obtain ⟨r, w1, h1, l1, h2⟩ := GArun_returns env l0 popSz numGenerations fitness crossover
      mutate callback w halloc hl0 hp
    subst h2
    exact ⟨l1, w1, h1⟩

/-- Witness of C26: a run configured for `-3` generations with the callback `stopAt (-1)`,
which returns `0` at every generation. -/
theorem C26_at_least_one_advance_witness :
    (-3 : Int) ≤ 0 ∧
    (∀ cb, some (stopAt (-1) : GACallbackFnc (List ℚ)) = some cb →
      ∀ i : Int, 0 ≤ i → ∀ pop sz s, (cb i pop sz s).1 = 0) ∧
    AllocOk sampleEnv ∧ 1 ≤ ([1, 2, 3] : List Individual).length ∧ (1 : Int) ≤ 4 ∧
    ∃ (l1 : List Individual) (w1 : World (List ℚ)),
      GArun sampleEnv (some [1, 2, 3]) ([1, 2, 3] : List Individual).length 4 (-3)
        sampleFitness none none (some (stopAt (-1))) ⟨[], []⟩ = (.ok (some l1), w1) ∧
      (∃ (g : Generation) (w2 : World (List ℚ)) (cbs es2 : List Event),
        AdvancesWith sampleEnv ([1, 2, 3] : List Individual).length 4 sampleFitness none none
          (some (stopAt (-1))) 0 (some [1, 2, 3]) ⟨sampleEnv.initMTrand [], []⟩ [g] g.output
          w2 ∧
        w1.log = [] ++ Event.GAnextGen (some [1, 2, 3]) ([1, 2, 3] : List Individual).length 4
          0 :: (g.calls ++ cbs) ++ Event.GAsort g.output 4 :: es2 ∧
        (cbs = [] ∨ cbs = [Event.callback 0 g.output 4]) ∧
        (∀ e ∈ g.calls, e.inner = true) ∧ (∀ e ∈ es2, e.inner = true) ∧
        (g.output ≠ none →
          deletedOf g.calls = ([1, 2, 3] : List Individual).filter (fun x => x ≠ NULL) ∧
          freedOf g.calls = [some [1, 2, 3]])) ∧
      ∃ (es : List Event) (pop : Population) (es2 : List Event),
        w1.log = [] ++ es ++ Event.GAsort pop 4 :: es2 ∧
        (nextGenCalls es : Int) = max 1 (-3) ∧ ∀ e ∈ es2, e.inner = true := by
  have ha : AllocOk sampleEnv := fun _ _ => rfl
  have hcb : ∀ cb, some (stopAt (-1) : GACallbackFnc (List ℚ)) = some cb →
      ∀ i : Int, 0 ≤ i → ∀ pop sz s, (cb i pop sz s).1 = 0 := by
    intro cb hcb i hi pop sz s
    injection hcb with hcb
    subst hcb
    have : i ≠ -1 := by omega
    simp [stopAt, this]
  have t := C26_at_least_one_advance sampleEnv [1, 2, 3] 4 (-3) sampleFitness none none
    (some (stopAt (-1))) ⟨[], []⟩
  obtain ⟨l1, w1, h⟩ := t.2.2 ha (by decide) (by decide)
  exact ⟨by decide, hcb, ha, by decide, by decide, l1, w1, h, t.1 (by decide) _ _ h,
    t.2.1 hcb _ _ h⟩

/-! ### `GAnextGen` and its reference definition -/

theorem firstMaxIndex_eq (c : List ℚ) (b : Nat)
    (h : IsFirstMax (fun k => c.getD k 0) c.length b) : firstMaxIndex c = b := by
  obtain ⟨hb, hmax, hfirst⟩ := h
  have hsplit : List.range c.length =
      List.range' 0 b ++ b :: List.range' (b + 1) (c.length - b - 1) := by
    rw [List.range_eq_range']
    have e1 := List.range'_append 0 b (c.length - b) 1
    have e2 : c.length - b + b = c.length := by omega
    have e3 : c.length - b = (c.length - b - 1) + 1 := by omega
    rw [e2] at e1
    rw [← e1]
    simp only [Nat.zero_add, Nat.one_mul]
    rw [e3, List.range'_succ]
    simp
  have hfind : (List.range c.length).find?
      (fun b => (List.range c.length).all (fun k => decide (c.getD k 0 ≤ c.getD b 0))) =
      some b := by
    rw [List.find?_eq_some]
    refine ⟨?_, List.range' 0 b, List.range' (b + 1) (c.length - b - 1), hsplit, ?_⟩
    · rw [List.all_eq_true]
      intro k hk
      exact decide_eq_true (hmax k (List.mem_range.1 hk))
    · intro a ha
      obtain ⟨i, hi, rfl⟩ := List.mem_range'.1 ha
      simp only [Nat.zero_add, Nat.one_mul] at *
      have hlt := hfirst i hi
      simp only [Bool.not_eq_true', List.all_eq_false]
      refine ⟨b, List.mem_range.2 hb, ?_⟩
      simp only [decide_eq_true_eq, not_le]
      exact hlt
  unfold firstMaxIndex
  rw [hfind]
  rfl

theorem nextSlot_ref {σ : Type} (env : Env σ) (l : List Individual)
    (crossover : Option (GACrossoverFnc σ)) (mutate : Option (GAMutateFnc σ))
    (select : GASelectionFnc σ) (hsel : SelectorOk select l.length)
    (arr : List ℚ) (T : ℚ) (w : World σ) (hlen : arr.length = l.length) :
    nextSlot env (some l) l.length crossover mutate select (some arr) T w =
      (.ok ((slotRef env l arr T crossover mutate select w.user).1, some arr),
        ⟨(slotRef env l arr T crossover mutate select w.user).2.1,
          w.log ++ (slotRef env l arr T crossover mutate select w.user).2.2⟩) := by
  obtain ⟨k, hk1, hk2⟩ := hsel (some l) arr T w.user hlen
  have r1 := rd_nat l k NULL hk2
  cases crossover with
  | none =>
    cases mutate with
    | none =>
      simp only [nextSlot, bind_run, callSelect_run, hk1, liftE_run, r1, callClone_run,
        pure_run, slotRef, selectedIndex, Int.toNat_ofNat, List.append_assoc,
        List.singleton_append]
    | some mu =>
      simp only [nextSlot, bind_run, callSelect_run, hk1, liftE_run, r1, callClone_run,
        pure_run, callMutate_run, slotRef, selectedIndex, Int.toNat_ofNat, List.append_assoc,
        List.singleton_append, List.cons_append, List.nil_append]
  | some co =>
    have hka : k < arr.length := by omega
    have r2 := rd_nat arr k 0 hka
    have w2 := wr_nat arr k (0 : ℚ) hka
    obtain ⟨k2, hk3, hk4⟩ := hsel (some l) (arr.set k 0) T
      (select (some l) (some arr) T l.length w.user).2 (by simpa using hlen)
    have w3 := wr_nat (arr.set k 0) k (arr.getD k 0) (by simpa using hka)
    have hback : (arr.set k 0).set k (arr.getD k 0) = arr :=
      set_zero_set_back arr k _ (by
        rw [List.getD_eq_getElem?_getD, List.getElem?_eq_getElem hka]; rfl)
    rw [hback] at w3
    have r3 := rd_nat l k2 NULL hk4
    cases mutate with
    | none =>
      simp only [nextSlot, bind_run, callSelect_run, hk1, liftE_run, r1, r2, w2, hk3, w3, r3,
        callCrossover_run, pure_run, slotRef, selectedIndex, Int.toNat_ofNat,
        List.append_assoc, List.singleton_append, List.cons_append, List.nil_append]
    | some mu =>
      simp only [nextSlot, bind_run, callSelect_run, hk1, liftE_run, r1, r2, w2, hk3, w3, r3,
        callCrossover_run, pure_run, callMutate_run, slotRef, selectedIndex, Int.toNat_ofNat,
        List.append_assoc, List.singleton_append, List.cons_append, List.nil_append]

theorem take_succ_set (np : List Individual) (i : Nat) (x : Individual) (hi : i < np.length) :
    (np.set i x).take (i + 1) = np.take i ++ [x] := by
  apply List.ext_getElem?
  intro j
  by_cases hj : j < i
  · rw [List.getElem?_take_of_lt (by omega), List.getElem?_set_ne (by omega),
      List.getElem?_append_left (by rw [List.length_take]; omega),
      List.getElem?_take_of_lt hj]
  · by_cases hji : j = i
    · subst hji
      rw [List.getElem?_take_of_lt (by omega), List.getElem?_set_eq_of_lt _ hi,
        List.getElem?_append_right (by rw [List.length_take]; omega)]
      simp [List.length_take, Nat.min_eq_left (Nat.le_of_lt hi)]
    · rw [List.getElem?_eq_none (by simp [List.length_take]; omega),
        List.getElem?_eq_none (by simp [List.length_take]; omega)]

theorem slotLoop_ref {σ : Type} (env : Env σ) (l : List Individual)
    (crossover : Option (GACrossoverFnc σ)) (mutate : Option (GAMutateFnc σ))
    (select : GASelectionFnc σ) (hsel : SelectorOk select l.length)
    (arr : List ℚ) (T : ℚ) (hlen : arr.length = l.length) :
    ∀ (n i : Nat) (np : List Individual) (w : World σ), i + n = np.length →
    slotLoop env (some l) l.length crossover mutate select T n (i : Int) (some arr) (some np)
        w =
      (.ok (some (np.take i ++ (slotsRef env l arr T crossover mutate select n w.user).1)),
        ⟨(slotsRef env l arr T crossover mutate select n w.user).2.1,
          w.log ++ (slotsRef env l arr T crossover mutate select n w.user).2.2⟩) := by
  intro n
  induction n with
  | zero =>
    intro i np w hi
    simp only [slotLoop, pure_run, slotsRef, List.append_nil]
    rw [List.take_of_length_le (by omega)]
  | succ n ih =>
    intro i np w hi
    have h1 := nextSlot_ref env l crossover mutate select hsel arr T w hlen
    have w2 := wr_nat np i (slotRef env l arr T crossover mutate select w.user).1 (by omega)
    have h3 := ih (i + 1) (np.set i (slotRef env l arr T crossover mutate select w.user).1)
      ⟨(slotRef env l arr T crossover mutate select w.user).2.1,
        w.log ++ (slotRef env l arr T crossover mutate select w.user).2.2⟩
      (by rw [List.length_set]; omega)
    push_cast at h3
    rw [slotLoop, bind_ok h1]
    simp only
    rw [w2, bind_ok (liftE_run _ _), h3, take_succ_set np i _ (by omega)]
    simp only [slotsRef, List.append_assoc, List.singleton_append]

/-- C22: `GAnextGen` equals its reference definition slot by slot. Let the old population `l`
have size `≥ 1`, let `newPopSz ≥ 1`, let the two allocations succeed and let the selector
return valid indices. Then `GAnextGen` returns the population of the reference `GAnextGenRef`,
computed from the state of the outside world after the two allocations: slot `0` is
`clone(old[b])`, `b` being the smallest index whose clamped fitness is maximal, and each slot
`i ≥ 1` is that of `slotRef`. The calls `GAnextGen` makes are: the fitness evaluations of the
old population in order, then exactly the calls of the reference (one `clone` for slot `0`;
for each later slot the selector call, then either a second selector call and `crossover`, or
`clone`, then `mutate` when it is given), then calls that make no individual (the deletion
of the old population when `keepOldPopulation = 0`, nothing otherwise). -/
theorem C22_GAnextGen_reference {σ : Type} (env : Env σ) (l : List Individual)
    (newPopSz : Int) (fitness : GAFitnessFnc) (crossover : Option (GACrossoverFnc σ))
    (mutate : Option (GAMutateFnc σ)) (select : GASelectionFnc σ) (keepOldPopulation : Int)
    (w : World σ) (hl : 1 ≤ l.length) (hm : 1 ≤ newPopSz)
    (h1 : (env.malloc newPopSz w.user).1 = true)
    (h2 : (env.malloc l.length (env.malloc newPopSz w.user).2).1 = true)
    (hsel : SelectorOk select l.length) :
    ∃ (w1 : World σ) (post : List Event),
      GAnextGen env (some l) l.length newPopSz fitness crossover mutate select
          keepOldPopulation w =
        (.ok (some (GAnextGenRef env l newPopSz fitness crossover mutate select
          (env.malloc l.length (env.malloc newPopSz w.user).2).2).1), w1) ∧
      w1.log = w.log ++ Event.GAnextGen (some l) l.length newPopSz keepOldPopulation ::
        (l.map Event.fitness ++
          (GAnextGenRef env l newPopSz fitness crossover mutate select
            (env.malloc l.length (env.malloc newPopSz w.user).2).2).2.2 ++ post) ∧
      (∀ e ∈ post, e.making = false) ∧
      (keepOldPopulation ≠ 0 → post = [] ∧
        w1.user = (GAnextGenRef env l newPopSz fitness crossover mutate select
          (env.malloc l.length (env.malloc newPopSz w.user).2).2).2.1) ∧
      IsFirstMax (fun k => clamped fitness (l.getD k NULL)) l.length
        (firstMaxIndex (l.map (clamped fitness))) := by
  obtain ⟨b, hb1, hb2⟩ := fitnessLoop_spec fitness l l.length 0 0
    (List.replicate l.length (0 : ℚ)) 0
    (⟨(env.malloc l.length (env.malloc newPopSz w.user).2).2,
      w.log ++ [Event.GAnextGen (some l) l.length newPopSz keepOldPopulation]⟩ : World σ)
    (by omega) (by simp) (fun k hk => by omega) (Or.inl ⟨rfl, rfl⟩)
  have hmax := hb2 hl
  have hfm : firstMaxIndex (l.map (clamped fitness)) = b := by
    apply firstMaxIndex_eq
    have hcongr : ∀ k, k < l.length →
        (l.map (clamped fitness)).getD k 0 = clamped fitness (l.getD k NULL) := by
      intro k hk
      simp [List.getD_eq_getElem?_getD, List.getElem?_eq_getElem hk]
    rw [List.length_map]
    refine ⟨hmax.1, ?_, ?_⟩
    · intro k hk
      show (l.map (clamped fitness)).getD k 0 ≤ (l.map (clamped fitness)).getD b 0
      rw [hcongr k hk, hcongr b hmax.1]
      exact hmax.2.1 k hk
    · intro k hk
      show (l.map (clamped fitness)).getD k 0 < (l.map (clamped fitness)).getD b 0
      rw [hcongr k (by have := hmax.1; omega), hcongr b hmax.1]
      exact hmax.2.2 k hk
  have r1 := rd_nat l b NULL hmax.1
  simp only [Nat.cast_zero, List.drop_zero, zero_add] at hb1
  unfold GAnextGen
  rw [bind_ok (logEvent_run _ _), bind_ok (malloc_run env NULL newPopSz _)]
  simp only [h1, if_true]
  rw [if_neg (by simp), bind_ok (malloc_run env (0 : ℚ) l.length _)]
  simp only [h2, if_true, Int.toNat_ofNat]
  rw [bind_ok hb1]
  simp only
  rw [r1, bind_ok (liftE_run _ _), bind_ok (callClone_run _ _ _)]
  simp only
  have hrl : 0 < (List.replicate newPopSz.toNat NULL).length := by
    rw [List.length_replicate]; omega
  have hw := wr_nat (List.replicate newPopSz.toNat NULL) 0
    (env.clone (l.getD b NULL) (env.malloc l.length (env.malloc newPopSz w.user).2).2).1 hrl
  simp only [Nat.cast_zero] at hw
  rw [hw, bind_ok (liftE_run _ _)]
  have hs := slotLoop_ref env l crossover mutate select hsel (l.map (clamped fitness))
    (l.map (clamped fitness)).sum (by simp) (newPopSz - 1).toNat 1
    ((List.replicate newPopSz.toNat NULL).set 0
      (env.clone (l.getD b NULL) (env.malloc l.length (env.malloc newPopSz w.user).2).2).1)
    (⟨(env.clone (l.getD b NULL) (env.malloc l.length (env.malloc newPopSz w.user).2).2).2,
      w.log ++ [Event.GAnextGen (some l) l.length newPopSz keepOldPopulation] ++
        List.map Event.fitness l ++ [Event.clone (l.getD b NULL)]⟩ : World σ)
    (by rw [List.length_set, List.length_replicate]; omega)
  simp only [Nat.cast_one] at hs
  rw [bind_ok hs]
  have htake := take_succ_set (List.replicate newPopSz.toNat NULL) 0
    (env.clone (l.getD b NULL) (env.malloc l.length (env.malloc newPopSz w.user).2).2).1 hrl
  simp only [Nat.zero_add, List.take_zero, List.nil_append] at htake
  rw [htake]
  have href : GAnextGenRef env l newPopSz fitness crossover mutate select
      (env.malloc l.length (env.malloc newPopSz w.user).2).2 =
      ((env.clone (l.getD b NULL) (env.malloc l.length (env.malloc newPopSz w.user).2).2).1 ::
        (slotsRef env l (l.map (clamped fitness)) (l.map (clamped fitness)).sum crossover
          mutate select (newPopSz - 1).toNat
          (env.clone (l.getD b NULL)
            (env.malloc l.length (env.malloc newPopSz w.user).2).2).2).1,
        (slotsRef env l (l.map (clamped fitness)) (l.map (clamped fitness)).sum crossover
          mutate select (newPopSz - 1).toNat
          (env.clone (l.getD b NULL)
            (env.malloc l.length (env.malloc newPopSz w.user).2).2).2).2.1,
        Event.clone (l.getD b NULL) ::
          (slotsRef env l (l.map (clamped fitness)) (l.map (clamped fitness)).sum crossover
            mutate select (newPopSz - 1).toNat
            (env.clone (l.getD b NULL)
              (env.malloc l.length (env.malloc newPopSz w.user).2).2).2).2.2) := by
    simp only [GAnextGenRef, hfm]
  rw [href, hfm]
  by_cases hk : keepOldPopulation = 0
  · rw [if_pos hk]
    obtain ⟨wd, d1, d2⟩ := deleteLoop_spec env l l.length 0
      (⟨(slotsRef env l (l.map (clamped fitness)) (l.map (clamped fitness)).sum crossover
          mutate select (newPopSz - 1).toNat
          (env.clone (l.getD b NULL)
            (env.malloc l.length (env.malloc newPopSz w.user).2).2).2).2.1,
        w.log ++ [Event.GAnextGen (some l) l.length newPopSz keepOldPopulation] ++
          List.map Event.fitness l ++ [Event.clone (l.getD b NULL)] ++
          (slotsRef env l (l.map (clamped fitness)) (l.map (clamped fitness)).sum crossover
            mutate select (newPopSz - 1).toNat
            (env.clone (l.getD b NULL)
              (env.malloc l.length (env.malloc newPopSz w.user).2).2).2).2.2⟩ : World σ)
      (by omega)
    simp only [Nat.cast_zero, List.drop_zero] at d1 d2
    rw [bind_ok d1, bind_ok (logEvent_run _ _), pure_run]
    refine ⟨_, (l.filter (fun x => x ≠ NULL)).map Event.deleteIndividual ++
      [Event.free (some l)], rfl, ?_, ?_, fun h => absurd hk h, hmax⟩
    · simp only [d2, List.append_assoc, List.singleton_append, List.cons_append,
        List.nil_append]
    · intro e he
      rcases List.mem_append.1 he with h | h
      · obtain ⟨x, _, hx⟩ := List.mem_map.1 h
        subst hx; rfl
      · rw [List.mem_singleton.1 h]; rfl
  · rw [if_neg hk, bind_ok (pure_run _ _), pure_run]
    refine ⟨_, [], rfl, ?_, by simp, fun _ => ⟨rfl, rfl⟩, hmax⟩
    simp only [List.append_assoc, List.singleton_append, List.cons_append, List.nil_append,
      List.append_nil]

/-- Witness of C22: the old population `[1, 2, 3]` with the crossover `blend`, a new population
of size `3` and the random values `3/4, 1/4, 1/2, 1/4`; the reference population is
`[103, 205, 205]`. -/
theorem C22_GAnextGen_reference_witness :
    1 ≤ ([1, 2, 3] : List Individual).length ∧ (1 : Int) ≤ 3 ∧
    (sampleEnv.malloc 3 [3 / 4, 1 / 4, 1 / 2, 1 / 4]).1 = true ∧
    (sampleEnv.malloc ([1, 2, 3] : List Individual).length
      (sampleEnv.malloc 3 [3 / 4, 1 / 4, 1 / 2, 1 / 4]).2).1 = true ∧
    SelectorOk (GAselect sampleEnv) ([1, 2, 3] : List Individual).length ∧
    (GAnextGenRef sampleEnv [1, 2, 3] 3 sampleFitness (some blend) none (GAselect sampleEnv)
      [3 / 4, 1 / 4, 1 / 2, 1 / 4]).1 = [103, 205, 205] ∧
    ∃ (w1 : World (List ℚ)) (post : List Event),
      GAnextGen sampleEnv (some [1, 2, 3]) ([1, 2, 3] : List Individual).length 3
          sampleFitness (some blend) none (GAselect sampleEnv) 1
          ⟨[3 / 4, 1 / 4, 1 / 2, 1 / 4], []⟩ =
        (.ok (some (GAnextGenRef sampleEnv [1, 2, 3] 3 sampleFitness (some blend) none
          (GAselect sampleEnv)
          (sampleEnv.malloc ([1, 2, 3] : List Individual).length
            (sampleEnv.malloc 3 [3 / 4, 1 / 4, 1 / 2, 1 / 4]).2).2).1), w1) ∧
      w1.log = [] ++ Event.GAnextGen (some [1, 2, 3]) ([1, 2, 3] : List Individual).length 3
        1 :: (([1, 2, 3] : List Individual).map Event.fitness ++
          (GAnextGenRef sampleEnv [1, 2, 3] 3 sampleFitness (some blend) none
            (GAselect sampleEnv)
            (sampleEnv.malloc ([1, 2, 3] : List Individual).length
              (sampleEnv.malloc 3 [3 / 4, 1 / 4, 1 / 2, 1 / 4]).2).2).2.2 ++ post) ∧
      (∀ e ∈ post, e.making = false) ∧
      ((1 : Int) ≠ 0 → post = [] ∧
        w1.user = (GAnextGenRef sampleEnv [1, 2, 3] 3 sampleFitness (some blend) none
          (GAselect sampleEnv)
          (sampleEnv.malloc ([1, 2, 3] : List Individual).length
            (sampleEnv.malloc 3 [3 / 4, 1 / 4, 1 / 2, 1 / 4]).2).2).2.1) ∧
      IsFirstMax (fun k => clamped sampleFitness (([1, 2, 3] : List Individual).getD k NULL))
        ([1, 2, 3] : List Individual).length
        (firstMaxIndex (([1, 2, 3] : List Individual).map (clamped sampleFitness))) :=
  have hs : SelectorOk (GAselect sampleEnv) ([1, 2, 3] : List Individual).length :=
    GAselect_selectorOk sampleEnv 3 (by decide)
  ⟨by decide, by decide, rfl, rfl, hs, by decide!,
    C22_GAnextGen_reference sampleEnv [1, 2, 3] 3 sampleFitness (some blend) none
      (GAselect sampleEnv) 1 ⟨[3 / 4, 1 / 4, 1 / 2, 1 / 4], []⟩ (by decide) (by decide) rfl rfl
      hs⟩
end GA
